import Mathlib

set_option maxHeartbeats 1000000

/-!
Verification development for the `lab0-c` queue (`queue.c`, present in two
variants in this repository).  The queue is a sentinel-rooted circular doubly
linked list of elements, each owning one C string.  We embed

* the string payloads as lists of nonzero bytes, with `strcmp` modelled from
  the spec of the C library comparison the code calls;
* each queue operation as a function on the abstract sequence of elements,
  translated from the corresponding loop in `queue.c`;
* the pointer structure as an explicit next/prev state over node ids, in order
  to state the doubly-linked-circularity invariant.
-/

namespace Lab0

/-- A C string is modelled as its list of bytes up to (and excluding) the
terminating NUL; the bytes of a well-formed C string are nonzero, so the list
determines the string. -/
abbrev Str := List Nat

/-- Modelled from the spec: the comparison is "a total order over string
payload by lexicographic byte comparison (strcmp)".  `strcmp` itself is libc
code, not part of this repository; we model it as the lexicographic comparison
of the byte lists, returning an `Ordering` in place of the C sign convention. -/
def strcmp : Str → Str → Ordering
  | [], [] => Ordering.eq
  | [], _ :: _ => Ordering.lt
  | _ :: _, [] => Ordering.gt
  | a :: as, b :: bs =>
      if a < b then Ordering.lt
      else if b < a then Ordering.gt
      else strcmp as bs

/-- The boolean test `strcmp(sa, sb) <= 0` used by the merge steps of
`q_sort`. -/
def sle (a b : Str) : Bool := decide (strcmp a b ≠ Ordering.gt)

theorem sle_true_iff (a b : Str) : sle a b = true ↔ strcmp a b ≠ Ordering.gt := by
  simp [sle]

theorem strcmp_eq_iff : ∀ a b : Str, strcmp a b = Ordering.eq ↔ a = b := by
  intro a
  induction a with
  | nil => intro b; cases b <;> simp [strcmp]
  | cons x xs ih =>
      intro b
      cases b with
      | nil => simp [strcmp]
      | cons y ys =>
          by_cases hxy : x < y
          · simp [strcmp, hxy]; omega
          · by_cases hyx : y < x
            · simp [strcmp, hxy, hyx]; omega
            · have hxy' : x = y := by omega
              simp [strcmp, hxy, hyx, hxy', ih]

theorem strcmp_gt_iff_lt : ∀ a b : Str,
    strcmp a b = Ordering.gt ↔ strcmp b a = Ordering.lt := by
  intro a
  induction a with
  | nil => intro b; cases b <;> simp [strcmp]
  | cons x xs ih =>
      intro b
      cases b with
      | nil => simp [strcmp]
      | cons y ys =>
          by_cases hxy : x < y
          · have : ¬ y < x := by omega
            simp [strcmp, hxy, this]
          · by_cases hyx : y < x
            · simp [strcmp, hxy, hyx]
            · simp [strcmp, hxy, hyx, ih]

theorem strcmp_lt_trans : ∀ a b c : Str,
    strcmp a b = Ordering.lt → strcmp b c = Ordering.lt →
    strcmp a c = Ordering.lt := by
  intro a
  induction a with
  | nil =>
      intro b c hab hbc
      cases b with
      | nil => exact hbc
      | cons y ys =>
          cases c with
          | nil => simp [strcmp] at hbc
          | cons z zs => simp [strcmp]
  | cons x xs ih =>
      intro b c hab hbc
      cases b with
      | nil => simp [strcmp] at hab
      | cons y ys =>
          cases c with
          | nil => simp [strcmp] at hbc
          | cons z zs =>
              simp only [strcmp] at hab hbc ⊢
              by_cases hxy : x < y
              · by_cases hyz : y < z
                · have hxz : x < z := by omega
                  simp [hxz]
                · by_cases hzy : z < y
                  · simp [hxy, hyz, hzy] at hbc
                  · have hyz' : y = z := by omega
                    have hxz : x < z := by omega
                    simp [hxz]
              · by_cases hyx : y < x
                · simp [hxy, hyx] at hab
                · have hxy' : x = y := by omega
                  by_cases hyz : y < z
                  · have hxz : x < z := by omega
                    simp [hxz]
                  · by_cases hzy : z < y
                    · simp [hyz, hzy] at hbc
                    · have hxz : ¬ x < z := by omega
                      have hzx : ¬ z < x := by omega
                      simp [hxy, hyx] at hab
                      simp [hyz, hzy] at hbc
                      simp [hxz, hzx]
                      exact ih _ _ hab hbc

theorem sle_total (a b : Str) : sle a b = true ∨ sle b a = true := by
  by_cases h : strcmp a b = Ordering.gt
  · right
    have hlt : strcmp b a = Ordering.lt := (strcmp_gt_iff_lt a b).mp h
    exact (sle_true_iff b a).mpr (by simp [hlt])
  · left; exact (sle_true_iff a b).mpr h

theorem sle_iff (a b : Str) :
    sle a b = true ↔ (strcmp a b = Ordering.lt ∨ a = b) := by
  constructor
  · intro h
    have h' : strcmp a b ≠ Ordering.gt := (sle_true_iff a b).mp h
    rcases ho : strcmp a b with _ | _ | _
    · left; rfl
    · right; exact (strcmp_eq_iff a b).mp ho
    · exact absurd ho h'
  · intro h
    rcases h with h | h
    · exact (sle_true_iff a b).mpr (by simp [h])
    · subst h
      have heq : strcmp a a = Ordering.eq := (strcmp_eq_iff a a).mpr rfl
      exact (sle_true_iff a a).mpr (by simp [heq])

theorem sle_trans {a b c : Str} (hab : sle a b = true) (hbc : sle b c = true) :
    sle a c = true := by
  rcases (sle_iff a b).mp hab with h1 | h1
  · rcases (sle_iff b c).mp hbc with h2 | h2
    · exact (sle_iff a c).mpr (Or.inl (strcmp_lt_trans a b c h1 h2))
    · subst h2; exact hab
  · subst h1; exact hbc

theorem sle_refl (a : Str) : sle a a = true :=
  (sle_iff a a).mpr (Or.inr rfl)

theorem sle_of_not_sle {a b : Str} (h : ¬ sle a b = true) : sle b a = true := by
  rcases sle_total a b with h' | h'
  · exact absurd h' h
  · exact h'

/-! ## The merge-sort engine

`q_sort` in both variants of `queue.c` temporarily treats the list as a
null-terminated singly linked chain; a null-terminated chain of elements is
embedded as a `List α`.  The element type is kept abstract (`α`) with the
comparison `le` abstract as well, so that the same development serves both the
plain payload lists and the tagged lists used for the stability claims. -/

section SortEngine

variable {α : Type} (le : α → α → Bool)

/-- `merge` from `queue.c` (both variants: part_000 lines 301-333 with
explicit NULL checks, part_001 lines 279-297 whose `while (a && b)` loop plus
`tail->next = a | b` has the same recursion): repeatedly take the head of `a`
when `strcmp(sa, sb) <= 0` (i.e. `le` holds, ties taking `a`), otherwise the
head of `b`, and append the non-exhausted remainder. -/
def merge : List α → List α → List α
  | [], b => b
  | a :: as, [] => a :: as
  | a :: as, b :: bs =>
      if le a b then a :: merge as (b :: bs) else b :: merge (a :: as) bs
termination_by a b => a.length + b.length

/-- One execution of the inner `for (i = 0; i < 32 && pending[i]; i++)` loop
of `q_sort` together with the `if (i == 32) i--; pending[i] = result;` store:
carry the run `run` upward through the pending buckets, merging occupied
buckets (the bucket as the left argument, as in
`result = merge(pending[i], result)`), until an empty bucket receives it; if
every bucket is occupied the run is forced into the last bucket. -/
def carry (run : List α) : List (Option (List α)) → List (Option (List α))
  | [] => []
  | [none] => [some run]
  | [some r] => [some (merge le r run)]
  | none :: rest => some run :: rest
  | some r :: rest => none :: carry (merge le r run) rest

/-- The outer `while (result)` loop of `q_sort`: detach one element at a time
from the input chain and carry it into the pending buckets. -/
def buildPending : List α → List (Option (List α)) → List (Option (List α))
  | [], pend => pend
  | x :: rest, pend => buildPending rest (carry le [x] pend)

/-- The elements held in the pending buckets, oldest first: bucket 31's run,
then bucket 30's, ..., then bucket 0's (higher buckets hold runs made of
earlier input elements). -/
def flat (pend : List (Option (List α))) : List α :=
  pend.foldl (fun acc s => s.getD [] ++ acc) []

/-- The final loop of part_000's `q_sort` (lines 368-371):
`result = NULL; for (i = 0; i < 32; i++) result = merge(array[i], result);`,
each bucket entering as the left argument of `merge`. -/
def mergeAll0 (pend : List (Option (List α))) : List α :=
  pend.foldl (fun acc s => merge le (s.getD []) acc) []

/-- The final phase of part_001's `q_sort` (lines 361-366): buckets 0..30 are
folded as in part_000, and the result is then handed to
`merge_final(head, result, pending[31])` as its *left* argument with bucket 31
on the right; `merge_final` consumes elements in the same order as `merge`
(ties take the left argument) while also rebuilding `prev` pointers. -/
def mergeAll1 (pend : List (Option (List α))) : List α :=
  merge le ((pend.take 31).foldl (fun acc s => merge le (s.getD []) acc) [])
    ((pend.getD 31 none).getD [])

/-- `q_sort` from part_000 (lines 340-380).  The guard
`!head || head->next == head->prev` returns unchanged exactly for an absent
list, the empty list (`next == prev == head`) and a singleton
(`next == prev == the element`), i.e. whenever the chain has at most one
element; `struct list_head *array[32] = {}` is the 32 empty pending buckets. -/
def q_sort0 (l : List α) : List α :=
  if l.length ≤ 1 then l
  else mergeAll0 le (buildPending le l (List.replicate 32 none))

/-- `q_sort` from part_001 (lines 334-367), identical to part_000 except for
its final phase (`mergeAll1`). -/
def q_sort1 (l : List α) : List α :=
  if l.length ≤ 1 then l
  else mergeAll1 le (buildPending le l (List.replicate 32 none))

/-- Our `merge` is the two-pointer merge of the standard library. -/
theorem merge_eq_lib : ∀ xs ys : List α, merge le xs ys = List.merge xs ys le
  | [], ys => by simp [merge]
  | x :: xs, [] => by simp [merge]
  | x :: xs, y :: ys => by
      rw [merge, List.merge]
      by_cases h : le x y
      · rw [if_pos h, if_pos h, merge_eq_lib]
      · rw [if_neg h, if_neg h, merge_eq_lib]

theorem merge_perm (xs ys : List α) : List.Perm (merge le xs ys) (xs ++ ys) := by
  rw [merge_eq_lib]; exact List.merge_perm_append le

/-- Sortedness of a chain, as the pairwise comparison holding. -/
def Srt (l : List α) : Prop := List.Pairwise (fun a b => le a b = true) l

theorem merge_sorted
    (htrans : ∀ a b c, le a b = true → le b c = true → le a c = true)
    (htotal : ∀ a b, le a b = true ∨ le b a = true)
    {xs ys : List α} (hxs : Srt le xs) (hys : Srt le ys) :
    Srt le (merge le xs ys) := by
  rw [merge_eq_lib]
  exact List.sorted_merge htrans
    (fun a b => by rcases htotal a b with h | h <;> simp [h]) xs ys hxs hys

theorem flat_aux (pend : List (Option (List α))) : ∀ acc : List α,
    pend.foldl (fun acc s => s.getD [] ++ acc) acc = flat pend ++ acc := by
  induction pend with
  | nil => intro acc; simp [flat]
  | cons s rest ih =>
      intro acc
      show rest.foldl _ (s.getD [] ++ acc) = flat (s :: rest) ++ acc
      rw [ih (s.getD [] ++ acc)]
      show flat rest ++ (s.getD [] ++ acc) = flat (s :: rest) ++ acc
      have : flat (s :: rest) = flat rest ++ s.getD [] := by
        show rest.foldl _ (s.getD [] ++ []) = _
        rw [ih (s.getD [] ++ [])]; simp
      rw [this, List.append_assoc]

theorem flat_cons (s : Option (List α)) (rest : List (Option (List α))) :
    flat (s :: rest) = flat rest ++ s.getD [] := by
  show rest.foldl _ (s.getD [] ++ []) = _
  rw [flat_aux]; simp

theorem flat_append (p q : List (Option (List α))) :
    flat (p ++ q) = flat q ++ flat p := by
  induction p with
  | nil => simp [flat]
  | cons s rest ih =>
      rw [List.cons_append, flat_cons, flat_cons, ih, List.append_assoc]

theorem carry_length (run : List α) :
    ∀ pend : List (Option (List α)), (carry le run pend).length = pend.length := by
  intro pend
  induction pend generalizing run with
  | nil => simp [carry]
  | cons s rest ih =>
      cases s with
      | none => cases rest <;> simp [carry]
      | some r =>
          cases rest with
          | nil => simp [carry]
          | cons s' rest' => simp [carry, ih]

theorem carry_flat_perm (run : List α) :
    ∀ pend : List (Option (List α)), pend ≠ [] →
      List.Perm (flat (carry le run pend)) (flat pend ++ run) := by
  intro pend
  induction pend generalizing run with
  | nil => intro h; exact absurd rfl h
  | cons s rest ih =>
      intro _
      cases s with
      | none =>
          cases rest with
          | nil => simp [carry, flat_cons, flat]
          | cons s' rest' => simp [carry, flat_cons]
      | some r =>
          cases rest with
          | nil =>
              simp only [carry, flat_cons, flat, List.nil_append]
              have h1 : List.Perm (merge le r run) (r ++ run) := by
                simpa using merge_perm le r run
              simpa using h1
          | cons s' rest' =>
              simp only [carry, flat_cons, Option.getD_none, Option.getD_some,
                List.append_nil]
              have h1 := ih (merge le r run) (by simp)
              have h2 : List.Perm (flat (s' :: rest') ++ merge le r run)
                  (flat (s' :: rest') ++ (r ++ run)) :=
                (merge_perm le r run).append_left _
              have h3 := h1.trans h2
              rw [← List.append_assoc] at h3
              rw [flat_cons] at h3
              exact h3

theorem carry_sorted
    (htrans : ∀ a b c, le a b = true → le b c = true → le a c = true)
    (htotal : ∀ a b, le a b = true ∨ le b a = true) :
    ∀ (pend : List (Option (List α))) (run : List α), Srt le run →
      (∀ r ∈ pend, Srt le (r.getD [])) →
      ∀ r ∈ carry le run pend, Srt le (r.getD []) := by
  intro pend
  induction pend with
  | nil => intro run _ _ r hr; simp [carry] at hr
  | cons s rest ih =>
      intro run hrun hpend r hr
      cases s with
      | none =>
          cases rest with
          | nil =>
              simp only [carry, List.mem_singleton] at hr
              subst hr; simpa using hrun
          | cons s' rest' =>
              simp only [carry, List.mem_cons] at hr
              rcases hr with hr | hr
              · subst hr; simpa using hrun
              · exact hpend r (by simp [hr])
      | some q =>
          cases rest with
          | nil =>
              simp only [carry, List.mem_singleton] at hr
              subst hr
              have hq : Srt le q := by simpa using hpend (some q) (by simp)
              simpa using merge_sorted le htrans htotal hq hrun
          | cons s' rest' =>
              simp only [carry, List.mem_cons] at hr
              rcases hr with hr | hr
              · subst hr; simp [Srt]
              · have hq : Srt le q := by simpa using hpend (some q) (by simp)
                exact ih (merge le q run)
                  (merge_sorted le htrans htotal hq hrun)
                  (fun r' hr' => hpend r' (by simp [hr'])) r hr

theorem buildPending_length :
    ∀ (l : List α) (pend : List (Option (List α))),
      (buildPending le l pend).length = pend.length := by
  intro l
  induction l with
  | nil => intro pend; simp [buildPending]
  | cons x rest ih =>
      intro pend
      show (buildPending le rest (carry le [x] pend)).length = _
      rw [ih, carry_length]

theorem buildPending_flat_perm :
    ∀ (l : List α) (pend : List (Option (List α))), pend ≠ [] →
      List.Perm (flat (buildPending le l pend)) (flat pend ++ l) := by
  intro l
  induction l with
  | nil => intro pend _; simp [buildPending]
  | cons x rest ih =>
      intro pend hne
      have hne' : carry le [x] pend ≠ [] := by
        intro h
        have := carry_length le [x] pend
        rw [h] at this
        exact hne (List.length_eq_zero.mp this.symm)
      have h1 := ih (carry le [x] pend) hne'
      have h2 := (carry_flat_perm le [x] pend hne).append_right rest
      show List.Perm (flat (buildPending le rest (carry le [x] pend))) _
      have h3 := h1.trans h2
      rw [List.append_assoc] at h3
      exact h3

theorem buildPending_sorted
    (htrans : ∀ a b c, le a b = true → le b c = true → le a c = true)
    (htotal : ∀ a b, le a b = true ∨ le b a = true) :
    ∀ (l : List α) (pend : List (Option (List α))),
      (∀ r ∈ pend, Srt le (r.getD [])) →
      ∀ r ∈ buildPending le l pend, Srt le (r.getD []) := by
  intro l
  induction l with
  | nil => intro pend hp r hr; exact hp r hr
  | cons x rest ih =>
      intro pend hp r hr
      exact ih (carry le [x] pend)
        (carry_sorted le htrans htotal pend [x] (by simp [Srt]) hp) r hr

theorem foldl_merge_perm :
    ∀ (pend : List (Option (List α))) (acc : List α),
      List.Perm (pend.foldl (fun acc s => merge le (s.getD []) acc) acc)
        (flat pend ++ acc) := by
  intro pend
  induction pend with
  | nil => intro acc; simp [flat]
  | cons s rest ih =>
      intro acc
      show List.Perm (rest.foldl _ (merge le (s.getD []) acc)) _
      have h1 := ih (merge le (s.getD []) acc)
      have h2 : List.Perm (flat rest ++ merge le (s.getD []) acc)
          (flat rest ++ (s.getD [] ++ acc)) :=
        (merge_perm le (s.getD []) acc).append_left _
      have h3 := h1.trans h2
      rw [← List.append_assoc, ← flat_cons] at h3
      exact h3

theorem foldl_merge_sorted
    (htrans : ∀ a b c, le a b = true → le b c = true → le a c = true)
    (htotal : ∀ a b, le a b = true ∨ le b a = true) :
    ∀ (pend : List (Option (List α))) (acc : List α),
      (∀ r ∈ pend, Srt le (r.getD [])) → Srt le acc →
      Srt le (pend.foldl (fun acc s => merge le (s.getD []) acc) acc) := by
  intro pend
  induction pend with
  | nil => intro acc _ hacc; exact hacc
  | cons s rest ih =>
      intro acc hp hacc
      exact ih (merge le (s.getD []) acc)
        (fun r hr => hp r (by simp [hr]))
        (merge_sorted le htrans htotal (by simpa using hp s (by simp)) hacc)

theorem mergeAll0_perm (pend : List (Option (List α))) :
    List.Perm (mergeAll0 le pend) (flat pend) := by
  have h := foldl_merge_perm le pend []
  simpa [mergeAll0] using h

theorem mergeAll0_sorted
    (htrans : ∀ a b c, le a b = true → le b c = true → le a c = true)
    (htotal : ∀ a b, le a b = true ∨ le b a = true)
    (pend : List (Option (List α)))
    (hp : ∀ r ∈ pend, Srt le (r.getD [])) : Srt le (mergeAll0 le pend) :=
  foldl_merge_sorted le htrans htotal pend [] hp (by simp [Srt])

theorem mergeAll1_perm (pend : List (Option (List α))) (hlen : pend.length = 32) :
    List.Perm (mergeAll1 le pend) (flat pend) := by
  have hsplit : pend = pend.take 31 ++ pend.drop 31 := by simp
  have hdrop : pend.drop 31 = [pend.getD 31 none] := by
    have h31 : 31 < pend.length := by omega
    rw [List.getD_eq_getElem _ _ h31]
    have := List.drop_eq_getElem_cons h31
    rw [this]
    have : pend.drop 32 = [] := by
      apply List.drop_eq_nil_of_le; omega
    simp [this]
  have h1 : List.Perm (mergeAll1 le pend)
      ((pend.take 31).foldl (fun acc s => merge le (s.getD []) acc) [] ++
        (pend.getD 31 none).getD []) := merge_perm le _ _
  have h2 := (foldl_merge_perm le (pend.take 31) []).append_right
      ((pend.getD 31 none).getD [])
  have h3 := h1.trans h2
  have h4 : flat pend = (pend.getD 31 none).getD [] ++ flat (pend.take 31) := by
    conv_lhs => rw [hsplit]
    rw [flat_append, hdrop, flat_cons]
    simp [flat]
  rw [h4]
  refine h3.trans ?_
  simp only [List.append_nil]
  exact List.perm_append_comm

theorem mergeAll1_sorted
    (htrans : ∀ a b c, le a b = true → le b c = true → le a c = true)
    (htotal : ∀ a b, le a b = true ∨ le b a = true)
    (pend : List (Option (List α)))
    (hp : ∀ r ∈ pend, Srt le (r.getD [])) : Srt le (mergeAll1 le pend) := by
  apply merge_sorted le htrans htotal
  · exact foldl_merge_sorted le htrans htotal (pend.take 31) []
      (fun r hr => hp r (List.mem_of_mem_take hr)) (by simp [Srt])
  · rcases Nat.lt_or_ge 31 pend.length with h31 | h31
    · have hmem : pend.getD 31 none ∈ pend := by
        rw [List.getD_eq_getElem _ _ h31]
        exact List.getElem_mem h31
      exact hp _ hmem
    · rw [List.getD_eq_default _ _ h31]
      simp [Srt]

theorem flat_replicate_none (n : Nat) :
    flat (List.replicate n (none : Option (List α))) = [] := by
  induction n with
  | zero => simp [flat]
  | succ k ih => rw [List.replicate_succ, flat_cons, ih]; simp

/-- `q_sort` (part_000) returns a permutation of its input. -/
theorem q_sort0_perm (l : List α) : List.Perm (q_sort0 le l) l := by
  unfold q_sort0
  by_cases h : l.length ≤ 1
  · simp [h]
  · rw [if_neg h]
    have h1 := mergeAll0_perm le (buildPending le l (List.replicate 32 none))
    have h2 := buildPending_flat_perm le l (List.replicate 32 none) (by simp)
    have h3 := h1.trans h2
    rwa [flat_replicate_none, List.nil_append] at h3

/-- `q_sort` (part_001) returns a permutation of its input. -/
theorem q_sort1_perm (l : List α) : List.Perm (q_sort1 le l) l := by
  unfold q_sort1
  by_cases h : l.length ≤ 1
  · simp [h]
  · rw [if_neg h]
    have hlen : (buildPending le l (List.replicate 32 none)).length = 32 := by
      rw [buildPending_length]; simp
    have h1 := mergeAll1_perm le (buildPending le l (List.replicate 32 none)) hlen
    have h2 := buildPending_flat_perm le l (List.replicate 32 none) (by simp)
    have h3 := h1.trans h2
    rwa [flat_replicate_none, List.nil_append] at h3

theorem srt_of_short {l : List α} (h : l.length ≤ 1) : Srt le l := by
  match l, h with
  | [], _ => simp [Srt]
  | [a], _ => simp [Srt]

/-- `q_sort` (part_000) sorts: the result is pairwise non-decreasing. -/
theorem q_sort0_sorted
    (htrans : ∀ a b c, le a b = true → le b c = true → le a c = true)
    (htotal : ∀ a b, le a b = true ∨ le b a = true)
    (l : List α) : Srt le (q_sort0 le l) := by
  unfold q_sort0
  by_cases h : l.length ≤ 1
  · rw [if_pos h]; exact srt_of_short le h
  · rw [if_neg h]
    exact mergeAll0_sorted le htrans htotal _
      (buildPending_sorted le htrans htotal l _ (by simp [Srt]))

/-- `q_sort` (part_001) sorts: the result is pairwise non-decreasing. -/
theorem q_sort1_sorted
    (htrans : ∀ a b c, le a b = true → le b c = true → le a c = true)
    (htotal : ∀ a b, le a b = true ∨ le b a = true)
    (l : List α) : Srt le (q_sort1 le l) := by
  unfold q_sort1
  by_cases h : l.length ≤ 1
  · rw [if_pos h]; exact srt_of_short le h
  · rw [if_neg h]
    exact mergeAll1_sorted le htrans htotal _
      (buildPending_sorted le htrans htotal l _ (by simp [Srt]))

end SortEngine

/-! ## Stability

Stability of the sort is expressed on lists of elements carrying an identity
(a tag) besides their payload: the comparison `le` looks only at the key
(= payload), and stability says that for every key, the subsequence of
elements with that key is unchanged by the sort. -/

section Stability

variable {α K : Type} [DecidableEq K] (key : α → K) (le : α → α → Bool)

/-- The subsequence of elements whose key is `k`. -/
def filterK (k : K) (l : List α) : List α :=
  l.filter (fun a => decide (key a = k))

theorem filterK_append (k : K) (p q : List α) :
    filterK key k (p ++ q) = filterK key k p ++ filterK key k q := by
  simp [filterK]

/-- The two-way merge is stable: merging two sorted runs keeps, for every key,
all hits from the left run (in order) before all hits from the right run
(in order).  Ties take the left element, so a right element can only be
emitted while the left run still has strictly larger keys. -/
theorem filterK_cons (k : K) (a : α) (l : List α) :
    filterK key k (a :: l) =
      if key a = k then a :: filterK key k l else filterK key k l := by
  by_cases h : key a = k <;> simp [filterK, List.filter_cons, h]

theorem merge_filter
    (hrefl : ∀ a b, key a = key b → le a b = true)
    (htrans : ∀ a b c, le a b = true → le b c = true → le a c = true)
    (k : K) :
    ∀ xs : List α, Srt le xs → ∀ ys : List α, Srt le ys →
      filterK key k (merge le xs ys) =
        filterK key k xs ++ filterK key k ys := by
  intro xs
  induction xs with
  | nil => intro _ ys _; simp [merge, filterK]
  | cons x xs ihx =>
      intro hxs ys
      induction ys with
      | nil => intro _; simp [merge, filterK]
      | cons y ys ihy =>
          intro hys
          rw [merge]
          by_cases hle : le x y
          · rw [if_pos hle]
            show filterK key k (x :: merge le xs (y :: ys)) = _
            rw [filterK_cons key k x (merge le xs (y :: ys)),
                ihx hxs.tail (y :: ys) hys,
                filterK_cons key k x xs]
            by_cases hx : key x = k
            · rw [if_pos hx, if_pos hx]; simp
            · rw [if_neg hx, if_neg hx]
          · rw [if_neg hle]
            show filterK key k (y :: merge le (x :: xs) ys) = _
            rw [filterK_cons key k y (merge le (x :: xs) ys),
                ihy hys.tail,
                filterK_cons key k y ys]
            by_cases hk : key y = k
            · have hempty : filterK key k (x :: xs) = [] := by
                rw [filterK, List.filter_eq_nil_iff]
                intro z hz
                simp only [decide_eq_true_eq]
                intro hzk
                have hzy : key z = key y := by rw [hzk, hk]
                rcases List.mem_cons.mp hz with rfl | hzxs
                · exact hle (hrefl z y hzy)
                · have hxz : le x z = true :=
                    List.rel_of_pairwise_cons hxs hzxs
                  have hzy2 : le z y = true := hrefl z y hzy
                  exact hle (htrans x z y hxz hzy2)
              rw [if_pos hk, if_pos hk, hempty]
              simp
            · rw [if_neg hk, if_neg hk]

theorem carry_filter
    (hrefl : ∀ a b, key a = key b → le a b = true)
    (htrans : ∀ a b c, le a b = true → le b c = true → le a c = true)
    (htotal : ∀ a b, le a b = true ∨ le b a = true)
    (k : K) :
    ∀ (pend : List (Option (List α))) (run : List α), pend ≠ [] →
      Srt le run → (∀ r ∈ pend, Srt le (r.getD [])) →
      filterK key k (flat (carry le run pend)) =
        filterK key k (flat pend) ++ filterK key k run := by
  intro pend
  induction pend with
  | nil => intro run h _ _; exact absurd rfl h
  | cons s rest ih =>
      intro run _ hrun hpend
      cases s with
      | none =>
          cases rest with
          | nil => simp [carry, flat_cons, flat, filterK]
          | cons s' rest' => simp [carry, flat_cons, filterK_append]
      | some r =>
          have hr : Srt le r := by simpa using hpend (some r) (by simp)
          cases rest with
          | nil =>
              have hc : carry le run [some r] = [some (merge le r run)] := rfl
              have hf1 : flat [some (merge le r run)] = merge le r run := by
                rw [flat_cons]; simp [flat]
              have hf2 : flat [some r] = r := by
                rw [flat_cons]; simp [flat]
              rw [hc, hf1, hf2]
              exact merge_filter key le hrefl htrans k r hr run hrun
          | cons s' rest' =>
              simp only [carry, flat_cons, Option.getD_none, Option.getD_some,
                List.append_nil]
              rw [ih (merge le r run) (by simp)
                  (merge_sorted le htrans htotal hr hrun)
                  (fun r' hr' => hpend r' (by simp [hr']))]
              rw [merge_filter key le hrefl htrans k r hr run hrun]
              simp [filterK_append, flat_cons]

theorem buildPending_filter
    (hrefl : ∀ a b, key a = key b → le a b = true)
    (htrans : ∀ a b c, le a b = true → le b c = true → le a c = true)
    (htotal : ∀ a b, le a b = true ∨ le b a = true)
    (k : K) :
    ∀ (l : List α) (pend : List (Option (List α))), pend ≠ [] →
      (∀ r ∈ pend, Srt le (r.getD [])) →
      filterK key k (flat (buildPending le l pend)) =
        filterK key k (flat pend) ++ filterK key k l := by
  intro l
  induction l with
  | nil => intro pend _ _; simp [buildPending, filterK]
  | cons x rest ihl =>
      intro pend hne hpend
      have hne' : carry le [x] pend ≠ [] := by
        intro h
        have := carry_length le [x] pend
        rw [h] at this
        exact hne (List.length_eq_zero.mp this.symm)
      show filterK key k (flat (buildPending le rest (carry le [x] pend))) = _
      rw [ihl (carry le [x] pend) hne'
          (carry_sorted le htrans htotal pend [x] (by simp [Srt]) hpend)]
      rw [carry_filter key le hrefl htrans htotal k pend [x] hne (by simp [Srt])
          hpend]
      rw [List.append_assoc]
      congr 1
      by_cases hx : key x = k <;> simp [filterK, List.filter_cons, hx]

theorem foldl_merge_filter
    (hrefl : ∀ a b, key a = key b → le a b = true)
    (htrans : ∀ a b c, le a b = true → le b c = true → le a c = true)
    (htotal : ∀ a b, le a b = true ∨ le b a = true)
    (k : K) :
    ∀ (pend : List (Option (List α))) (acc : List α),
      (∀ r ∈ pend, Srt le (r.getD [])) → Srt le acc →
      filterK key k (pend.foldl (fun acc s => merge le (s.getD []) acc) acc) =
        filterK key k (flat pend) ++ filterK key k acc := by
  intro pend
  induction pend with
  | nil => intro acc _ _; simp [flat, filterK]
  | cons s rest ih =>
      intro acc hpend hacc
      have hs : Srt le (s.getD []) := hpend s (by simp)
      show filterK key k (rest.foldl _ (merge le (s.getD []) acc)) = _
      rw [ih (merge le (s.getD []) acc)
          (fun r hr => hpend r (by simp [hr]))
          (merge_sorted le htrans htotal hs hacc)]
      rw [merge_filter key le hrefl htrans k (s.getD []) hs acc hacc]
      rw [flat_cons, filterK_append, List.append_assoc]

/-- part_000's `q_sort` is stable: for every key, the subsequence of elements
with that key is preserved. -/
theorem q_sort0_stable
    (hrefl : ∀ a b, key a = key b → le a b = true)
    (htrans : ∀ a b c, le a b = true → le b c = true → le a c = true)
    (htotal : ∀ a b, le a b = true ∨ le b a = true)
    (k : K) (l : List α) :
    filterK key k (q_sort0 le l) = filterK key k l := by
  unfold q_sort0
  by_cases h : l.length ≤ 1
  · rw [if_pos h]
  · rw [if_neg h]
    show filterK key k (mergeAll0 le _) = _
    rw [mergeAll0,
      foldl_merge_filter key le hrefl htrans htotal k _ []
        (buildPending_sorted le htrans htotal l _ (by simp [Srt]))
        (by simp [Srt]),
      buildPending_filter key le hrefl htrans htotal k l _ (by simp)
        (by simp [Srt]),
      flat_replicate_none]
    simp [filterK]

end Stability

/-! ## Queue operations on the abstract element sequence

A queue handle is `Option (List Str)`: `none` is a NULL `struct list_head *`,
`some l` a valid sentinel whose elements, first to last, are `l`. -/

/-- `q_insert_head` / `q_insert_tail` result: success flag, the queue after
the call, and the number of heap objects the call leaked (allocated but
neither freed nor reachable afterwards). -/
structure InsertResult (α : Type) where
  ok : Bool
  queue : Option (List α)
  leaked : Nat
  deriving DecidableEq, Repr

/-- `q_insert_head` (part_000 lines 52-69, part_001 lines 53-70, identical).
`allocOk` models whether `malloc(sizeof(element_t))` succeeds, `dupOk` whether
`strdup(s)` succeeds.  On `!head` or `malloc` failure nothing was allocated;
when `strdup` fails the code executes `free(element)` before returning, so
that path also leaks nothing; on success `list_add` splices the element right
after the sentinel, i.e. in front of the sequence. -/
def q_insert_head (q : Option (List Str)) (s : Str) (allocOk dupOk : Bool) :
    InsertResult Str :=
  match q with
  | none => ⟨false, none, 0⟩
  | some l =>
      if allocOk = false then ⟨false, some l, 0⟩
      else if dupOk = false then ⟨false, some l, 0⟩
      else ⟨true, some (s :: l), 0⟩

/-- `q_insert_tail` (part_000 lines 78-95, part_001 lines 79-96, identical):
as `q_insert_head` but `list_add_tail` splices right before the sentinel,
i.e. at the end of the sequence. -/
def q_insert_tail (q : Option (List Str)) (s : Str) (allocOk dupOk : Bool) :
    InsertResult Str :=
  match q with
  | none => ⟨false, none, 0⟩
  | some l =>
      if allocOk = false then ⟨false, some l, 0⟩
      else if dupOk = false then ⟨false, some l, 0⟩
      else ⟨true, some (l ++ [s]), 0⟩

/-- Modelled from the spec: the effect of
`strncpy(sp, value, bufsize - 1); sp[bufsize - 1] = 0;` on a caller buffer of
`bufsize = buf.length ≥ 1` bytes (`strncpy` is libc code, not in this
repository; the spec says the string is "copied into it truncated to
`buf_size - 1` characters plus a terminator").  `strncpy` copies at most
`bufsize - 1` bytes of the value and zero-fills the rest of that region; the
final byte is then set to NUL. -/
def copyOut (v : Str) (buf : List Nat) : List Nat :=
  v.take (buf.length - 1) ++
    List.replicate (buf.length - 1 - v.length) 0 ++ [0]

/-- The C string a reader of the buffer sees: the bytes before the first NUL. -/
def readCStr (buf : List Nat) : Str := buf.takeWhile (fun b => b ≠ 0)

/-- Result of `q_remove_head`/`q_remove_tail`: the removed element as handed
back to the caller (`none` = NULL return), the queue afterwards, and the
caller's buffer contents afterwards (`none` = `sp` was NULL). -/
structure RemoveResult where
  removed : Option Str
  queue : Option (List Str)
  buf : Option (List Nat)
  deriving DecidableEq, Repr

/-- `q_remove_head` (part_000 lines 111-123, part_001 lines 112-124,
identical): NULL for an absent or empty queue; otherwise `list_del` unlinks
the first element, and if `sp` is non-NULL its string is copied out;
the element itself (still owning its string, untouched) is returned. -/
def q_remove_head (q : Option (List Str)) (sp : Option (List Nat)) :
    RemoveResult :=
  match q with
  | none => ⟨none, none, sp⟩
  | some [] => ⟨none, some [], sp⟩
  | some (x :: rest) => ⟨some x, some rest, sp.map (copyOut x)⟩

/-- `q_remove_tail` (part_000 lines 129-142, part_001 lines 130-142,
identical up to a comment): as `q_remove_head` with `list_last_entry`. -/
def q_remove_tail (q : Option (List Str)) (sp : Option (List Nat)) :
    RemoveResult :=
  match q with
  | none => ⟨none, none, sp⟩
  | some [] => ⟨none, some [], sp⟩
  | some (x :: rest) =>
      ⟨some ((x :: rest).getLast (by simp)), some ((x :: rest).dropLast),
        sp.map (copyOut ((x :: rest).getLast (by simp)))⟩

/-- Ring positions for the `q_delete_mid` two-pointer walks: the sentinel is
position `0` and the `n` elements are positions `1..n`; `->next` and `->prev`
step cyclically. -/
def ringNext (n p : Nat) : Nat := if p = n then 0 else p + 1

def ringPrev (n p : Nat) : Nat := if p = 0 then n else p - 1

/-- The `while (forward != backward)` loop of part_000's `q_delete_mid`
(lines 185-193): `backward` steps to its `prev` (with a meet check between
the two moves), then `forward` steps to its `next`.  Returns the position of
`forward` when the loop exits.  `fuel` bounds the iteration count; `n + 1`
always suffices. -/
def walk0 (n : Nat) : Nat → Nat → Nat → Nat
  | 0, f, _ => f
  | fuel + 1, f, b =>
      if f = b then f
      else
        if f = ringPrev n b then f
        else walk0 n fuel (ringNext n f) (ringPrev n b)

/-- The `do { ... } while (forward != backward)` loop of part_001's
`q_delete_mid` (lines 185-193): `forward` steps first (with a meet check
before `backward` moves), then `backward` steps back. -/
def walk1 (n : Nat) : Nat → Nat → Nat → Nat
  | 0, f, _ => f
  | fuel + 1, f, b =>
      if ringNext n f = b then ringNext n f
      else
        if ringNext n f = ringPrev n b then ringNext n f
        else walk1 n fuel (ringNext n f) (ringPrev n b)

/-- `q_delete_mid` from part_000 (lines 179-198): false on an absent or empty
list; otherwise the walk starting at `forward = head->next`,
`backward = head` finds the node to `list_del` and release; position `p` in
the ring is element index `p - 1`. -/
def q_delete_mid0 (q : Option (List Str)) : Bool × Option (List Str) :=
  match q with
  | none => (false, none)
  | some [] => (false, some [])
  | some (x :: rest) =>
      let n := (x :: rest).length
      (true, some ((x :: rest).eraseIdx (walk0 n (n + 1) (ringNext n 0) 0 - 1)))

/-- `q_delete_mid` from part_001 (lines 179-198): the walk starts with both
pointers at the sentinel (`forward = backward = head`). -/
def q_delete_mid1 (q : Option (List Str)) : Bool × Option (List Str) :=
  match q with
  | none => (false, none)
  | some [] => (false, some [])
  | some (x :: rest) =>
      let n := (x :: rest).length
      (true, some ((x :: rest).eraseIdx (walk1 n (n + 1) 0 0 - 1)))

/-- The inner `while` loop of part_000's `q_delete_dup` (lines 223-229): keep
consuming nodes while each equals its predecessor (`p` is the value of the
predecessor just consumed); returns the rest of the list from the first
non-equal node on. -/
def skipRun : Str → List Str → List Str
  | _, [] => []
  | p, x :: xs => if strcmp x p = Ordering.eq then skipRun x xs else x :: xs

theorem skipRun_length_le : ∀ (p : Str) (l : List Str),
    (skipRun p l).length ≤ l.length := by
  intro p l
  induction l generalizing p with
  | nil => simp [skipRun]
  | cons x xs ih =>
      by_cases h : strcmp x p = Ordering.eq
      · simp only [skipRun, if_pos h]
        exact Nat.le_trans (ih x) (by simp)
      · simp [skipRun, if_neg h]

/-- The outer loop of part_000's `q_delete_dup` (lines 215-239): the window
is (predecessor `x`, current node `y`); on `strcmp == 0` the whole maximal
run of equal values (including `x` and `y`) is released and spliced out and
the scan resumes comparing the two nodes after the run; otherwise `x` is kept
and the window slides by one. -/
def q_delete_dup0Go : List Str → List Str
  | [] => []
  | [x] => [x]
  | x :: y :: rest =>
      if strcmp y x = Ordering.eq then q_delete_dup0Go (skipRun y rest)
      else x :: q_delete_dup0Go (y :: rest)
termination_by l => l.length
decreasing_by
  · have := skipRun_length_le y rest
    simp; omega
  · simp

/-- `q_delete_dup` from part_000 (lines 209-241): false only for a NULL
handle. -/
def q_delete_dup0 (q : Option (List Str)) : Bool × Option (List Str) :=
  match q with
  | none => (false, none)
  | some l => (true, some (q_delete_dup0Go l))

/-- The `list_for_each_entry_safe` loop of part_001's `q_delete_dup`
(lines 215-232): `isDup` records whether the previous node was released as a
duplicate; a node equal to its successor is released, a node following
released duplicates is released and the list respliced, all others are kept.
The last node (whose `safe` is the sentinel) is released exactly when
`isDup` is set. -/
def q_delete_dup1Go : Bool → List Str → List Str
  | _, [] => []
  | isDup, [x] => if isDup then [] else [x]
  | isDup, x :: y :: rest =>
      if strcmp x y = Ordering.eq then q_delete_dup1Go true (y :: rest)
      else if isDup then q_delete_dup1Go false (y :: rest)
      else x :: q_delete_dup1Go false (y :: rest)

/-- `q_delete_dup` from part_001 (lines 209-234): false only for a NULL
handle. -/
def q_delete_dup1 (q : Option (List Str)) : Bool × Option (List Str) :=
  match q with
  | none => (false, none)
  | some l => (true, some (q_delete_dup1Go false l))

/-- The toggle walk of part_000's `q_swap` (lines 252-268): at `toggle == 0`
the node is remembered and the walk advances; at `toggle == 1` the
six-assignment block exchanges the remembered node with the current one by
relinking, and the walk resumes after the pair. -/
def q_swap0Go {α : Type} : Option α → List α → List α
  | none, [] => []
  | some a, [] => [a]
  | none, x :: xs => q_swap0Go (some x) xs
  | some a, x :: xs => x :: a :: q_swap0Go none xs

/-- `q_swap` from part_000 (lines 246-269). -/
def q_swap0 {α : Type} (q : Option (List α)) : Option (List α) :=
  match q with
  | none => none
  | some l => some (q_swap0Go none l)

/-- The `for` loop of part_001's `q_swap` (lines 245-254): each iteration
relinks the pair (`node`, `node->next`) into (`next`, `node`) and leaves the
cursor after the pair; it stops when fewer than two nodes remain. -/
def q_swap1Go {α : Type} : List α → List α
  | x :: y :: rest => y :: x :: q_swap1Go rest
  | l => l

/-- `q_swap` from part_001 (lines 239-255). -/
def q_swap1 {α : Type} (q : Option (List α)) : Option (List α) :=
  match q with
  | none => none
  | some l => some (q_swap1Go l)

/-- The value of the C expression `bufsize - 1` in `q_remove_head` /
`q_remove_tail` (part_000 lines 119-120, part_001 lines 137-139): `bufsize`
has type `size_t`, so the subtraction is performed modulo `2 ^ 64`. -/
def bufsizeSub1 (bufsize : Nat) : Nat := (bufsize + (2 ^ 64 - 1)) % 2 ^ 64

/-! ### The two-pointer walks of `q_delete_mid` meet at position `n / 2 + 1` -/

theorem walk0_mid (n : Nat) : ∀ (fuel f b : Nat), 1 ≤ f → f ≤ b → b ≤ n →
    b - f ≤ fuel → walk0 n fuel f b = (f + b) / 2 := by
  intro fuel
  induction fuel with
  | zero =>
      intro f b h1 h2 _ h4
      have hfb : f = b := by omega
      subst hfb
      show f = (f + f) / 2
      omega
  | succ fuel ih =>
      intro f b h1 h2 h3 h4
      by_cases hfb : f = b
      · subst hfb
        have hv : walk0 n (fuel + 1) f f = f := by simp [walk0]
        rw [hv]
        omega
      · have hlt : f < b := by omega
        have hb1 : ringPrev n b = b - 1 := by
          unfold ringPrev; rw [if_neg (by omega)]
        by_cases hmeet : f = ringPrev n b
        · simp only [walk0, if_neg hfb, if_pos hmeet]
          rw [hb1] at hmeet
          omega
        · have hfn : ringNext n f = f + 1 := by
            unfold ringNext; rw [if_neg (by rw [hb1] at hmeet; omega)]
          simp only [walk0, if_neg hfb, if_neg hmeet]
          rw [hfn, hb1]
          rw [ih (f + 1) (b - 1) (by omega) (by rw [hb1] at hmeet; omega)
              (by omega) (by omega)]
          have : f + 1 + (b - 1) = f + b := by omega
          rw [this]

theorem walk0_result (n : Nat) (hn : 1 ≤ n) :
    walk0 n (n + 1) (ringNext n 0) 0 = n / 2 + 1 := by
  have hstart : ringNext n 0 = 1 := by
    unfold ringNext; rw [if_neg (by omega)]
  rw [hstart]
  have hp : ringPrev n 0 = n := by simp [ringPrev]
  by_cases h1 : (1 : Nat) = ringPrev n 0
  · simp only [walk0, if_neg (by omega : ¬ (1 : Nat) = 0), if_pos h1]
    rw [hp] at h1
    omega
  · have hn2 : 2 ≤ n := by rw [hp] at h1; omega
    have hnext1 : ringNext n 1 = 2 := by
      unfold ringNext; rw [if_neg (by omega)]
    simp only [walk0, if_neg (by omega : ¬ (1 : Nat) = 0), if_neg h1]
    rw [hnext1, hp,
      walk0_mid n n 2 n (by omega) (by omega) (by omega) (by omega)]
    omega

theorem walk1_mid (n : Nat) : ∀ (fuel f b : Nat), 1 ≤ f → f < b → b ≤ n →
    b - f ≤ fuel → walk1 n fuel f b = (f + b + 1) / 2 := by
  intro fuel
  induction fuel with
  | zero => intro f b _ h2 _ h4; exact absurd h4 (by omega)
  | succ fuel ih =>
      intro f b h1 h2 h3 h4
      have hfn : ringNext n f = f + 1 := by
        unfold ringNext; rw [if_neg (by omega)]
      by_cases hfb : f + 1 = b
      · simp only [walk1, hfn, if_pos hfb]
        omega
      · have hb1 : ringPrev n b = b - 1 := by
          unfold ringPrev; rw [if_neg (by omega)]
        by_cases hmeet : f + 1 = b - 1
        · simp only [walk1, hfn, if_neg hfb, hb1, if_pos hmeet]
          omega
        · simp only [walk1, hfn, if_neg hfb, hb1, if_neg hmeet]
          rw [ih (f + 1) (b - 1) (by omega) (by omega) (by omega) (by omega)]
          have : f + 1 + (b - 1) + 1 = f + b + 1 := by omega
          rw [this]

theorem walk1_result (n : Nat) (hn : 1 ≤ n) :
    walk1 n (n + 1) 0 0 = n / 2 + 1 := by
  have hnext0 : ringNext n 0 = 1 := by
    unfold ringNext; rw [if_neg (by omega)]
  have hp : ringPrev n 0 = n := by simp [ringPrev]
  have hstep : walk1 n (n + 1) 0 0 =
      if (1 : Nat) = 0 then 1
      else if (1 : Nat) = n then 1 else walk1 n n 1 n := by
    show (if ringNext n 0 = 0 then ringNext n 0
      else if ringNext n 0 = ringPrev n 0 then ringNext n 0
      else walk1 n n (ringNext n 0) (ringPrev n 0)) = _
    rw [hnext0, hp]
  rw [hstep, if_neg (by omega)]
  by_cases h1 : (1 : Nat) = n
  · rw [if_pos h1]; omega
  · rw [if_neg h1]
    have hn2 : 2 ≤ n := by omega
    rw [walk1_mid n n 1 n (by omega) (by omega) (by omega) (by omega)]
    omega

/-- Both variants of `q_delete_mid` remove the element at 0-based index
`⌊n/2⌋`. -/
theorem q_delete_mid0_spec (l : List Str) (h : l ≠ []) :
    q_delete_mid0 (some l) = (true, some (l.eraseIdx (l.length / 2))) := by
  cases l with
  | nil => exact absurd rfl h
  | cons x rest =>
      show (true, some ((x :: rest).eraseIdx
        (walk0 (x :: rest).length ((x :: rest).length + 1)
          (ringNext (x :: rest).length 0) 0 - 1))) = _
      rw [walk0_result (x :: rest).length (by simp)]
      simp

theorem q_delete_mid1_spec (l : List Str) (h : l ≠ []) :
    q_delete_mid1 (some l) = (true, some (l.eraseIdx (l.length / 2))) := by
  cases l with
  | nil => exact absurd rfl h
  | cons x rest =>
      show (true, some ((x :: rest).eraseIdx
        (walk1 (x :: rest).length ((x :: rest).length + 1) 0 0 - 1))) = _
      rw [walk1_result (x :: rest).length (by simp)]
      simp

/-! ### `q_delete_dup`: the two variants agree, and on a sorted list keep
exactly the values occurring once -/

/-- Antisymmetry of the `strcmp` order. -/
theorem sle_antisymm {a b : Str} (hab : sle a b = true) (hba : sle b a = true) :
    a = b := by
  rcases (sle_iff a b).mp hab with h1 | h1
  · rcases (sle_iff b a).mp hba with h2 | h2
    · have := (strcmp_gt_iff_lt b a).mpr h1
      rw [h2] at this
      cases this
    · exact h2.symm
  · exact h1

theorem skipRun_eq_dropWhile : ∀ (l : List Str) (p : Str),
    skipRun p l = l.dropWhile (fun v => decide (v = p)) := by
  intro l
  induction l with
  | nil => intro p; simp [skipRun]
  | cons x xs ih =>
      intro p
      by_cases h : strcmp x p = Ordering.eq
      · have hxp : x = p := (strcmp_eq_iff x p).mp h
        rw [skipRun, if_pos h, List.dropWhile_cons,
          if_pos (by simp [hxp]), ih x, hxp]
      · have hxp : x ≠ p := fun hh => h ((strcmp_eq_iff x p).mpr hh)
        rw [skipRun, if_neg h, List.dropWhile_cons, if_neg (by simp [hxp])]

theorem delete_dup1_true_eq : ∀ (ys : List Str) (x : Str),
    q_delete_dup1Go true (x :: ys) =
      q_delete_dup1Go false (ys.dropWhile (fun v => decide (v = x))) := by
  intro ys
  induction ys with
  | nil => intro x; simp [q_delete_dup1Go]
  | cons y rest ih =>
      intro x
      by_cases h : strcmp x y = Ordering.eq
      · have hxy : x = y := (strcmp_eq_iff x y).mp h
        rw [q_delete_dup1Go, if_pos h, ih y, List.dropWhile_cons,
          if_pos (by simp [hxy])]
        subst hxy
        rfl
      · have hxy : x ≠ y := fun hh => h ((strcmp_eq_iff x y).mpr hh)
        rw [q_delete_dup1Go, if_neg h, if_pos rfl, List.dropWhile_cons,
          if_neg (by simp; exact fun hh => hxy hh.symm)]

theorem delete_dup_go_agree_aux : ∀ (n : Nat) (l : List Str), l.length ≤ n →
    q_delete_dup0Go l = q_delete_dup1Go false l := by
  intro n
  induction n with
  | zero =>
      intro l hl
      have : l = [] := List.length_eq_zero.mp (by omega)
      subst this
      simp [q_delete_dup0Go, q_delete_dup1Go]
  | succ n ih =>
      intro l hl
      cases l with
      | nil => simp [q_delete_dup0Go, q_delete_dup1Go]
      | cons x ys =>
          cases ys with
          | nil => simp [q_delete_dup0Go, q_delete_dup1Go]
          | cons y rest =>
              simp only [List.length_cons] at hl
              by_cases h : strcmp y x = Ordering.eq
              · have hxy : y = x := (strcmp_eq_iff y x).mp h
                have hyx : strcmp x y = Ordering.eq := by
                  rw [hxy]; exact (strcmp_eq_iff x x).mpr rfl
                rw [q_delete_dup0Go, if_pos h, q_delete_dup1Go, if_pos hyx,
                  delete_dup1_true_eq rest y, skipRun_eq_dropWhile]
                refine ih _ ?_
                have := (List.dropWhile_sublist
                  (l := rest) (fun v => decide (v = y))).length_le
                omega
              · have hyx : strcmp x y ≠ Ordering.eq := by
                  intro hh
                  exact h ((strcmp_eq_iff y x).mpr
                    ((strcmp_eq_iff x y).mp hh).symm)
                rw [q_delete_dup0Go, if_neg h, q_delete_dup1Go, if_neg hyx,
                  if_neg (by simp)]
                rw [ih (y :: rest) (by simp; omega)]

theorem delete_dup_go_agree (l : List Str) :
    q_delete_dup0Go l = q_delete_dup1Go false l :=
  delete_dup_go_agree_aux l.length l (Nat.le_refl _)

/-- The values of `l` occurring exactly once in `l`, in their original order:
what `q_delete_dup` is specified to leave behind on a sorted list. -/
def specDD (l : List Str) : List Str :=
  l.filter (fun v => decide (l.count v = 1))

theorem sorted_not_mem {x z : Str} {t : List Str} (hs : Srt sle (z :: t))
    (hzx : z ≠ x) (hxz : sle x z = true) : x ∉ z :: t := by
  intro hmem
  rcases List.mem_cons.mp hmem with rfl | hmem
  · exact hzx rfl
  · have hzx' : sle z x = true := List.rel_of_pairwise_cons hs hmem
    exact hzx (sle_antisymm hzx' hxz)

theorem delete_dup1_sorted_aux : ∀ (n : Nat) (l : List Str), l.length ≤ n →
    Srt sle l → q_delete_dup1Go false l = specDD l := by
  intro n
  induction n with
  | zero =>
      intro l hl _
      have : l = [] := List.length_eq_zero.mp (by omega)
      subst this
      simp [q_delete_dup1Go, specDD]
  | succ n ih =>
      intro l hl hs
      cases l with
      | nil => simp [q_delete_dup1Go, specDD]
      | cons x ys =>
          cases ys with
          | nil => simp [q_delete_dup1Go, specDD]
          | cons y rest =>
              simp only [List.length_cons] at hl
              by_cases h : strcmp x y = Ordering.eq
              · -- duplicate at the front: the whole x-run is removed
                have hxy : x = y := (strcmp_eq_iff x y).mp h
                subst hxy
                rw [q_delete_dup1Go, if_pos h, delete_dup1_true_eq rest x]
                set d := rest.dropWhile (fun v => decide (v = x)) with hd
                set t := rest.takeWhile (fun v => decide (v = x)) with ht
                have hrest : t ++ d = rest := by
                  rw [ht, hd]; exact List.takeWhile_append_dropWhile _ _
                have hdsub : d.Sublist rest := List.dropWhile_sublist _
                have hsd : Srt sle d :=
                  List.Pairwise.sublist hdsub hs.tail.tail
                have hxd : ∀ v ∈ d, v ≠ x := by
                  intro v hv
                  cases hde : d with
                  | nil => rw [hde] at hv; cases hv
                  | cons z d' =>
                      have h0 := List.head?_dropWhile_not
                        (fun v => decide (v = x)) rest
                      rw [← hd, hde] at h0
                      have hz : z ≠ x := by simpa using h0
                      have hzrest : z ∈ rest := by
                        have hzd : z ∈ d := by rw [hde]; simp
                        exact hdsub.subset hzd
                      have hxz : sle x z = true :=
                        List.rel_of_pairwise_cons hs.tail hzrest
                      have hnm : x ∉ z :: d' :=
                        sorted_not_mem (hde ▸ hsd) hz hxz
                      rw [hde] at hv
                      intro hvx
                      subst hvx
                      exact hnm hv
                have hcnt : ∀ v ∈ d,
                    (x :: x :: rest).count v = d.count v := by
                  intro v hv
                  have hvx : v ≠ x := hxd v hv
                  have h1 : (x :: x :: rest).count v = rest.count v := by
                    have hxv : ¬ (x = v) := fun hh => hvx hh.symm
                    rw [List.count_cons, List.count_cons]
                    simp [hxv]
                  have h2 : rest.count v = t.count v + d.count v := by
                    rw [← hrest, List.count_append]
                  have h3 : t.count v = 0 := by
                    rw [List.count_eq_zero]
                    intro hvt
                    exact hvx (by simpa using List.mem_takeWhile_imp hvt)
                  omega
                have hspec : specDD (x :: x :: rest) = specDD d := by
                  have hcx : (x :: x :: rest).count x ≠ 1 := by
                    rw [List.count_cons, List.count_cons]
                    simp
                  have hls : x :: x :: rest = (x :: x :: t) ++ d := by
                    simp [hrest]
                  have hsplit : specDD (x :: x :: rest) =
                      (x :: x :: t).filter
                        (fun v => decide ((x :: x :: rest).count v = 1)) ++
                      d.filter
                        (fun v => decide ((x :: x :: rest).count v = 1)) := by
                    show (x :: x :: rest).filter
                        (fun v => decide ((x :: x :: rest).count v = 1)) = _
                    rw [show (x :: x :: rest).filter
                          (fun v => decide ((x :: x :: rest).count v = 1)) =
                        ((x :: x :: t) ++ d).filter
                          (fun v => decide ((x :: x :: rest).count v = 1)) from
                      congrArg _ hls]
                    rw [List.filter_append]
                  rw [hsplit]
                  have hleft : (x :: x :: t).filter
                      (fun v => decide ((x :: x :: rest).count v = 1)) = [] := by
                    rw [List.filter_eq_nil_iff]
                    intro v hv
                    have hvx : v = x := by
                      rcases List.mem_cons.mp hv with rfl | hv
                      · rfl
                      · rcases List.mem_cons.mp hv with rfl | hv
                        · rfl
                        · simpa using List.mem_takeWhile_imp hv
                    subst hvx
                    simp
                  have hright : d.filter
                      (fun v => decide ((x :: x :: rest).count v = 1)) =
                      specDD d := by
                    rw [specDD]
                    exact List.filter_congr (by
                      intro v hv
                      rw [hcnt v hv])
                  rw [hleft, hright, List.nil_append]
                rw [hspec]
                refine ih d ?_ hsd
                have := hdsub.length_le
                omega
              · -- distinct front: x is kept
                have hxy : x ≠ y := fun hh => h ((strcmp_eq_iff x y).mpr hh)
                rw [q_delete_dup1Go, if_neg h, if_neg (by simp)]
                rw [ih (y :: rest) (by simp; omega) hs.tail]
                have hxnm : x ∉ y :: rest :=
                  sorted_not_mem hs.tail (fun hh => hxy hh.symm)
                    (List.rel_of_pairwise_cons hs (by simp))
                have hcx : (x :: y :: rest).count x = 1 := by
                  rw [List.count_cons]
                  simp [List.count_eq_zero.mpr hxnm]
                have hcnt : ∀ v ∈ y :: rest,
                    (x :: y :: rest).count v = (y :: rest).count v := by
                  intro v hv
                  have hvx : v ≠ x := by
                    intro hh; subst hh; exact hxnm hv
                  have hxv : ¬ (x = v) := fun hh => hvx hh.symm
                  rw [List.count_cons]
                  simp [hxv]
                have hpx : (decide ((x :: y :: rest).count x = 1)) = true := by
                  simp only [decide_eq_true_eq]
                  exact hcx
                rw [specDD, specDD]
                conv_rhs => rw [List.filter_cons]
                rw [if_pos hpx]
                congr 1
                refine List.filter_congr ?_
                intro v hv
                rw [hcnt v hv]

/-- On a sorted list, part_001's `q_delete_dup` keeps exactly the values that
occur once. -/
theorem delete_dup1_sorted (l : List Str) (hs : Srt sle l) :
    q_delete_dup1Go false l = specDD l :=
  delete_dup1_sorted_aux l.length l (Nat.le_refl _) hs

/-- On a sorted list, part_000's `q_delete_dup` keeps exactly the values that
occur once. -/
theorem delete_dup0_sorted (l : List Str) (hs : Srt sle l) :
    q_delete_dup0Go l = specDD l := by
  rw [delete_dup_go_agree]
  exact delete_dup1_sorted l hs

/-! ### The two `q_swap` variants walk the list pairwise identically -/

theorem q_swap_go_agree_aux {α : Type} : ∀ (n : Nat) (l : List α),
    l.length ≤ n → q_swap0Go none l = q_swap1Go l := by
  intro n
  induction n with
  | zero =>
      intro l hl
      have : l = [] := List.length_eq_zero.mp (by omega)
      subst this; rfl
  | succ n ih =>
      intro l hl
      cases l with
      | nil => rfl
      | cons x ys =>
          cases ys with
          | nil => rfl
          | cons y rest =>
              simp only [List.length_cons] at hl
              show y :: x :: q_swap0Go none rest = y :: x :: q_swap1Go rest
              rw [ih rest (by omega)]

theorem q_swap_go_agree {α : Type} (l : List α) :
    q_swap0Go none l = q_swap1Go l :=
  q_swap_go_agree_aux l.length l (Nat.le_refl _)

/-! ### The pending buckets hold runs of exactly `2 ^ i` elements

Below the forced-merge overflow, the bucket array behaves as a binary
counter: an occupied bucket `i` holds a run of exactly `2 ^ i` elements.
Consequently bucket 31 is only ever occupied once `2 ^ 31` elements have been
consumed, so for shorter lists part_001's special final treatment of bucket
31 never sees a run. -/

section PendingSizes

variable {α : Type} (le : α → α → Bool)

theorem merge_length (a b : List α) :
    (merge le a b).length = a.length + b.length := by
  have h := (merge_perm le a b).length_eq
  simpa using h

/-- Occupied bucket `m` (counting from bucket `j` of the full array) holds a
run of exactly `2 ^ (j + m)` elements. -/
def PendInv (j : Nat) (pend : List (Option (List α))) : Prop :=
  ∀ m, m < pend.length → ∀ r, pend.getD m none = some r →
    r.length = 2 ^ (j + m)

theorem flat_nil_eq : flat ([] : List (Option (List α))) = [] := rfl

theorem carry_inv : ∀ (pend : List (Option (List α))) (run : List α) (j : Nat),
    PendInv j pend → run.length = 2 ^ j →
    (flat pend).length + run.length < 2 ^ (j + pend.length) →
    PendInv j (carry le run pend) := by
  intro pend
  induction pend with
  | nil =>
      intro run j _ hrun hbound
      rw [flat_nil_eq] at hbound
      simp [hrun] at hbound
  | cons s rest ih =>
      intro run j hinv hrun hbound
      cases s with
      | none =>
          cases rest with
          | nil =>
              intro m hm r hr
              simp only [carry] at hm hr
              simp only [List.length_cons, List.length_nil] at hm
              have hm0 : m = 0 := by omega
              subst hm0
              simp only [List.getD_cons_zero] at hr
              cases hr
              simpa using hrun
          | cons s' rest' =>
              intro m hm r hr
              simp only [carry] at hm hr
              cases m with
              | zero =>
                  simp only [List.getD_cons_zero] at hr
                  cases hr
                  simpa using hrun
              | succ m' =>
                  simp only [List.getD_cons_succ] at hr
                  exact hinv (m' + 1) (by simpa using hm) r (by simpa using hr)
      | some q =>
          have hq : q.length = 2 ^ j := by
            have := hinv 0 (by simp) q (by simp)
            simpa using this
          cases rest with
          | nil =>
              exfalso
              rw [flat_cons, flat_nil_eq] at hbound
              simp only [List.nil_append, Option.getD_some,
                List.length_append] at hbound
              simp only [List.length_cons, List.length_nil] at hbound
              rw [hq, hrun] at hbound
              simp only [Nat.zero_add] at hbound
              have : 2 ^ (j + 1) = 2 ^ j + 2 ^ j := by rw [pow_succ]; ring
              omega
          | cons s' rest' =>
              have hmerge : (merge le q run).length = 2 ^ (j + 1) := by
                rw [merge_length, hq, hrun, pow_succ]; ring
              have hrec := ih (merge le q run) (j + 1)
                (fun m hm r hr => by
                  have := hinv (m + 1) (by simpa using hm) r (by simpa using hr)
                  rw [this]; congr 1; omega)
                hmerge
                (by
                  rw [flat_cons] at hbound
                  simp only [Option.getD_some, List.length_append] at hbound
                  rw [hq, hrun] at hbound
                  rw [hmerge]
                  simp only [List.length_cons] at hbound ⊢
                  have h1 : 2 ^ (j + (rest'.length + 1 + 1)) =
                      2 ^ (j + 1 + (rest'.length + 1)) := by congr 1; omega
                  have h2 : 2 ^ (j + 1) = 2 ^ j + 2 ^ j := by
                    rw [pow_succ]; ring
                  omega)
              intro m hm r hr
              simp only [carry] at hm hr
              cases m with
              | zero => simp at hr
              | succ m' =>
                  simp only [List.getD_cons_succ] at hr
                  have := hrec m' (by
                      have hcl := carry_length le (merge le q run) (s' :: rest')
                      simp only [List.length_cons] at hm ⊢
                      omega) r hr
                  rw [this]; congr 1; omega

theorem buildPending_inv : ∀ (l : List α) (pend : List (Option (List α))),
    PendInv 0 pend → (flat pend).length + l.length < 2 ^ pend.length →
    PendInv 0 (buildPending le l pend) := by
  intro l
  induction l with
  | nil => intro pend hinv _; exact hinv
  | cons x rest ih =>
      intro pend hinv hbound
      have hne : pend ≠ [] := by
        intro h
        subst h
        rw [flat_nil_eq] at hbound
        simp at hbound
      show PendInv 0 (buildPending le rest (carry le [x] pend))
      have hflatc : (flat (carry le [x] pend)).length =
          (flat pend).length + 1 := by
        have := (carry_flat_perm le [x] pend hne).length_eq
        simpa using this
      refine ih (carry le [x] pend) ?_ ?_
      · refine carry_inv le pend [x] 0 hinv (by simp) ?_
        have hz : (2 : Nat) ^ (0 + pend.length) = 2 ^ pend.length := by
          congr 1; omega
        rw [hz]
        simp only [List.length_cons] at hbound
        simp only [List.length_singleton]
        omega
      · rw [hflatc, carry_length]
        simp only [List.length_cons] at hbound
        omega

theorem buildPending_last_none (l : List α) (hlen : l.length < 2 ^ 31) :
    (buildPending le l (List.replicate 32 none)).getD 31 none = none := by
  set P := buildPending le l (List.replicate 32 none) with hP
  have hlenP : P.length = 32 := by rw [hP, buildPending_length]; simp
  have hinv : PendInv 0 P := by
    rw [hP]
    refine buildPending_inv le l (List.replicate 32 none) ?_ ?_
    · intro m hm r hr
      exfalso
      simp only [List.length_replicate] at hm
      rw [List.getD_eq_getElem?_getD, List.getElem?_replicate,
        if_pos hm] at hr
      simp at hr
    · rw [flat_replicate_none]
      simp only [List.length_nil, List.length_replicate]
      have : (2 : Nat) ^ 31 < 2 ^ 32 := by norm_num
      omega
  have hflatP : (flat P).length = l.length := by
    have h := (buildPending_flat_perm le l (List.replicate 32 none)
      (by simp)).length_eq
    rw [flat_replicate_none] at h
    simpa [hP] using h
  by_contra hne
  cases hsome : P.getD 31 none with
  | none => exact hne hsome
  | some r =>
      have hr : r.length = 2 ^ 31 := by
        have := hinv 31 (by omega) r hsome
        simpa using this
      have hsplit : P = P.take 31 ++ P.drop 31 := by simp
      have hdrop : P.drop 31 = [some r] := by
        have h31 : 31 < P.length := by omega
        rw [List.drop_eq_getElem_cons h31]
        have h32 : P.drop 32 = [] := List.drop_eq_nil_of_le (by omega)
        rw [h32]
        rw [List.getD_eq_getElem _ _ h31] at hsome
        rw [hsome]
  -- flat P contains the bucket-31 run, so it has at least 2^31 elements
      have : (flat P).length ≥ 2 ^ 31 := by
        conv_lhs => rw [hsplit]
        rw [flat_append, hdrop, flat_cons, flat_nil_eq]
        simp only [List.nil_append, Option.getD_some, List.length_append]
        omega
      omega

theorem merge_nil_right (a : List α) : merge le a [] = a := by
  cases a <;> simp [merge]

/-- When bucket 31 is empty, part_001's final phase coincides with folding
the first 31 buckets. -/
theorem mergeAll1_of_last_none (pend : List (Option (List α)))
    (hlast : pend.getD 31 none = none) :
    mergeAll1 le pend =
      (pend.take 31).foldl (fun acc s => merge le (s.getD []) acc) [] := by
  rw [mergeAll1, hlast]
  simp only [Option.getD_none]
  rw [merge_nil_right]

end PendingSizes

section Stability2

variable {α K : Type} [DecidableEq K] (key : α → K) (le : α → α → Bool)

/-- part_001's `q_sort` is stable on every list of fewer than `2 ^ 31`
elements: bucket 31 stays empty, so the asymmetric final merge never sees a
run. -/
theorem q_sort1_stable_of_small
    (hrefl : ∀ a b, key a = key b → le a b = true)
    (htrans : ∀ a b c, le a b = true → le b c = true → le a c = true)
    (htotal : ∀ a b, le a b = true ∨ le b a = true)
    (k : K) (l : List α) (hlen : l.length < 2 ^ 31) :
    filterK key k (q_sort1 le l) = filterK key k l := by
  unfold q_sort1
  by_cases h : l.length ≤ 1
  · rw [if_pos h]
  · rw [if_neg h]
    have hlast := buildPending_last_none le l hlen
    rw [mergeAll1_of_last_none le _ hlast]
    have hsorted : ∀ r ∈ buildPending le l (List.replicate 32 none),
        Srt le (r.getD []) :=
      buildPending_sorted le htrans htotal l _ (by simp [Srt])
    rw [foldl_merge_filter key le hrefl htrans htotal k _ []
      (fun r hr => hsorted r (List.mem_of_mem_take hr)) (by simp [Srt])]
    have hPlen : (buildPending le l (List.replicate 32 none)).length = 32 := by
      rw [buildPending_length]; simp
    have hdrop : (buildPending le l (List.replicate 32 none)).drop 31 =
        [none] := by
      have h31 : 31 < (buildPending le l (List.replicate 32 none)).length := by
        omega
      rw [List.drop_eq_getElem_cons h31]
      have h32 : (buildPending le l (List.replicate 32 none)).drop 32 = [] :=
        List.drop_eq_nil_of_le (by omega)
      rw [h32]
      rw [List.getD_eq_getElem _ _ h31] at hlast
      rw [hlast]
    have hflat : flat ((buildPending le l (List.replicate 32 none)).take 31) =
        flat (buildPending le l (List.replicate 32 none)) := by
      conv_rhs =>
        rw [show buildPending le l (List.replicate 32 none) =
          (buildPending le l (List.replicate 32 none)).take 31 ++
          (buildPending le l (List.replicate 32 none)).drop 31 by simp]
      rw [flat_append, hdrop, flat_cons, flat_nil_eq]
      simp
    rw [hflat]
    rw [buildPending_filter key le hrefl htrans htotal k l _ (by simp)
      (by simp [Srt])]
    rw [flat_replicate_none]
    simp [filterK]

end Stability2

/-! ### Transport of the sort engine along an element map

Used to reduce the behaviour of `q_sort` on tagged elements with all-equal
payloads to its behaviour under a constant-true comparison. -/

section SortMap

variable {α β : Type} (f : α → β) (le : α → α → Bool) (le' : β → β → Bool)

/-- The pending array of mapped runs. -/
def pendMap (pend : List (Option (List α))) : List (Option (List β)) :=
  pend.map (Option.map (List.map f))

theorem merge_map (hle : ∀ a b : α, le' (f a) (f b) = le a b) :
    ∀ a b : List α,
      merge le' (a.map f) (b.map f) = (merge le a b).map f
  | [], b => by simp [merge]
  | x :: xs, [] => by simp [merge]
  | x :: xs, y :: ys => by
      rw [List.map_cons, List.map_cons, merge, merge, hle x y]
      by_cases h : le x y
      · rw [if_pos h, if_pos h, List.map_cons, ← List.map_cons f y ys,
          merge_map hle xs (y :: ys)]
      · rw [if_neg h, if_neg h, List.map_cons, ← List.map_cons f x xs,
          merge_map hle (x :: xs) ys]
termination_by a b => a.length + b.length

theorem carry_map (hle : ∀ a b : α, le' (f a) (f b) = le a b) :
    ∀ (pend : List (Option (List α))) (run : List α),
      carry le' (run.map f) (pendMap f pend) = pendMap f (carry le run pend) := by
  intro pend
  induction pend with
  | nil => intro run; simp [carry, pendMap]
  | cons s rest ih =>
      intro run
      cases s with
      | none =>
          cases rest with
          | nil => simp [carry, pendMap]
          | cons s' rest' => simp [carry, pendMap]
      | some r =>
          cases rest with
          | nil =>
              simp only [pendMap, List.map_cons, List.map_nil, Option.map_some,
                carry]
              rw [merge_map f le le' hle]
              simp
          | cons s' rest' =>
              simp only [pendMap, List.map_cons, Option.map_some, carry]
              rw [merge_map f le le' hle]
              have hih := ih (merge le r run)
              simp only [pendMap, List.map_cons] at hih
              rw [hih]
              simp

theorem buildPending_map (hle : ∀ a b : α, le' (f a) (f b) = le a b) :
    ∀ (l : List α) (pend : List (Option (List α))),
      buildPending le' (l.map f) (pendMap f pend) =
        pendMap f (buildPending le l pend) := by
  intro l
  induction l with
  | nil => intro pend; simp [buildPending]
  | cons x rest ih =>
      intro pend
      show buildPending le' (rest.map f) (carry le' ([x].map f) (pendMap f pend))
        = _
      rw [carry_map f le le' hle, ih]
      rfl

theorem foldl_merge_map (hle : ∀ a b : α, le' (f a) (f b) = le a b) :
    ∀ (pend : List (Option (List α))) (acc : List α),
      (pendMap f pend).foldl (fun acc s => merge le' (s.getD []) acc)
          (acc.map f) =
        (pend.foldl (fun acc s => merge le (s.getD []) acc) acc).map f := by
  intro pend
  induction pend with
  | nil => intro acc; simp [pendMap]
  | cons s rest ih =>
      intro acc
      show (pendMap f rest).foldl _
          (merge le' ((Option.map (List.map f) s).getD []) (acc.map f)) = _
      have hg : (Option.map (List.map f) s).getD [] = (s.getD []).map f := by
        cases s <;> simp
      rw [hg, merge_map f le le' hle, ih]
      rfl

theorem mergeAll1_map (hle : ∀ a b : α, le' (f a) (f b) = le a b)
    (pend : List (Option (List α))) :
    mergeAll1 le' (pendMap f pend) = (mergeAll1 le pend).map f := by
  rw [mergeAll1, mergeAll1]
  have htake : (pendMap f pend).take 31 = pendMap f (pend.take 31) := by
    simp [pendMap, List.map_take]
  have hgetD : (pendMap f pend).getD 31 none =
      Option.map (List.map f) (pend.getD 31 none) := by
    rw [List.getD_eq_getElem?_getD, List.getD_eq_getElem?_getD]
    simp only [pendMap, List.getElem?_map]
    cases pend[31]? <;> simp
  rw [htake, hgetD]
  have hback : (Option.map (List.map f) (pend.getD 31 none)).getD [] =
      ((pend.getD 31 none).getD []).map f := by
    cases pend.getD 31 none <;> simp
  rw [hback]
  have hfront := foldl_merge_map f le le' hle (pend.take 31) []
  simp only [List.map_nil] at hfront
  rw [hfront, merge_map f le le' hle]

theorem q_sort1_map (hle : ∀ a b : α, le' (f a) (f b) = le a b) (l : List α) :
    q_sort1 le' (l.map f) = (q_sort1 le l).map f := by
  unfold q_sort1
  by_cases h : l.length ≤ 1
  · rw [if_pos (by simpa using h), if_pos h]
  · rw [if_neg (by simpa using h), if_neg h]
    have hrep : (List.replicate 32 (none : Option (List β))) =
        pendMap f (List.replicate 32 none) := by
      simp [pendMap]
    rw [hrep, buildPending_map f le le' hle, mergeAll1_map f le le' hle]

end SortMap

/-! ### part_001's final merge passes bucket 31 as the right-hand argument

With exactly `2 ^ 31 + 1` all-tied elements, the first `2 ^ 31` elements sit
in bucket 31 and the last element alone in bucket 0 when the input is
exhausted; `merge_final(head, result, pending[31])` then receives the *newest*
element as its left argument, so the tie is resolved in its favour — the
2^31 older equal elements end up after it. -/

section Counter

variable {α : Type} (le : α → α → Bool)

theorem carry_cons_none (run : List α) (rest : List (Option (List α))) :
    carry le run (none :: rest) = some run :: rest := by
  cases rest <;> simp [carry]

theorem carry_cons_some (run r : List α) (s2 : Option (List α))
    (rest2 : List (Option (List α))) :
    carry le run (some r :: s2 :: rest2) =
      none :: carry le (merge le r run) (s2 :: rest2) := by
  simp [carry]

theorem buildPending_append (a b : List α) (pend : List (Option (List α))) :
    buildPending le (a ++ b) pend =
      buildPending le b (buildPending le a pend) := by
  induction a generalizing pend with
  | nil => simp [buildPending]
  | cons x rest ih =>
      show buildPending le (rest ++ b) (carry le [x] pend) = _
      rw [ih]
      rfl

theorem getD_take_of_lt {γ : Type} (l : List (Option γ)) (j i : Nat)
    (h : i < j) : (l.take j).getD i none = l.getD i none := by
  rw [List.getD_eq_getElem?_getD, List.getD_eq_getElem?_getD,
    List.getElem?_take, if_pos h]

/-- Feeding a block of `2 ^ j` elements into a pending array whose buckets
below `j` are all empty performs one single carry at level `j`, the block
staying in input order when every comparison ties (`merge` then
concatenates). -/
theorem buildPending_block
    (hconc : ∀ a b : List α, merge le a b = a ++ b) :
    ∀ (j : Nat) (B : List α) (pend : List (Option (List α))),
      B.length = 2 ^ j → j < pend.length →
      (∀ i, i < j → pend.getD i none = none) →
      buildPending le B pend = pend.take j ++ carry le B (pend.drop j) := by
  intro j
  induction j with
  | zero =>
      intro B pend hB _ _
      have hBx : ∃ x, B = [x] := by
        cases B with
        | nil => simp at hB
        | cons x t =>
            cases t with
            | nil => exact ⟨x, rfl⟩
            | cons y t' =>
                simp only [List.length_cons, pow_zero] at hB
                omega
      obtain ⟨x, rfl⟩ := hBx
      show buildPending le [x] pend = pend.take 0 ++ carry le [x] (pend.drop 0)
      simp [buildPending]
  | succ j ih =>
      intro B pend hB hj hlow
      set B1 := B.take (2 ^ j) with hB1
      set B2 := B.drop (2 ^ j) with hB2
      have hBsplit : B1 ++ B2 = B := by rw [hB1, hB2]; simp
      have hpow : 2 ^ (j + 1) = 2 ^ j + 2 ^ j := by rw [pow_succ]; ring
      have hlen1 : B1.length = 2 ^ j := by
        rw [hB1, List.length_take, hB]
        omega
      have hlen2 : B2.length = 2 ^ j := by
        rw [hB2, List.length_drop, hB]
        omega
      have hpj : pend.getD j none = none := hlow j (by omega)
      have hdropj : pend.drop j = none :: pend.drop (j + 1) := by
        rw [List.drop_eq_getElem_cons (by omega : j < pend.length)]
        rw [List.getD_eq_getElem _ _ (by omega : j < pend.length)] at hpj
        rw [hpj]
      rw [← hBsplit, buildPending_append]
      rw [ih B1 pend hlen1 (by omega) (fun i hi => hlow i (by omega))]
      rw [hdropj, carry_cons_none]
      have htl : (pend.take j).length = j := by
        rw [List.length_take]; omega
      have hS1take :
          (pend.take j ++ some B1 :: pend.drop (j + 1)).take j = pend.take j :=
        List.take_left' htl
      have hS1drop :
          (pend.take j ++ some B1 :: pend.drop (j + 1)).drop j =
            some B1 :: pend.drop (j + 1) :=
        List.drop_left' htl
      have hS1len : (pend.take j ++ some B1 :: pend.drop (j + 1)).length =
          pend.length := by
        simp only [List.length_append, List.length_cons, List.length_drop, htl]
        omega
      have hlowS1 : ∀ i, i < j →
          (pend.take j ++ some B1 :: pend.drop (j + 1)).getD i none = none := by
        intro i hi
        rw [List.getD_eq_getElem?_getD, List.getElem?_append, htl,
          if_pos (by omega)]
        rw [← List.getD_eq_getElem?_getD]
        rw [getD_take_of_lt pend j i hi]
        exact hlow i (by omega)
      rw [ih B2 _ hlen2 (by rw [hS1len]; omega) hlowS1]
      rw [hS1take, hS1drop]
      have hdropne : ∃ s2 rest2, pend.drop (j + 1) = s2 :: rest2 := by
        cases hdd : pend.drop (j + 1) with
        | nil =>
            exfalso
            have : pend.length - (j + 1) = 0 := by
              rw [← List.length_drop, hdd]; rfl
            omega
        | cons s2 rest2 => exact ⟨s2, rest2, rfl⟩
      obtain ⟨s2, rest2, hrest2⟩ := hdropne
      rw [hrest2, carry_cons_some, hconc, hBsplit]
      have htakesucc : pend.take (j + 1) = pend.take j ++ [none] := by
        rw [List.take_succ]
        congr 1
        rw [List.getD_eq_getElem _ _ (by omega : j < pend.length)] at hpj
        rw [List.getElem?_eq_getElem (by omega : j < pend.length), hpj]
        rfl
      rw [htakesucc]
      simp

theorem foldl_merge_replicate_none (n : Nat) (acc : List α) :
    (List.replicate n (none : Option (List α))).foldl
      (fun acc s => merge le (s.getD []) acc) acc = acc := by
  induction n generalizing acc with
  | zero => rfl
  | succ k ih =>
      rw [List.replicate_succ]
      show (List.replicate k none).foldl _
        (merge le ((none : Option (List α)).getD []) acc) = acc
      rw [show merge le ((none : Option (List α)).getD []) acc = acc from by
        simp [merge]]
      exact ih acc

/-- The exact result of part_001's `q_sort` on `2 ^ 31 + 1` elements whose
comparisons all tie: the first `2 ^ 31` elements fill bucket 31, the final
element is alone in bucket 0, and `merge_final` receives that newest element
as its left argument, so the tie puts it in front of all the older ones. -/
theorem q_sort1_tied (hconc : ∀ a b : List α, merge le a b = a ++ b)
    (B : List α) (x : α) (hB : B.length = 2 ^ 31) :
    q_sort1 le (B ++ [x]) = x :: B := by
  unfold q_sort1
  rw [if_neg (by
    simp only [List.length_append, List.length_cons, List.length_nil, hB]
    norm_num)]
  rw [buildPending_append]
  rw [buildPending_block le hconc 31 B (List.replicate 32 none) hB (by simp)
    (by
      intro i hi
      rw [List.getD_eq_getElem?_getD, List.getElem?_replicate,
        if_pos (by omega)]
      rfl)]
  rw [show (List.replicate 32 (none : Option (List α))).take 31 =
      List.replicate 31 none from by
    rw [List.take_replicate]; rfl]
  rw [show (List.replicate 32 (none : Option (List α))).drop 31 =
      [none] from by
    rw [List.drop_replicate]; rfl]
  rw [show carry le B [none] = [some B] from by simp [carry]]
  show mergeAll1 le (carry le [x] (List.replicate 31 none ++ [some B])) = x :: B
  rw [show List.replicate 31 (none : Option (List α)) ++ [some B] =
      none :: (List.replicate 30 none ++ [some B]) from by
    rw [List.replicate_succ]; rfl]
  rw [carry_cons_none]
  rw [mergeAll1]
  have htake : (some [x] ::
      (List.replicate 30 (none : Option (List α)) ++ [some B])).take 31 =
      some [x] :: List.replicate 30 none := by
    rw [List.take_succ_cons]
    congr 1
  have hgetD : (some [x] ::
      (List.replicate 30 (none : Option (List α)) ++ [some B])).getD 31 none =
      some B := by
    rw [List.getD_eq_getElem?_getD]
    rw [List.getElem?_cons_succ]
    rw [List.getElem?_append_right (by simp)]
    simp
  rw [htake, hgetD]
  rw [List.foldl_cons]
  rw [show merge le ((some [x] : Option (List α)).getD []) [] = [x] from by
    rw [Option.getD_some, merge_nil_right]]
  rw [foldl_merge_replicate_none]
  rw [Option.getD_some, hconc]
  rfl

end Counter

/-! ### Tagged elements, and the concrete instability input for part_001 -/

/-- Tagged elements for the stability statements: an identity tag paired with
the string payload.  Distinct C nodes may hold equal strings; the tag stands
for the node identity. -/
abbrev TElem := Nat × Str

/-- The payload of a tagged element. -/
def tval (e : TElem) : Str := e.2

/-- The comparison `q_sort` performs on (tagged) elements:
`strcmp(a->value, b->value) <= 0` — it looks only at the payloads. -/
def tle (a b : TElem) : Bool := sle (tval a) (tval b)

theorem tle_refl_key (a b : TElem) (h : tval a = tval b) : tle a b = true := by
  rw [tle, h]; exact sle_refl _

theorem tle_trans (a b c : TElem) (hab : tle a b = true)
    (hbc : tle b c = true) : tle a c = true := sle_trans hab hbc

theorem tle_total (a b : TElem) : tle a b = true ∨ tle b a = true :=
  sle_total _ _

/-- The tagged element `(i, "a")`. -/
def cexTag (i : Nat) : TElem := (i, [97])

/-- `2 ^ 31 + 1` distinct elements all holding the string `"a"`. -/
def cexInput : List TElem :=
  (List.range (2 ^ 31)).map cexTag ++ [cexTag (2 ^ 31)]

theorem q_sort1_cex_eval :
    q_sort1 tle cexInput =
      cexTag (2 ^ 31) :: (List.range (2 ^ 31)).map cexTag := by
  have hle : ∀ a b : Nat,
      tle (cexTag a) (cexTag b) = (fun _ _ : Nat => true) a b := by
    intro a b
    show sle [97] [97] = true
    decide
  have hmap : cexInput = (List.range (2 ^ 31) ++ [2 ^ 31]).map cexTag := by
    rw [cexInput, List.map_append, List.map_singleton]
  rw [hmap, q_sort1_map cexTag (fun _ _ : Nat => true) tle hle]
  rw [q_sort1_tied (fun _ _ : Nat => true)
    (fun a b => by rw [merge_eq_lib]; exact List.merge_of_le (by simp))
    (List.range (2 ^ 31)) (2 ^ 31) (by simp)]
  rw [List.map_cons]

/-! ### The out-buffer copy of `q_remove_head` / `q_remove_tail` -/

theorem takeWhile_append_stop (p : Nat → Bool) :
    ∀ (a : List Nat) (b : Nat) (t : List Nat), (∀ x ∈ a, p x = true) →
      p b = false → (a ++ b :: t).takeWhile p = a := by
  intro a
  induction a with
  | nil =>
      intro b t _ hb
      rw [List.nil_append, List.takeWhile_cons, hb]
      rfl
  | cons x xs ih =>
      intro b t ha hb
      rw [List.cons_append, List.takeWhile_cons, ha x (by simp)]
      rw [ih b t (fun y hy => ha y (by simp [hy])) hb]
      simp

theorem copyOut_length (v : Str) (buf : List Nat) (hb : 1 ≤ buf.length) :
    (copyOut v buf).length = buf.length := by
  rw [copyOut]
  simp only [List.length_append, List.length_take, List.length_replicate,
    List.length_cons, List.length_nil]
  omega

/-- The C string a reader of the buffer sees after the copy is the value
truncated to `bufsize - 1` bytes. -/
theorem readCStr_copyOut (v : Str) (buf : List Nat) (_hb : 1 ≤ buf.length)
    (hv : ∀ b ∈ v, b ≠ 0) :
    readCStr (copyOut v buf) = v.take (buf.length - 1) := by
  rw [readCStr, copyOut]
  have hall : ∀ x ∈ v.take (buf.length - 1),
      (fun b => decide (b ≠ 0)) x = true := by
    intro x hx
    simp only [decide_eq_true_eq]
    exact hv x (List.mem_of_mem_take hx)
  cases hrep : buf.length - 1 - v.length with
  | zero =>
      rw [List.replicate_zero, List.append_nil]
      exact takeWhile_append_stop _ _ 0 [] hall (by simp)
  | succ m =>
      rw [List.replicate_succ, List.append_assoc, List.cons_append]
      exact takeWhile_append_stop _ _ 0 _ hall (by simp)

/-! ## Claim theorems -/

/-- `q_sort` behind the `!head` NULL guard, variant part_000. -/
def q_sortOp0 (q : Option (List TElem)) : Option (List TElem) :=
  match q with
  | none => none
  | some l => some (q_sort0 tle l)

/-- `q_sort` behind the `!head` NULL guard, variant part_001. -/
def q_sortOp1 (q : Option (List TElem)) : Option (List TElem) :=
  match q with
  | none => none
  | some l => some (q_sort1 tle l)

/-- C1: both variants of `q_sort` rearrange exactly the existing elements
(the output is a permutation of the input, element identities included) into
non-decreasing `strcmp` order of their payloads, and an absent list, the
empty list and a singleton are left untouched. -/
theorem claim_C1_sort_sorts_and_permutes :
    (q_sortOp0 none = none ∧ q_sortOp1 none = none) ∧
    (∀ l : List TElem, l.length ≤ 1 → q_sort0 tle l = l ∧ q_sort1 tle l = l) ∧
    (∀ l : List TElem,
      List.Perm (q_sort0 tle l) l ∧ List.Perm (q_sort1 tle l) l ∧
      List.Chain' (fun a b => sle (tval a) (tval b) = true) (q_sort0 tle l) ∧
      List.Chain' (fun a b => sle (tval a) (tval b) = true) (q_sort1 tle l)) := by
  refine ⟨⟨rfl, rfl⟩, ?_, ?_⟩
  · intro l h
    constructor
    · rw [q_sort0, if_pos h]
    · rw [q_sort1, if_pos h]
  · intro l
    refine ⟨q_sort0_perm tle l, q_sort1_perm tle l, ?_, ?_⟩
    · exact (q_sort0_sorted tle tle_trans tle_total l).chain'
    · exact (q_sort1_sorted tle tle_trans tle_total l).chain'

theorem claim_C1_witness :
    (q_sort0 tle [((0 : Nat), [97])] = [((0 : Nat), [97])]) ∧
    List.Chain' (fun a b => sle (tval a) (tval b) = true)
      (q_sort0 tle [((0 : Nat), [98, 97, 110]), (1, [97, 112]), (2, [99])]) :=
  ⟨(claim_C1_sort_sorts_and_permutes.2.1 [((0 : Nat), [97])] (by decide)).1,
   (claim_C1_sort_sorts_and_permutes.2.2
      [((0 : Nat), [98, 97, 110]), (1, [97, 112]), (2, [99])]).2.2.1⟩

/-- C2 (counterexample): part_001's `q_sort` is *not* stable as claimed for
every input list: on `2 ^ 31 + 1` distinct elements all holding the string
`"a"`, the element inserted last is moved to the front, so the subsequence of
elements with payload `"a"` (the whole list) is reordered. -/
theorem claim_C2_counterexample :
    ¬ (filterK tval [97] (q_sort1 tle cexInput) =
       filterK tval [97] cexInput) := by
  rw [q_sort1_cex_eval]
  have hall1 : ∀ e ∈ cexTag (2 ^ 31) :: (List.range (2 ^ 31)).map cexTag,
      (fun e => decide (tval e = [97])) e = true := by
    intro e he
    rcases List.mem_cons.mp he with rfl | he
    · simp [cexTag, tval]
    · obtain ⟨i, _, rfl⟩ := List.mem_map.mp he
      simp [cexTag, tval]
  have hall2 : ∀ e ∈ cexInput, (fun e => decide (tval e = [97])) e = true := by
    intro e he
    rw [cexInput] at he
    rcases List.mem_append.mp he with he | he
    · obtain ⟨i, _, rfl⟩ := List.mem_map.mp he
      simp [cexTag, tval]
    · simp only [List.mem_singleton] at he
      subst he
      simp [cexTag, tval]
  have hf1 : filterK tval [97]
      (cexTag (2 ^ 31) :: (List.range (2 ^ 31)).map cexTag) =
      cexTag (2 ^ 31) :: (List.range (2 ^ 31)).map cexTag := by
    rw [filterK]; exact List.filter_eq_self.mpr hall1
  have hf2 : filterK tval [97] cexInput = cexInput := by
    rw [filterK]; exact List.filter_eq_self.mpr hall2
  rw [hf1, hf2]
  intro heq
  have h0 := congrArg (fun m => m[0]?) heq
  simp only [List.getElem?_cons_zero] at h0
  have hR : cexInput[0]? = some (cexTag 0) := by
    rw [cexInput, List.getElem?_append, if_pos (by simp)]
    rw [List.getElem?_map]
    rw [List.getElem?_range (by norm_num)]
    rfl
  rw [hR] at h0
  have h1 : cexTag (2 ^ 31) = cexTag 0 := Option.some.inj h0
  have h2 : (2 ^ 31 : Nat) = 0 := congrArg Prod.fst h1
  norm_num at h2

/-- C2 (amended): part_000's `q_sort` is stable on all inputs — for every
payload, the subsequence of elements holding it is preserved — and part_001's
`q_sort` is stable on every input of fewer than `2 ^ 31` elements (what a
list must exceed before pending bucket 31, which its final merge passes on
the wrong side, can become occupied). -/
theorem claim_C2_stability_amended :
    (∀ (k : Str) (l : List TElem),
      filterK tval k (q_sort0 tle l) = filterK tval k l) ∧
    (∀ (k : Str) (l : List TElem), l.length < 2 ^ 31 →
      filterK tval k (q_sort1 tle l) = filterK tval k l) :=
  ⟨fun k l => q_sort0_stable tval tle tle_refl_key tle_trans tle_total k l,
   fun k l h =>
    q_sort1_stable_of_small tval tle tle_refl_key tle_trans tle_total k l h⟩

theorem claim_C2_witness :
    filterK tval [97] (q_sort1 tle [((0 : Nat), [98]), (1, [97])]) =
      filterK tval [97] [((0 : Nat), [98]), (1, [97])] :=
  claim_C2_stability_amended.2 [97] [((0 : Nat), [98]), (1, [97])]
    (by norm_num)

/-- C4: `q_delete_dup` (both variants) fails exactly on an absent handle,
succeeds without mutation on the empty list, and on a sorted list keeps
exactly the values that occur once, in their original order — every run of
two or more equal adjacent values (including a run ending at the sentinel) is
removed entirely. -/
theorem claim_C4_delete_dup :
    (q_delete_dup0 none = (false, none) ∧ q_delete_dup1 none = (false, none)) ∧
    (∀ l : List Str, (q_delete_dup0 (some l)).1 = true ∧
      (q_delete_dup1 (some l)).1 = true) ∧
    (q_delete_dup0 (some []) = (true, some []) ∧
      q_delete_dup1 (some []) = (true, some [])) ∧
    (∀ l : List Str, Srt sle l →
      q_delete_dup0 (some l) = (true, some (specDD l)) ∧
      q_delete_dup1 (some l) = (true, some (specDD l))) := by
  refine ⟨⟨rfl, rfl⟩, ?_, ?_, ?_⟩
  · intro l
    exact ⟨rfl, rfl⟩
  · constructor
    · show (true, some (q_delete_dup0Go [])) = (true, some [])
      rw [show q_delete_dup0Go [] = [] from by simp [q_delete_dup0Go]]
    · rfl
  · intro l hs
    constructor
    · show (true, some (q_delete_dup0Go l)) = _
      rw [delete_dup0_sorted l hs]
    · show (true, some (q_delete_dup1Go false l)) = _
      rw [delete_dup1_sorted l hs]

theorem claim_C4_witness :
    Srt sle [[1], [1], [2], [3], [3], [3]] ∧
    q_delete_dup0 (some [[1], [1], [2], [3], [3], [3]]) =
      (true, some [[2]]) ∧
    q_delete_dup1 (some [[1], [1], [2], [3], [3], [3]]) =
      (true, some [[2]]) := by
  have h := claim_C4_delete_dup.2.2.2 [[1], [1], [2], [3], [3], [3]]
    (by unfold Srt; decide)
  refine ⟨by unfold Srt; decide, ?_, ?_⟩
  · rw [h.1]; decide
  · rw [h.2]; decide

/-- C5: `q_delete_mid` (both variants) fails without mutation on an absent or
empty list, and otherwise removes exactly the element at 0-based index
`⌊n/2⌋`, leaving the remaining elements in their original relative order. -/
theorem claim_C5_delete_mid :
    (q_delete_mid0 none = (false, none) ∧ q_delete_mid1 none = (false, none) ∧
     q_delete_mid0 (some []) = (false, some []) ∧
     q_delete_mid1 (some []) = (false, some [])) ∧
    (∀ l : List Str, l ≠ [] →
      q_delete_mid0 (some l) = (true, some (l.eraseIdx (l.length / 2))) ∧
      q_delete_mid1 (some l) = (true, some (l.eraseIdx (l.length / 2)))) := by
  refine ⟨⟨rfl, rfl, rfl, rfl⟩, ?_⟩
  intro l h
  exact ⟨q_delete_mid0_spec l h, q_delete_mid1_spec l h⟩

theorem claim_C5_witness :
    q_delete_mid0 (some [[97], [98], [99], [100], [101], [102]]) =
      (true, some [[97], [98], [99], [101], [102]]) ∧
    q_delete_mid1 (some [[97], [98], [99], [100], [101], [102]]) =
      (true, some [[97], [98], [99], [101], [102]]) := by
  have h := claim_C5_delete_mid.2 [[97], [98], [99], [100], [101], [102]]
    (by decide)
  refine ⟨?_, ?_⟩
  · rw [h.1]; decide
  · rw [h.2]; decide

/-- C6: `q_remove_head`/`q_remove_tail` return an absent element exactly for
an absent or empty list (leaving everything untouched); otherwise they unlink
the first (resp. last) element and hand it — its string untouched — to the
caller, and when an out-buffer is supplied the string is copied into it
truncated to `bufsize - 1` bytes plus a NUL terminator. -/
theorem claim_C6_remove :
    (∀ q sp, ((q_remove_head q sp).removed = none ↔ (q = none ∨ q = some [])) ∧
      ((q_remove_tail q sp).removed = none ↔ (q = none ∨ q = some []))) ∧
    (∀ sp, q_remove_head none sp = ⟨none, none, sp⟩ ∧
      q_remove_tail none sp = ⟨none, none, sp⟩ ∧
      q_remove_head (some []) sp = ⟨none, some [], sp⟩ ∧
      q_remove_tail (some []) sp = ⟨none, some [], sp⟩) ∧
    (∀ (x : Str) (rest : List Str) (sp : Option (List Nat)),
      q_remove_head (some (x :: rest)) sp =
        ⟨some x, some rest, sp.map (copyOut x)⟩ ∧
      (q_remove_tail (some (x :: rest)) sp).removed =
        some ((x :: rest).getLast (by simp)) ∧
      (q_remove_tail (some (x :: rest)) sp).queue =
        some (x :: rest).dropLast) ∧
    (∀ (v : Str) (buf : List Nat), 1 ≤ buf.length → (∀ b ∈ v, b ≠ 0) →
      readCStr (copyOut v buf) = v.take (buf.length - 1) ∧
      (copyOut v buf).length = buf.length) := by
  refine ⟨?_, ?_, ?_, ?_⟩
  · intro q sp
    constructor
    · cases q with
      | none => simp [q_remove_head]
      | some l => cases l <;> simp [q_remove_head]
    · cases q with
      | none => simp [q_remove_tail]
      | some l => cases l <;> simp [q_remove_tail]
  · intro sp
    exact ⟨rfl, rfl, rfl, rfl⟩
  · intro x rest sp
    exact ⟨rfl, rfl, rfl⟩
  · intro v buf h1 h2
    exact ⟨readCStr_copyOut v buf h1 h2, copyOut_length v buf h1⟩

theorem claim_C6_witness :
    readCStr (copyOut [104, 105, 106, 107] [9, 9, 9]) = [104, 105] ∧
    (copyOut [104, 105, 106, 107] [9, 9, 9]).length = 3 := by
  have h := claim_C6_remove.2.2.2 [104, 105, 106, 107] [9, 9, 9]
    (by decide) (by decide)
  exact ⟨h.1, h.2⟩

/-- C7: both inserts are all-or-nothing: they succeed exactly when the handle
is present and both allocations succeed, in which case exactly the new string
is spliced at the front (resp. back); on every failure path the queue is
unchanged and nothing is leaked (in particular the element is freed when only
`strdup` fails). -/
theorem claim_C7_insert :
    ∀ (q : Option (List Str)) (s : Str) (a d : Bool),
      ((q_insert_head q s a d).ok = true ↔
        (q ≠ none ∧ a = true ∧ d = true)) ∧
      ((q_insert_tail q s a d).ok = true ↔
        (q ≠ none ∧ a = true ∧ d = true)) ∧
      (q_insert_head q s a d).leaked = 0 ∧
      (q_insert_tail q s a d).leaked = 0 ∧
      (∀ l, q = some l → a = true → d = true →
        (q_insert_head q s a d).queue = some (s :: l) ∧
        (q_insert_tail q s a d).queue = some (l ++ [s])) ∧
      ((q_insert_head q s a d).ok = false →
        (q_insert_head q s a d).queue = q) ∧
      ((q_insert_tail q s a d).ok = false →
        (q_insert_tail q s a d).queue = q) := by
  intro q s a d
  cases q with
  | none => simp [q_insert_head, q_insert_tail]
  | some l =>
      cases a <;> cases d <;>
        simp [q_insert_head, q_insert_tail]

theorem claim_C7_witness :
    (q_insert_head (some [[98]]) [97] true true).ok = true ∧
    (q_insert_head (some [[98]]) [97] true true).queue = some [[97], [98]] ∧
    (q_insert_tail (some [[98]]) [97] true false).queue = some [[98]] ∧
    (q_insert_tail (some [[98]]) [97] true false).leaked = 0 := by
  have h := claim_C7_insert (some [[98]]) [97] true true
  have h2 := claim_C7_insert (some [[98]]) [97] true false
  refine ⟨h.1.mpr ⟨by simp, rfl, rfl⟩, (h.2.2.2.2.1 [[98]] rfl rfl rfl).1,
    h2.2.2.2.2.2.2 (by rfl), h2.2.2.2.1⟩

/-- C8: `q_swap` (both variants) exchanges each adjacent pair of elements —
the nodes themselves move, two at a time from the front — leaving a final
unpaired element in place, and does nothing on an absent or empty list;
`[1,2,3,4,5]` becomes `[2,1,4,3,5]`. -/
theorem claim_C8_swap :
    (q_swap0 (none : Option (List TElem)) = none ∧
     q_swap1 (none : Option (List TElem)) = none ∧
     q_swap0 (some ([] : List TElem)) = some [] ∧
     q_swap1 (some ([] : List TElem)) = some []) ∧
    (∀ l : List TElem, q_swap0Go none l = q_swap1Go l) ∧
    (∀ (a b : TElem) (t : List TElem),
      q_swap0Go none (a :: b :: t) = b :: a :: q_swap0Go none t ∧
      q_swap1Go (a :: b :: t) = b :: a :: q_swap1Go t) ∧
    (∀ x : TElem, q_swap0Go none [x] = [x] ∧ q_swap1Go [x] = [x]) ∧
    q_swap1 (some [(1 : Nat), 2, 3, 4, 5]) = some [2, 1, 4, 3, 5] := by
  refine ⟨⟨rfl, rfl, rfl, rfl⟩, ?_, ?_, ?_, rfl⟩
  · intro l
    exact q_swap_go_agree l
  · intro a b t
    exact ⟨rfl, rfl⟩
  · intro x
    exact ⟨rfl, rfl⟩

/-- C10: with `bufsize : size_t`, the expression `bufsize - 1` used both as
the `strncpy` length and as the index of the NUL write evaluates, for every
in-contract call (`bufsize ≥ 1`), to exactly `bufsize - 1`, which lies inside
the buffer; for `bufsize = 0` the unsigned subtraction wraps to
`2 ^ 64 - 1`. -/
theorem claim_C10_bufsize : ∀ bufsize : Nat, bufsize < 2 ^ 64 →
    (1 ≤ bufsize →
      bufsizeSub1 bufsize = bufsize - 1 ∧ bufsizeSub1 bufsize < bufsize) ∧
    (bufsize = 0 → bufsizeSub1 bufsize = 2 ^ 64 - 1) := by
  intro bufsize hlt
  constructor
  · intro h1
    rw [bufsizeSub1]
    omega
  · intro h0
    subst h0
    rw [bufsizeSub1]
    omega

theorem claim_C10_witness :
    bufsizeSub1 8 = 7 ∧ bufsizeSub1 8 < 8 :=
  (claim_C10_bufsize 8 (by norm_num)).1 (by norm_num)

/-! ## The pointer-level model

To state the doubly-linked-circularity invariant we model the raw pointer
structure: every node (sentinel included) has a numeric id, and a state
assigns each id its `next` and `prev` fields.  A queue whose elements, in
ring order starting at the sentinel, have ids `L`, is well formed when
consecutive ids (cyclically) are mutually linked. -/

structure PState where
  next : Nat → Nat
  prev : Nat → Nat

namespace PState

/-- The assignment `a->next = b`. -/
def setNext (s : PState) (a b : Nat) : PState :=
  { s with next := Function.update s.next a b }

/-- The assignment `a->prev = b`. -/
def setPrev (s : PState) (a b : Nat) : PState :=
  { s with prev := Function.update s.prev a b }

end PState

@[simp] theorem setNext_next (s : PState) (a b x : Nat) :
    (s.setNext a b).next x = if x = a then b else s.next x := by
  rw [PState.setNext]
  simp [Function.update_apply]

@[simp] theorem setNext_prev (s : PState) (a b x : Nat) :
    (s.setNext a b).prev x = s.prev x := rfl

@[simp] theorem setPrev_prev (s : PState) (a b x : Nat) :
    (s.setPrev a b).prev x = if x = a then b else s.prev x := by
  rw [PState.setPrev]
  simp [Function.update_apply]

@[simp] theorem setPrev_next (s : PState) (a b x : Nat) :
    (s.setPrev a b).next x = s.next x := rfl

/-- `a` and `b` are mutually linked: `a->next == b` and `b->prev == a`. -/
def linked (s : PState) (a b : Nat) : Prop := s.next a = b ∧ s.prev b = a

/-- `s` realizes the circular doubly linked list whose nodes, in ring order
starting at the sentinel, are `L`: consecutive nodes are mutually linked, the
last node linking back to the first. -/
def WF (s : PState) (L : List Nat) : Prop :=
  L ≠ [] ∧ L.Nodup ∧ List.Chain' (linked s) (L ++ [L.headD 0])

theorem chain'_imp_strong {R S : Nat → Nat → Prop} :
    ∀ l : List Nat, (∀ x y, x ∈ l.dropLast → y ∈ l.tail → R x y → S x y) →
      List.Chain' R l → List.Chain' S l := by
  intro l
  induction l with
  | nil => intro _ _; exact List.chain'_nil
  | cons a t ih =>
      intro h hc
      cases t with
      | nil => exact List.chain'_singleton a
      | cons b t' =>
          rw [List.chain'_cons] at hc ⊢
          constructor
          · refine h a b ?_ (by simp) hc.1
            rw [List.dropLast_cons₂]
            simp
          · refine ih ?_ hc.2
            intro x y hx hy hr
            refine h x y ?_ ?_ hr
            · rw [List.dropLast_cons₂]
              simp only [List.mem_cons]
              right
              exact hx
            · show y ∈ b :: t'
              exact List.mem_of_mem_tail hy

theorem chain'_exists_right {R : Nat → Nat → Prop} :
    ∀ l : List Nat, List.Chain' R l → ∀ x ∈ l.dropLast, ∃ y, R x y := by
  intro l
  induction l with
  | nil => intro _ x hx; cases hx
  | cons a t ih =>
      intro hc x hx
      cases t with
      | nil => cases hx
      | cons b t' =>
          rw [List.chain'_cons] at hc
          rw [List.dropLast_cons₂] at hx
          rcases List.mem_cons.mp hx with rfl | hx
          · exact ⟨b, hc.1⟩
          · exact ih hc.2 x hx

theorem chain'_exists_left {R : Nat → Nat → Prop} :
    ∀ l : List Nat, List.Chain' R l → ∀ y ∈ l.tail, ∃ x, R x y := by
  intro l
  induction l with
  | nil => intro _ y hy; cases hy
  | cons a t ih =>
      intro hc y hy
      cases t with
      | nil => cases hy
      | cons b t' =>
          rw [List.chain'_cons] at hc
          rcases List.mem_cons.mp hy with rfl | hy
          · exact ⟨a, hc.1⟩
          · exact ih hc.2 y (by exact hy)

theorem headD_mem {l : List Nat} (h : l ≠ []) : l.headD 0 ∈ l := by
  cases l with
  | nil => exact absurd rfl h
  | cons a t => simp

theorem head_not_mem_tail {l : List Nat} (h : l.Nodup) :
    l.headD 0 ∉ l.tail := by
  cases l with
  | nil => simp
  | cons a t =>
      simp only [List.headD_cons, List.tail_cons]
      exact (List.nodup_cons.mp h).1

theorem getLast_not_mem_dropLast {l : List Nat} (hne : l ≠ [])
    (h : l.Nodup) : l.getLast hne ∉ l.dropLast := by
  intro hmem
  have hsplit : l.dropLast ++ [l.getLast hne] = l :=
    List.dropLast_append_getLast hne
  rw [← hsplit] at h
  have := (List.nodup_append.mp h).2.2
  exact this hmem (by simp)

/-- The claimed invariant, from well-formedness: every node reachable from
the sentinel satisfies `x.next.prev == x` and `x.prev.next == x`. -/
theorem WF_invariant {s : PState} {L : List Nat} (h : WF s L) :
    ∀ x ∈ L, s.prev (s.next x) = x ∧ s.next (s.prev x) = x := by
  obtain ⟨hne, hnd, hchain⟩ := h
  intro x hx
  constructor
  · have hx' : x ∈ (L ++ [L.headD 0]).dropLast := by
      rw [List.dropLast_concat]
      exact hx
    obtain ⟨y, hy⟩ := chain'_exists_right _ hchain x hx'
    rw [hy.1, hy.2]
  · have hx' : x ∈ (L ++ [L.headD 0]).tail := by
      cases L with
      | nil => exact absurd rfl hne
      | cons a t =>
          rw [List.cons_append, List.tail_cons]
          rcases List.mem_cons.mp hx with rfl | hx
          · simp
          · exact List.mem_append_left _ hx
    obtain ⟨w, hw⟩ := chain'_exists_left _ hchain x hx'
    rw [hw.2, hw.1]

theorem head?_eq_headD {l : List Nat} (h : l ≠ []) :
    l.head? = some (l.headD 0) := by
  cases l with
  | nil => exact absurd rfl h
  | cons a t => rfl

theorem headD_append {l m : List Nat} (h : l ≠ []) :
    (l ++ m).headD 0 = l.headD 0 := by
  cases l with
  | nil => exact absurd rfl h
  | cons a t => rfl

/-- The cyclic neighbour pair at the `A`/`B` boundary of a well-formed ring
`A ++ B` (wrapping to the head when `B` is empty) is mutually linked. -/
theorem WF_linked_boundary {s : PState} {A B : List Nat} (h : WF s (A ++ B))
    (hA : A ≠ []) :
    linked s (A.getLast hA) ((B ++ [A.headD 0]).headD 0) := by
  obtain ⟨hne, hnd, hchain⟩ := h
  rw [headD_append hA, List.append_assoc] at hchain
  rw [List.chain'_append] at hchain
  have hB : (B ++ [A.headD 0]) ≠ [] := by simp
  have := hchain.2.2 (A.getLast hA)
    (by rw [List.getLast?_eq_getLast A hA]; simp)
    ((B ++ [A.headD 0]).headD 0)
    (by rw [head?_eq_headD hB]; simp)
  exact this

/-- Modelled from the spec: the two unlink writes `a->next = c; c->prev = a`.
They are performed by `list_del` (repository header `list.h`, not under
`src/`; the spec: unlinking "restor[es] the neighbors' mutual links") with
`a`/`c` the removed node's neighbours, and literally by the run excision of
`q_delete_dup` (`prev->next = node; node->prev = prev`). -/
def spliceOut (s : PState) (a c : Nat) : PState := (s.setNext a c).setPrev c a

/-- Excising the contiguous block `M` from a well-formed ring by the two
splice writes leaves a well-formed ring of the remaining nodes. -/
theorem spliceOut_WF {s : PState} {A M B : List Nat}
    (h : WF s (A ++ (M ++ B))) (hA : A ≠ []) :
    WF (spliceOut s (A.getLast hA) ((B ++ [A.headD 0]).headD 0)) (A ++ B) := by
  obtain ⟨hne, hnd, hchain⟩ := h
  set a := A.getLast hA with ha
  set c := (B ++ [A.headD 0]).headD 0 with hc
  have hnext : ∀ x, (spliceOut s a c).next x = if x = a then c else s.next x := by
    intro x; rw [spliceOut]; simp
  have hprev : ∀ x, (spliceOut s a c).prev x = if x = c then a else s.prev x := by
    intro x; rw [spliceOut]; simp
  have hndA : A.Nodup := (List.nodup_append.mp hnd).1
  have hndMB : (M ++ B).Nodup := (List.nodup_append.mp hnd).2.1
  have hdisj : A.Disjoint (M ++ B) := (List.nodup_append.mp hnd).2.2
  have hndB : B.Nodup := (List.nodup_append.mp hndMB).2.1
  have hamem : a ∈ A := List.getLast_mem hA
  have hcBorH : c ∈ B ∨ c = A.headD 0 := by
    cases B with
    | nil => right; rw [hc]; rfl
    | cons b0 B' => left; rw [hc]; simp
  have hytailA : ∀ y ∈ A.tail, y ≠ c := by
    intro y hy hyc
    rcases hcBorH with hcB | hch
    · exact hdisj (List.mem_of_mem_tail hy) (by rw [hyc]; exact List.mem_append_right _ hcB)
    · exact head_not_mem_tail hndA (by rw [← hch, ← hyc]; exact hy)
  have hchain' : List.Chain' (linked s)
      (A ++ (M ++ (B ++ [A.headD 0]))) := by
    have : (A ++ (M ++ B)) ++ [(A ++ (M ++ B)).headD 0] =
        A ++ (M ++ (B ++ [A.headD 0])) := by
      rw [headD_append hA]
      simp [List.append_assoc]
    rw [this] at hchain
    exact hchain
  have hCA : List.Chain' (linked s) A := (List.chain'_append.mp hchain').1
  have hCB : List.Chain' (linked s) (B ++ [A.headD 0]) :=
    (List.chain'_append.mp ((List.chain'_append.mp hchain').2.1)).2.1
  refine ⟨by simp [hA], ?_, ?_⟩
  · refine List.nodup_append.mpr ⟨hndA, hndB, ?_⟩
    intro x hxA hxB
    exact hdisj hxA (List.mem_append_right _ hxB)
  · have hgoal : (A ++ B) ++ [(A ++ B).headD 0] =
        A ++ (B ++ [A.headD 0]) := by
      rw [headD_append hA]
      simp [List.append_assoc]
    rw [hgoal]
    rw [List.chain'_append]
    refine ⟨?_, ?_, ?_⟩
    · -- pairs inside A are untouched
      refine chain'_imp_strong A ?_ hCA
      intro x y hx hy hr
      have hxa : x ≠ a := by
        intro hxa
        exact getLast_not_mem_dropLast hA hndA (by rw [← ha, ← hxa]; exact hx)
      constructor
      · rw [hnext, if_neg hxa]; exact hr.1
      · rw [hprev, if_neg (hytailA y hy)]; exact hr.2
    · -- pairs inside B (and the wrap back to the head) are untouched
      refine chain'_imp_strong (B ++ [A.headD 0]) ?_ hCB
      intro x y hx hy hr
      rw [List.dropLast_concat] at hx
      have hxa : x ≠ a := by
        intro hxa
        exact hdisj hamem (by rw [← hxa]; exact List.mem_append_right _ hx)
      have hyc : y ≠ c := by
        cases B with
        | nil => cases hy
        | cons b0 B' =>
            have hcb : c = b0 := by rw [hc]; simp
            rw [List.cons_append, List.tail_cons] at hy
            intro hyc
            rw [hyc, hcb] at hy
            rcases List.mem_append.mp hy with hyB' | hyH
            · exact (List.nodup_cons.mp hndB).1 hyB'
            · have hhb : b0 = A.headD 0 := by simpa using hyH
              refine hdisj (headD_mem hA) ?_
              rw [← hhb]
              exact List.mem_append_right _ (by simp)
      constructor
      · rw [hnext, if_neg hxa]; exact hr.1
      · rw [hprev, if_neg hyc]; exact hr.2
    · -- the new boundary pair is exactly the splice writes
      intro x hx y hy
      rw [List.getLast?_eq_getLast A hA] at hx
      have hB : (B ++ [A.headD 0]) ≠ [] := by simp
      rw [head?_eq_headD hB] at hy
      have hxa : x = a := by simpa using hx.symm
      have hyc : y = c := by
        rw [hc]
        simpa using hy.symm
      subst hxa; subst hyc
      constructor
      · rw [hnext, if_pos rfl]
      · rw [hprev, if_pos rfl]

/-- Modelled from the spec: `__list_add(node, prev, next)` of the repository
header `list.h` (not under `src/`; the spec: the new element is "splice[d]
immediately after (head) or immediately before (tail) the sentinel"):
`next->prev = node; node->next = next; node->prev = prev; prev->next = node`. -/
def spliceIn (s : PState) (a x c : Nat) : PState :=
  (((s.setPrev c x).setNext x c).setPrev x a).setNext a x

/-- Splicing a fresh node `x` between the cyclically adjacent `a = last A`
and its successor extends a well-formed ring `A ++ B` to `A ++ x :: B`. -/
theorem spliceIn_WF {s : PState} {A B : List Nat} (h : WF s (A ++ B))
    (hA : A ≠ []) {x : Nat} (hx : ¬ x ∈ A ++ B) :
    WF (spliceIn s (A.getLast hA) x ((B ++ [A.headD 0]).headD 0))
      (A ++ x :: B) := by
  obtain ⟨hne, hnd, hchain⟩ := h
  set a := A.getLast hA with ha
  set c := (B ++ [A.headD 0]).headD 0 with hc
  have hamem : a ∈ A := List.getLast_mem hA
  have hndA : A.Nodup := (List.nodup_append.mp hnd).1
  have hndB : B.Nodup := (List.nodup_append.mp hnd).2.1
  have hdisj : A.Disjoint B := (List.nodup_append.mp hnd).2.2
  have hxA : ¬ x ∈ A := fun hh => hx (List.mem_append_left _ hh)
  have hxB : ¬ x ∈ B := fun hh => hx (List.mem_append_right _ hh)
  have hxa : x ≠ a := fun hh => hxA (hh ▸ hamem)
  have hxc : x ≠ c := by
    intro hh
    rcases (show c ∈ B ∨ c = A.headD 0 by
      cases B with
      | nil => right; rw [hc]; rfl
      | cons b0 B' => left; rw [hc]; simp) with hcB | hch
    · exact hxB (hh ▸ hcB)
    · exact hxA (by rw [hh, hch]; exact headD_mem hA)
  have hnext : ∀ z, (spliceIn s a x c).next z =
      if z = a then x else if z = x then c else s.next z := by
    intro z
    rw [spliceIn]
    simp only [setNext_next, setNext_prev, setPrev_next, setPrev_prev]
  have hprev : ∀ z, (spliceIn s a x c).prev z =
      if z = x then a else if z = c then x else s.prev z := by
    intro z
    rw [spliceIn]
    simp only [setNext_next, setNext_prev, setPrev_next, setPrev_prev]
  have hchain' : List.Chain' (linked s) (A ++ (B ++ [A.headD 0])) := by
    have heq : (A ++ B) ++ [(A ++ B).headD 0] = A ++ (B ++ [A.headD 0]) := by
      rw [headD_append hA]
      simp [List.append_assoc]
    rw [heq] at hchain
    exact hchain
  have hCA : List.Chain' (linked s) A := (List.chain'_append.mp hchain').1
  have hCB : List.Chain' (linked s) (B ++ [A.headD 0]) :=
    (List.chain'_append.mp hchain').2.1
  refine ⟨by simp [hA], ?_, ?_⟩
  · rw [List.nodup_middle]
    rw [List.nodup_cons]
    exact ⟨hx, hnd⟩
  · have hgoal : (A ++ x :: B) ++ [(A ++ x :: B).headD 0] =
        A ++ (x :: (B ++ [A.headD 0])) := by
      rw [headD_append hA]
      simp [List.append_assoc]
    rw [hgoal]
    rw [List.chain'_append]
    refine ⟨?_, ?_, ?_⟩
    · refine chain'_imp_strong A ?_ hCA
      intro u v hu hv hr
      have hua : u ≠ a := by
        intro huu
        exact getLast_not_mem_dropLast hA hndA (by rw [← ha, ← huu]; exact hu)
      have hvx : v ≠ x := fun hh => hxA (hh ▸ List.mem_of_mem_tail hv)
      have hvc : v ≠ c := by
        intro hvc
        rcases (show c ∈ B ∨ c = A.headD 0 by
          cases B with
          | nil => right; rw [hc]; rfl
          | cons b0 B' => left; rw [hc]; simp) with hcB | hch
        · exact hdisj (List.mem_of_mem_tail hv) (hvc ▸ hcB)
        · exact head_not_mem_tail hndA (by rw [← hch, ← hvc]; exact hv)
      have hux : u ≠ x := fun hh =>
        hxA (hh ▸ (List.dropLast_sublist A).subset hu)
      constructor
      · rw [hnext, if_neg hua, if_neg hux]; exact hr.1
      · rw [hprev, if_neg hvx, if_neg hvc]; exact hr.2
    · -- the chain `x :: (B ++ [head A])`: the pair `(x, c)` is the splice
      -- writes, the pairs inside `B` and the wrap are untouched
      rw [List.chain'_cons']
      constructor
      · intro y hy
        have hl : (B ++ [A.headD 0]) ≠ [] := by simp
        rw [head?_eq_headD hl] at hy
        have hyc : y = c := by rw [hc]; exact (Option.mem_some_iff.mp hy).symm
        subst hyc
        constructor
        · rw [hnext, if_neg hxa, if_pos rfl]
        · rw [hprev, if_neg (Ne.symm hxc), if_pos rfl]
      · refine chain'_imp_strong (B ++ [A.headD 0]) ?_ hCB
        intro u v hu hv hr
        rw [List.dropLast_concat] at hu
        have hua : u ≠ a := fun hh =>
          hdisj hamem (hh ▸ hu)
        have hux : u ≠ x := fun hh => hxB (hh ▸ hu)
        have hvmem : v ∈ B ++ [A.headD 0] := List.mem_of_mem_tail hv
        have hvx : v ≠ x := by
          intro hvx
          rcases List.mem_append.mp hvmem with hvB | hvH
          · exact hxB (hvx ▸ hvB)
          · have hvh : v = A.headD 0 := by simpa using hvH
            have hxh : A.headD 0 = x := by rw [← hvh, hvx]
            exact hxA (hxh ▸ headD_mem hA)
        have hvc : v ≠ c := by
          cases B with
          | nil => cases hv
          | cons b0 B' =>
              have hcb : c = b0 := by rw [hc]; simp
              rw [List.cons_append, List.tail_cons] at hv
              intro hvc
              rw [hvc, hcb] at hv
              rcases List.mem_append.mp hv with hvB' | hvH
              · exact (List.nodup_cons.mp hndB).1 hvB'
              · have hhb : b0 = A.headD 0 := by simpa using hvH
                refine hdisj (headD_mem hA) ?_
                rw [← hhb]
                simp
        constructor
        · rw [hnext, if_neg hua, if_neg hux]; exact hr.1
        · rw [hprev, if_neg hvx, if_neg hvc]; exact hr.2
    · -- the boundary pair `(a, x)` is the other two splice writes
      intro u hu y hy
      rw [List.getLast?_eq_getLast A hA] at hu
      have hua : u = a := by simpa using hu.symm
      have hyx : y = x := by simpa using hy.symm
      subst hua; subst hyx
      constructor
      · rw [hnext, if_pos rfl]
      · rw [hprev, if_pos rfl]

/-- Modelled from the spec: `list_del(node)` (repository header `list.h`, not
under `src/`; the spec: unlinking "restor[es] the neighbors' mutual links")
reads the node's own neighbour fields and reconnects them:
`node->prev->next = node->next; node->next->prev = node->prev`. -/
def delNodeP (s : PState) (e : Nat) : PState := spliceOut s (s.prev e) (s.next e)

/-- Unlinking a node by `list_del` removes exactly it from a well-formed
ring, leaving a well-formed ring of the remaining nodes. -/
theorem delNodeP_WF {s : PState} {P Q : List Nat} {e : Nat}
    (h : WF s (P ++ e :: Q)) (hP : P ≠ []) :
    WF (delNodeP s e) (P ++ Q) := by
  have h' : WF s (P ++ ([e] ++ Q)) := by
    rw [List.singleton_append]; exact h
  have hb1 := WF_linked_boundary h' hP
  have hprevE : s.prev e = P.getLast hP := by
    have he : ((([e] ++ Q) ++ [P.headD 0])).headD 0 = e := by simp
    rw [he] at hb1
    exact hb1.2
  have hPe : (P ++ [e]) ≠ [] := by simp
  have h'' : WF s ((P ++ [e]) ++ Q) := by
    rw [List.append_assoc, List.singleton_append]; exact h
  have hb2 := WF_linked_boundary h'' hPe
  have hlast : (P ++ [e]).getLast hPe = e := by simp
  have hheadPe : (P ++ [e]).headD 0 = P.headD 0 := headD_append hP
  have hnextE : s.next e = ((Q ++ [P.headD 0])).headD 0 := by
    rw [hlast, hheadPe] at hb2
    exact hb2.1
  rw [delNodeP, hprevE, hnextE]
  exact spliceOut_WF h' hP

/-- `INIT_LIST_HEAD(head)` (repository header `list.h`, not under `src/`;
modelled from the spec: "a sentinel node initialized to point to itself in
both directions"). -/
def initListP (s : PState) (h : Nat) : PState := (s.setNext h h).setPrev h h

/-- An initialized sentinel is a well-formed (empty) ring. -/
theorem initListP_WF (s : PState) (h : Nat) : WF (initListP s h) [h] := by
  refine ⟨by simp, by simp, ?_⟩
  simp only [List.cons_append, List.nil_append, List.headD_cons]
  rw [List.chain'_cons]
  refine ⟨⟨?_, ?_⟩, List.chain'_singleton h⟩
  · rw [initListP]; simp
  · rw [initListP]; simp

/-- In a well-formed empty ring the sentinel points at itself both ways. -/
theorem WF_empty_self {s : PState} {h : Nat} (hw : WF s [h]) :
    s.next h = h ∧ s.prev h = h := by
  obtain ⟨-, -, hchain⟩ := hw
  simp only [List.cons_append, List.nil_append, List.headD_cons] at hchain
  rw [List.chain'_cons] at hchain
  exact ⟨hchain.1.1, hchain.1.2⟩

/-- `q_insert_head`'s splice: `list_add(node, head)` splices the new node
between the sentinel and the sentinel's current successor. -/
def q_insert_headP (s : PState) (h x : Nat) : PState :=
  spliceIn s h x (s.next h)

/-- `q_insert_tail`'s splice: `list_add_tail(node, head)` splices the new
node between the sentinel's current predecessor and the sentinel. -/
def q_insert_tailP (s : PState) (h x : Nat) : PState :=
  spliceIn s (s.prev h) x h

/-- `q_remove_head`'s unlink: `list_del(head->next)`. -/
def q_remove_headP (s : PState) (h : Nat) : PState := delNodeP s (s.next h)

/-- `q_remove_tail`'s unlink: `list_del(head->prev)`. -/
def q_remove_tailP (s : PState) (h : Nat) : PState := delNodeP s (s.prev h)

/-- Head insertion of a fresh node preserves well-formedness, putting the
new node first. -/
theorem q_insert_headP_WF {s : PState} {h x : Nat} {R : List Nat}
    (hw : WF s (h :: R)) (hx : ¬ x ∈ h :: R) :
    WF (q_insert_headP s h x) (h :: x :: R) := by
  have hw' : WF s ([h] ++ R) := by rw [List.singleton_append]; exact hw
  have hb := WF_linked_boundary hw' (by simp)
  have hnexth : s.next h = ((R ++ [[h].headD 0])).headD 0 := by
    have : ([h].getLast (by simp) : Nat) = h := by simp
    rw [this] at hb
    exact hb.1
  have := spliceIn_WF hw' (by simp) (x := x) (by
    rw [List.singleton_append]; exact hx)
  rw [q_insert_headP, hnexth]
  have hg : ([h].getLast (by simp) : Nat) = h := by simp
  rw [hg] at this
  rw [List.singleton_append] at this
  exact this

/-- Tail insertion of a fresh node preserves well-formedness, putting the
new node last. -/
theorem q_insert_tailP_WF {s : PState} {h x : Nat} {R : List Nat}
    (hw : WF s (h :: R)) (hx : ¬ x ∈ h :: R) :
    WF (q_insert_tailP s h x) (h :: R ++ [x]) := by
  have hw' : WF s ((h :: R) ++ []) := by rw [List.append_nil]; exact hw
  have hb := WF_linked_boundary hw' (by simp)
  have hprevh : s.prev h = (h :: R).getLast (by simp) := by
    have : ((([] : List Nat) ++ [(h :: R).headD 0])).headD 0 = h := by simp
    rw [this] at hb
    exact hb.2
  have := spliceIn_WF hw' (by simp) (x := x) (by
    rw [List.append_nil]; exact hx)
  rw [q_insert_tailP, hprevh]
  have hc : ((([] : List Nat) ++ [(h :: R).headD 0])).headD 0 = h := by simp
  rw [hc] at this
  exact this

/-- Removing the first element preserves well-formedness. -/
theorem q_remove_headP_WF {s : PState} {h e : Nat} {R : List Nat}
    (hw : WF s (h :: e :: R)) :
    WF (q_remove_headP s h) (h :: R) := by
  have hw' : WF s ([h] ++ e :: R) := by rw [List.singleton_append]; exact hw
  have hb := WF_linked_boundary hw' (by simp)
  have hnexth : s.next h = e := by
    have h1 : ([h].getLast (by simp) : Nat) = h := by simp
    have h2 : (((e :: R) ++ [[h].headD 0])).headD 0 = e := by simp
    rw [h1, h2] at hb
    exact hb.1
  rw [q_remove_headP, hnexth]
  have := delNodeP_WF hw' (by simp)
  rw [List.singleton_append] at this
  exact this

/-- Removing the last element preserves well-formedness. -/
theorem q_remove_tailP_WF {s : PState} {h e : Nat} {R : List Nat}
    (hw : WF s (h :: R ++ [e])) :
    WF (q_remove_tailP s h) (h :: R) := by
  have hw' : WF s ((h :: R) ++ e :: []) := hw
  have hA : ((h :: R) ++ [e]) ≠ [] := by simp
  have hw'' : WF s (((h :: R) ++ [e]) ++ []) := by
    rw [List.append_nil]; exact hw'
  have hb := WF_linked_boundary hw'' hA
  have hprevh : s.prev h = ((h :: R) ++ [e]).getLast hA := by
    have h2 : ((([] : List Nat) ++ [((h :: R) ++ [e]).headD 0])).headD 0 = h := by
      simp
    rw [h2] at hb
    exact hb.2
  have hlast : ((h :: R) ++ [e]).getLast hA = e := by simp
  rw [q_remove_tailP, hprevh, hlast]
  have hd := delNodeP_WF hw' (by simp)
  rw [List.append_nil] at hd
  exact hd

/-- Well-formedness only reads the two pointer fields, so it transfers
between pointwise equal states. -/
theorem WF_ext {s t : PState} (hn : ∀ z, s.next z = t.next z)
    (hp : ∀ z, s.prev z = t.prev z) {L : List Nat} (h : WF s L) : WF t L := by
  obtain ⟨h1, h2, h3⟩ := h
  refine ⟨h1, h2, ?_⟩
  refine chain'_imp_strong _ ?_ h3
  intro x y _ _ hr
  exact ⟨(hn x) ▸ hr.1, (hp y) ▸ hr.2⟩

/-- The links into an interior node of a well-formed ring. -/
theorem WF_into {s : PState} {X Y : List Nat} {e : Nat}
    (h : WF s (X ++ e :: Y)) (hX : X ≠ []) :
    s.next (X.getLast hX) = e ∧ s.prev e = X.getLast hX := by
  have hb := WF_linked_boundary h hX
  have h2 : (((e :: Y) ++ [X.headD 0])).headD 0 = e := by simp
  rw [h2] at hb
  exact hb

/-- The wrap-around links of a well-formed ring. -/
theorem WF_wrap {s : PState} {L : List Nat} (h : WF s L) (hL : L ≠ []) :
    s.next (L.getLast hL) = L.headD 0 ∧ s.prev (L.headD 0) = L.getLast hL := by
  have h' : WF s (L ++ []) := by rw [List.append_nil]; exact h
  have hb := WF_linked_boundary h' hL
  have h2 : ((([] : List Nat) ++ [L.headD 0])).headD 0 = L.headD 0 := by simp
  rw [h2] at hb
  exact hb

/-- The mutual links of two adjacent nodes of a well-formed ring. -/
theorem WF_adj {s : PState} {X Y : List Nat} {u v : Nat}
    (h : WF s (X ++ u :: v :: Y)) :
    s.next u = v ∧ s.prev v = u := by
  have h' : WF s ((X ++ [u]) ++ v :: Y) := by
    rw [List.append_assoc]; exact h
  have hA : (X ++ [u]) ≠ [] := by simp
  have hb := WF_linked_boundary h' hA
  have h1 : ((X ++ [u]).getLast hA) = u := by simp
  have h2 : (((v :: Y) ++ [(X ++ [u]).headD 0])).headD 0 = v := by simp
  rw [h1, h2] at hb
  exact hb

/-- One iteration body of `q_swap` (variant `src/unnamed/part_001`): with
`next = node->next`, the six writes
`node->prev->next = next; next->next->prev = node; node->next = next->next;
next->next = node; next->prev = node->prev; node->prev = next`, each read
resolved against the state current at that write. -/
def swapPairP (s : PState) (node : Nat) : PState :=
  let nxt := s.next node
  let s1 := s.setNext (s.prev node) nxt
  let s2 := s1.setPrev (s1.next nxt) node
  let s3 := s2.setNext node (s2.next nxt)
  let s4 := s3.setNext nxt node
  let s5 := s4.setPrev nxt (s4.prev node)
  s5.setPrev node nxt

/-- The six `q_swap` writes exchange an adjacent pair of a well-formed ring
in place, and afterwards the walked node's `next` points past the pair. -/
theorem swapPairP_WF {s : PState} {X Y : List Nat} {a b : Nat}
    (h : WF s (X ++ a :: b :: Y)) (hX : X ≠ []) :
    WF (swapPairP s a) (X ++ b :: a :: Y) ∧
    (swapPairP s a).next a = (Y ++ [X.headD 0]).headD 0 := by
  have hnd : (X ++ a :: b :: Y).Nodup := h.2.1
  set p := X.getLast hX with hpdef
  set n := (Y ++ [X.headD 0]).headD 0 with hndef
  -- ring facts
  have hpa : s.prev a = p := (WF_into h hX).2
  have hab : s.next a = b := (WF_adj h).1
  have hba : s.prev b = a := (WF_adj h).2
  have hbn : s.next b = n := by
    have h' : WF s (((X ++ [a]) ++ [b]) ++ Y) := by
      rw [List.append_assoc, List.append_assoc]
      exact h
    have hA : ((X ++ [a]) ++ [b]) ≠ [] := by simp
    have hb' := WF_linked_boundary h' hA
    have h1 : ((X ++ [a]) ++ [b]).getLast hA = b := by simp
    have h2 : ((X ++ [a]) ++ [b]).headD 0 = X.headD 0 := by
      rw [List.append_assoc]
      exact headD_append hX
    rw [h1, h2] at hb'
    exact hb'.1
  -- distinctness
  have hdisj : X.Disjoint (a :: b :: Y) := (List.nodup_append.mp hnd).2.2
  have hndR : (a :: b :: Y).Nodup := (List.nodup_append.mp hnd).2.1
  have hpX : p ∈ X := List.getLast_mem hX
  have hpa' : p ≠ a := fun hh => hdisj hpX (by rw [hh]; simp)
  have hpb : p ≠ b := fun hh => hdisj hpX (by rw [hh]; simp)
  have hab' : a ≠ b := by
    intro hh
    exact (List.nodup_cons.mp hndR).1 (by rw [hh]; simp)
  have haY : ¬ a ∈ Y := fun hh =>
    (List.nodup_cons.mp hndR).1 (by simp [hh])
  have hbY : ¬ b ∈ Y :=
    (List.nodup_cons.mp (List.nodup_cons.mp hndR).2).1
  have hnmem : n ∈ Y ∨ n = X.headD 0 := by
    cases Y with
    | nil => right; rw [hndef]; rfl
    | cons y0 Y' => left; rw [hndef]; simp
  have hna : n ≠ a := by
    rcases hnmem with hnY | hnH
    · exact fun hh => haY (hh ▸ hnY)
    · exact fun hh => hdisj (hnH ▸ headD_mem hX) (by rw [hh]; simp)
  have hnb : n ≠ b := by
    rcases hnmem with hnY | hnH
    · exact fun hh => hbY (hh ▸ hnY)
    · exact fun hh => hdisj (hnH ▸ headD_mem hX) (by rw [hh]; simp)
  -- both the swap writes and an excise-reinsert pair realize the same state
  have hnextS : ∀ z, (swapPairP s a).next z =
      if z = p then b else if z = a then n else if z = b then a
      else s.next z := by
    intro z
    simp only [swapPairP, setNext_next, setNext_prev, setPrev_next,
      setPrev_prev, hab, hpa, hbn]
    split_ifs <;> omega
  have hprevS : ∀ z, (swapPairP s a).prev z =
      if z = n then a else if z = b then p else if z = a then b
      else s.prev z := by
    intro z
    simp only [swapPairP, setNext_next, setNext_prev, setPrev_next,
      setPrev_prev, hab, hpa, hbn]
    split_ifs <;> omega
  have hnextT : ∀ z, (spliceIn (spliceOut s p b) b a n).next z =
      if z = p then b else if z = a then n else if z = b then a
      else s.next z := by
    intro z
    simp only [spliceIn, spliceOut, setNext_next, setNext_prev,
      setPrev_next, setPrev_prev]
    split_ifs <;> omega
  have hprevT : ∀ z, (spliceIn (spliceOut s p b) b a n).prev z =
      if z = n then a else if z = b then p else if z = a then b
      else s.prev z := by
    intro z
    simp only [spliceIn, spliceOut, setNext_next, setNext_prev,
      setPrev_next, setPrev_prev]
    split_ifs <;> omega
  -- excise `a`, then re-insert it after `b`
  have h' : WF s (X ++ ([a] ++ b :: Y)) := h
  have h1 := spliceOut_WF h' hX
  have hc1 : (((b :: Y) ++ [X.headD 0])).headD 0 = b := by simp
  rw [hc1] at h1
  have h1' : WF (spliceOut s p b) ((X ++ [b]) ++ Y) := by
    rw [List.append_assoc]
    exact h1
  have hfresh : ¬ a ∈ (X ++ [b]) ++ Y := by
    intro hh
    rcases List.mem_append.mp hh with hh1 | hh2
    · rcases List.mem_append.mp hh1 with hh3 | hh4
      · exact hdisj hh3 (by simp)
      · exact hab' (by simpa using hh4)
    · exact haY hh2
  have hXb : (X ++ [b]) ≠ [] := by simp
  have h2 := spliceIn_WF h1' hXb hfresh
  have hg1 : (X ++ [b]).getLast hXb = b := by simp
  have hg2 : ((Y ++ [(X ++ [b]).headD 0])).headD 0 = n := by
    rw [headD_append hX, hndef]
  rw [hg1, hg2] at h2
  have h2' : WF (spliceIn (spliceOut s p b) b a n) (X ++ b :: a :: Y) := by
    rw [List.append_assoc] at h2
    exact h2
  constructor
  · exact WF_ext (fun z => (hnextT z).trans (hnextS z).symm)
      (fun z => (hprevT z).trans (hprevS z).symm) h2'
  · rw [hnextS a, if_neg (fun hh => hpa' hh.symm), if_pos rfl]

/-- The `q_swap` loop of variant `part_001`: starting from the first
element, exchange each adjacent pair and step past it, stopping at the
sentinel (odd leftover untouched) or when the pair would wrap
(`node != head && node->next != head`). -/
def swapLoopP (h : Nat) : Nat → PState → Nat → PState
  | 0, s, _ => s
  | fuel+1, s, node =>
      if node = h then s
      else if s.next node = h then s
      else swapLoopP h fuel (swapPairP s node) ((swapPairP s node).next node)

theorem swapLoopP_WF (h : Nat) : ∀ fuel (Z X : List Nat) (s : PState)
    (node : Nat), Z.length < fuel → WF s (X ++ Z) → X ≠ [] →
    X.headD 0 = h → node = (Z ++ [h]).headD 0 →
    ∃ Z', WF (swapLoopP h fuel s node) (X ++ Z') := by
  intro fuel
  induction fuel with
  | zero => intro Z X s node hlt; omega
  | succ fuel ih =>
      intro Z X s node hlt hw hX hh hnode
      match Z with
      | [] =>
          have hnh : node = h := by simpa using hnode
          rw [swapLoopP, if_pos hnh]
          exact ⟨[], hw⟩
      | [c] =>
          have hnc : node = c := by simpa using hnode
          have hnd := hw.2.1
          have hch : c ≠ h := by
            intro hh'
            have := (List.nodup_append.mp hnd).2.2 (hh ▸ headD_mem hX)
              (by rw [hh']; simp)
            exact this
          have hnext_c : s.next c = h := by
            have hwrap := WF_wrap hw (by simp)
            have hg : (X ++ [c]).getLast (by simp) = c := by simp
            have hhd : (X ++ [c]).headD 0 = h := by
              rw [headD_append hX]; exact hh
            rw [hg, hhd] at hwrap
            exact hwrap.1
          rw [swapLoopP, if_neg (hnc ▸ hch), hnc, if_pos hnext_c]
          exact ⟨[c], hw⟩
      | a :: b :: Y =>
          have hna : node = a := by simpa using hnode
          subst hna
          have hnd := hw.2.1
          have hdisj := (List.nodup_append.mp hnd).2.2
          have hah : node ≠ h := by
            intro hh'
            exact hdisj (hh ▸ headD_mem hX) (by rw [hh']; simp)
          have hab : s.next node = b := (WF_adj hw).1
          have hbh : b ≠ h := by
            intro hh'
            exact hdisj (hh ▸ headD_mem hX) (by rw [hh']; simp)
          obtain ⟨hw', hnext'⟩ := swapPairP_WF hw hX
          rw [swapLoopP, if_neg hah, if_neg (hab ▸ hbh)]
          have hw'' : WF (swapPairP s node) ((X ++ [b, node]) ++ Y) := by
            rw [List.append_assoc]
            exact hw'
          obtain ⟨Z', hZ'⟩ := ih Y (X ++ [b, node]) (swapPairP s node)
            ((swapPairP s node).next node) (by simp at hlt ⊢; omega) hw''
            (by simp) (by rw [headD_append hX]; exact hh)
            (by rw [hnext', hh])
          refine ⟨[b, node] ++ Z', ?_⟩
          rw [← List.append_assoc]
          exact hZ'

/-- `q_swap` (variant `part_001`) at the pointer level: run the pair-swap
loop from the sentinel's first element. -/
def q_swapP (s : PState) (h fuel : Nat) : PState :=
  swapLoopP h fuel s (s.next h)

/-- `q_swap` preserves the doubly linked circular invariant. -/
theorem q_swapP_WF {s : PState} {h : Nat} {R : List Nat}
    (hw : WF s (h :: R)) :
    ∃ R', WF (q_swapP s h (R.length + 1)) (h :: R') := by
  have hw' : WF s ([h] ++ R) := hw
  have hA : ([h] : List Nat) ≠ [] := by simp
  have hb := WF_linked_boundary hw' hA
  have h1 : ([h].getLast hA : Nat) = h := by simp
  rw [h1] at hb
  have hnexth : s.next h = (R ++ [h]).headD 0 := hb.1
  obtain ⟨Z', hZ'⟩ := swapLoopP_WF h (R.length + 1) R [h] s (s.next h)
    (by omega) hw' hA (by simp) hnexth
  refine ⟨Z', ?_⟩
  rw [q_swapP]
  exact hZ'

/-- One step of `q_reverse` (variant `part_001`): with `next` saved first,
`node->next = node->prev; node->prev = next` exchanges the node's two
links. -/
def swapNode (s : PState) (z : Nat) : PState :=
  (s.setNext z (s.prev z)).setPrev z (s.next z)

/-- The `q_reverse` do-while of variant `part_001`: starting at the
sentinel, exchange every node's links, walking the saved original `next`
pointers until the walk returns to the sentinel.  Variant `part_000`
performs the same per-node exchange on every node, elements first and the
sentinel afterwards. -/
def reverseLoop (h : Nat) : Nat → PState → Nat → PState
  | 0, s, _ => s
  | fuel+1, s, node =>
      if s.next node = h then swapNode s node
      else reverseLoop h fuel (swapNode s node) (s.next node)

/-- `q_reverse` at the pointer level. -/
def q_reverseP (s : PState) (h fuel : Nat) : PState := reverseLoop h fuel s h

@[simp] theorem swapNode_next (s : PState) (z x : Nat) :
    (swapNode s z).next x = if x = z then s.prev z else s.next x := by
  rw [swapNode]
  simp

@[simp] theorem swapNode_prev (s : PState) (z x : Nat) :
    (swapNode s z).prev x = if x = z then s.next z else s.prev x := by
  rw [swapNode]
  simp

/-- After the reverse loop, every ring node's links are exchanged. -/
theorem reverseLoop_spec (s : PState) (h : Nat) (L : List Nat)
    (hw : WF s L) (hh : L.headD 0 = h) :
    ∀ fuel (Z X : List Nat) (t : PState) (node : Nat),
    Z.length < fuel → L = X ++ node :: Z →
    (∀ z ∈ X, t.next z = s.prev z ∧ t.prev z = s.next z) →
    (∀ z ∈ node :: Z, t.next z = s.next z ∧ t.prev z = s.prev z) →
    ∀ z ∈ L, (reverseLoop h fuel t node).next z = s.prev z ∧
      (reverseLoop h fuel t node).prev z = s.next z := by
  intro fuel
  induction fuel with
  | zero => intro Z X t node hlt; omega
  | succ fuel ih =>
      intro Z X t node hlt hL hpro hun
      have hnd := hw.2.1
      have hndL := hnd
      rw [hL] at hndL
      have hnodeX : ¬ node ∈ X := by
        intro hmem
        exact (List.nodup_append.mp hndL).2.2 hmem (by simp)
      have htn : t.next node = s.next node := (hun node (by simp)).1
      match Z with
      | [] =>
          have hLne : L ≠ [] := by rw [hL]; simp
          have hwrap := WF_wrap hw hLne
          have hgl : L.getLast hLne = node := by
            have h1 : L.getLast? = some node := by
              rw [hL]
              exact List.getLast?_concat X
            rw [List.getLast?_eq_getLast L hLne] at h1
            exact Option.some_injective _ h1
          rw [hgl, hh] at hwrap
          rw [reverseLoop, if_pos (htn.trans hwrap.1)]
          intro z hz
          rw [hL] at hz
          rcases List.mem_append.mp hz with hzX | hznode
          · have hzne : z ≠ node := fun hh'' => hnodeX (hh'' ▸ hzX)
            constructor
            · rw [swapNode_next, if_neg hzne]
              exact (hpro z hzX).1
            · rw [swapNode_prev, if_neg hzne]
              exact (hpro z hzX).2
          · have hzn : z = node := by simpa using hznode
            subst hzn
            constructor
            · rw [swapNode_next, if_pos rfl]
              exact (hun z (by simp)).2
            · rw [swapNode_prev, if_pos rfl]
              exact htn
      | z0 :: Z' =>
          have hw' : WF s (X ++ node :: z0 :: Z') := by rw [← hL]; exact hw
          have hadj := WF_adj hw'
          have hz0tail : z0 ∈ L.tail := by
            rw [hL]
            cases X with
            | nil => simp
            | cons x X'' => simp
          have hz0h : z0 ≠ h := fun hh' =>
            head_not_mem_tail hnd (by rw [hh, ← hh']; exact hz0tail)
          have hnodein : ¬ node ∈ z0 :: Z' := by
            have := (List.nodup_append.mp hndL).2.1
            exact (List.nodup_cons.mp this).1
          rw [reverseLoop, htn, hadj.1, if_neg hz0h]
          refine ih Z' (X ++ [node]) (swapNode t node) z0 (by
              simp only [List.length_cons] at hlt; omega)
            (by rw [hL, List.append_assoc]; rfl) ?_ ?_
          · intro z hz
            rcases List.mem_append.mp hz with hzX | hznode
            · have hzne : z ≠ node := fun hh'' => hnodeX (hh'' ▸ hzX)
              constructor
              · rw [swapNode_next, if_neg hzne]
                exact (hpro z hzX).1
              · rw [swapNode_prev, if_neg hzne]
                exact (hpro z hzX).2
            · have hzn : z = node := by simpa using hznode
              subst hzn
              constructor
              · rw [swapNode_next, if_pos rfl]
                exact (hun z (by simp)).2
              · rw [swapNode_prev, if_pos rfl]
                exact htn
          · intro z hz
            have hzne : z ≠ node := fun hh'' => hnodein (hh'' ▸ hz)
            constructor
            · rw [swapNode_next, if_neg hzne]
              exact (hun z (List.mem_cons_of_mem _ hz)).1
            · rw [swapNode_prev, if_neg hzne]
              exact (hun z (List.mem_cons_of_mem _ hz)).2

/-- `q_reverse` exactly reverses the element order of a well-formed ring,
in place, by exchanging each ring node's two links. -/
theorem q_reverseP_WF {s : PState} {h : Nat} {R : List Nat}
    (hw : WF s (h :: R)) :
    WF (q_reverseP s h (R.length + 1)) (h :: R.reverse) ∧
    ∀ z ∈ h :: R, (q_reverseP s h (R.length + 1)).next z = s.prev z ∧
      (q_reverseP s h (R.length + 1)).prev z = s.next z := by
  have hspec := reverseLoop_spec s h (h :: R) hw rfl (R.length + 1) R [] s h
    (by omega) rfl (by intro z hz; cases hz) (fun z _ => ⟨rfl, rfl⟩)
  have hspec' : ∀ z ∈ h :: R, (q_reverseP s h (R.length + 1)).next z = s.prev z ∧
      (q_reverseP s h (R.length + 1)).prev z = s.next z := by
    intro z hz
    rw [q_reverseP]
    exact hspec z hz
  refine ⟨?_, hspec'⟩
  obtain ⟨-, hnd, hchain⟩ := hw
  have hndc := List.nodup_cons.mp hnd
  refine ⟨by simp, ?_, ?_⟩
  · rw [List.nodup_cons]
    exact ⟨by rw [List.mem_reverse]; exact hndc.1, List.nodup_reverse.mpr hndc.2⟩
  · have hflip : List.Chain'
        (fun a b => linked (q_reverseP s h (R.length + 1)) b a)
        ((h :: R) ++ [h]) := by
      refine chain'_imp_strong _ ?_ hchain
      intro x y hx hy hr
      rw [List.dropLast_concat] at hx
      have hy' : y ∈ h :: R := by
        rw [List.cons_append, List.tail_cons] at hy
        rcases List.mem_append.mp hy with hyR | hyh
        · exact List.mem_cons_of_mem _ hyR
        · simp only [List.mem_singleton] at hyh
          rw [hyh]
          simp
      exact ⟨((hspec' y hy').1).trans hr.2, ((hspec' x hx).2).trans hr.1⟩
    have hrev := List.chain'_reverse.mpr hflip
    have heq : ((h :: R) ++ [h]).reverse = (h :: R.reverse) ++ [(h :: R.reverse).headD 0] := by
      simp
    rw [heq] at hrev
    exact hrev

/-- The `q_delete_dup` traversal of variant `part_001` at the pointer
level (`val` gives each node's payload; `q_release_element` frees memory
but performs no pointer writes).  Per iteration, with `safe = entry->next`:
equal adjacent payloads extend the pending duplicate run; at the run's end
the two writes `prev->next = &safe->list; safe->list.prev = prev` excise
it; otherwise `prev` advances.  Variant `part_000` excises runs with the
same two writes. -/
def ddLoop (val : Nat → Str) (h : Nat) :
    Nat → PState → Nat → Nat → Bool → PState
  | 0, s, _, _, _ => s
  | fuel+1, s, p, entry, isDup =>
      if entry = h then s
      else
        if s.next entry ≠ h ∧ strcmp (val entry) (val (s.next entry)) = Ordering.eq then
          ddLoop val h fuel s p (s.next entry) true
        else if isDup then
          ddLoop val h fuel (spliceOut s p (s.next entry)) p (s.next entry) false
        else
          ddLoop val h fuel s (s.next p) (s.next entry) false

/-- `q_delete_dup` (variant `part_001`) at the pointer level. -/
def q_delete_dupP (val : Nat → Str) (s : PState) (h fuel : Nat) : PState :=
  ddLoop val h fuel s h (s.next h) false

theorem ddLoop_WF (val : Nat → Str) (h : Nat) :
    ∀ fuel (Z K D : List Nat) (s : PState) (p entry : Nat) (isDup : Bool),
    Z.length + 1 < fuel →
    WF s ((h :: K) ++ (D ++ entry :: Z)) →
    (isDup = false → D = []) →
    p = (h :: K).getLast (by simp) →
    ∃ K', WF (ddLoop val h fuel s p entry isDup) (h :: K') := by
  intro fuel
  induction fuel with
  | zero => intro Z K D s p entry isDup hlt; omega
  | succ fuel ih =>
      intro Z K D s p entry isDup hlt hw hdup hp
      have hAh : (h :: K) ≠ [] := by simp
      have hnd := hw.2.1
      have hent : entry ≠ h := by
        intro hh'
        refine head_not_mem_tail hnd ?_
        have hhd : ((h :: K) ++ (D ++ entry :: Z)).headD 0 = h := rfl
        rw [hhd]
        rw [show ((h :: K) ++ (D ++ entry :: Z)).tail = K ++ (D ++ entry :: Z) from rfl]
        rw [← hh']
        exact List.mem_append_right _ (List.mem_append_right _ (by simp))
      have hwE : WF s ((((h :: K) ++ D) ++ [entry]) ++ Z) := by
        rw [List.append_assoc, List.append_assoc]
        exact hw
      have hEne : (((h :: K) ++ D) ++ [entry]) ≠ [] := by simp
      have hbE := WF_linked_boundary hwE hEne
      have hg1 : (((h :: K) ++ D) ++ [entry]).getLast hEne = entry := by simp
      have hg2 : (((h :: K) ++ D) ++ [entry]).headD 0 = h := by
        rw [List.append_assoc]
        rw [headD_append hAh]
        rfl
      rw [hg1, hg2] at hbE
      have hsafe : s.next entry = (Z ++ [h]).headD 0 := hbE.1
      rw [ddLoop, if_neg hent]
      by_cases hcond : s.next entry ≠ h ∧
          strcmp (val entry) (val (s.next entry)) = Ordering.eq
      · rw [if_pos hcond]
        match Z with
        | [] =>
            exfalso
            exact hcond.1 (by rw [hsafe]; rfl)
        | z :: Z' =>
            have hz : s.next entry = z := by rw [hsafe]; rfl
            rw [hz]
            have hw' : WF s ((h :: K) ++ ((D ++ [entry]) ++ z :: Z')) := by
              rw [List.append_assoc]
              exact hw
            refine ih Z' K (D ++ [entry]) s p z true
              (by simp only [List.length_cons] at hlt; omega) hw'
              (by intro hcontra; cases hcontra) hp
      · rw [if_neg hcond]
        cases isDup with
        | true =>
            rw [if_pos rfl]
            have hwM : WF s ((h :: K) ++ ((D ++ [entry]) ++ Z)) := by
              rw [List.append_assoc]
              exact hw
            have hw2 : WF (spliceOut s p (s.next entry)) ((h :: K) ++ Z) := by
              rw [hp, hsafe]
              exact spliceOut_WF hwM hAh
            match Z with
            | [] =>
                have hsh : s.next entry = h := by rw [hsafe]; rfl
                rw [hsh]
                match fuel with
                | 0 => omega
                | fuel'+1 =>
                    rw [ddLoop, if_pos rfl]
                    refine ⟨K, ?_⟩
                    rw [hsh] at hw2
                    rw [List.append_nil] at hw2
                    exact hw2
            | z :: Z' =>
                have hz : s.next entry = z := by rw [hsafe]; rfl
                rw [hz]
                have hw2' : WF (spliceOut s p z) ((h :: K) ++ (([] : List Nat) ++ z :: Z')) := by
                  rw [List.nil_append]
                  rw [hz] at hw2
                  exact hw2
                exact ih Z' K [] (spliceOut s p z) p z false
                  (by simp only [List.length_cons] at hlt; omega) hw2'
                  (fun _ => rfl) hp
        | false =>
            rw [if_neg (by simp)]
            have hD : D = [] := hdup rfl
            subst hD
            have hw'' : WF s ((h :: K) ++ entry :: Z) := hw
            have hnp : s.next p = entry := by
              rw [hp]
              exact (WF_into hw'' hAh).1
            rw [hnp]
            have hK' : entry = (h :: (K ++ [entry])).getLast (by simp) := by
              simp
            match Z with
            | [] =>
                have hsh : s.next entry = h := by rw [hsafe]; rfl
                rw [hsh]
                match fuel with
                | 0 => omega
                | fuel'+1 =>
                    rw [ddLoop, if_pos rfl]
                    refine ⟨K ++ [entry], ?_⟩
                    have heq2 : (h :: K) ++ [entry] = h :: (K ++ [entry]) := by simp
                    rw [← heq2]
                    exact hw''
            | z :: Z' =>
                have hz : s.next entry = z := by rw [hsafe]; rfl
                rw [hz]
                have hw3 : WF s ((h :: (K ++ [entry])) ++ (([] : List Nat) ++ z :: Z')) := by
                  rw [List.nil_append]
                  have : (h :: (K ++ [entry])) ++ z :: Z' = (h :: K) ++ entry :: z :: Z' := by
                    simp
                  rw [this]
                  exact hw''
                exact ih Z' (K ++ [entry]) [] s entry z false
                  (by simp only [List.length_cons] at hlt; omega) hw3
                  (fun _ => rfl) hK'

/-- `q_delete_dup` preserves the doubly linked circular invariant. -/
theorem q_delete_dupP_WF {val : Nat → Str} {s : PState} {h : Nat}
    {R : List Nat} (hw : WF s (h :: R)) :
    ∃ R', WF (q_delete_dupP val s h (R.length + 2)) (h :: R') := by
  have hw' : WF s ([h] ++ R) := hw
  have hA : ([h] : List Nat) ≠ [] := by simp
  have hb := WF_linked_boundary hw' hA
  have h1 : ([h].getLast hA : Nat) = h := by simp
  rw [h1] at hb
  have hnexth : s.next h = (R ++ [h]).headD 0 := hb.1
  match R with
  | [] =>
      refine ⟨[], ?_⟩
      rw [q_delete_dupP, ddLoop]
      have hsh : s.next h = h := by rw [hnexth]; rfl
      rw [hsh, if_pos rfl]
      exact hw
  | r :: R' =>
      have hr : s.next h = r := by rw [hnexth]; rfl
      have hw2 : WF s ((h :: ([] : List Nat)) ++ (([] : List Nat) ++ r :: R')) := hw
      obtain ⟨K', hK'⟩ := ddLoop_WF val h (R'.length + 1 + 2) R' [] [] s h r false
        (by omega) hw2 (fun _ => rfl) rfl
      refine ⟨K', ?_⟩
      rw [q_delete_dupP, hr]
      simpa using hK'

theorem chain'_and {R S : Nat → Nat → Prop} :
    ∀ l : List Nat, List.Chain' R l → List.Chain' S l →
      List.Chain' (fun a b => R a b ∧ S a b) l := by
  intro l
  induction l with
  | nil => intro _ _; exact List.chain'_nil
  | cons a t ih =>
      intro hr hs
      cases t with
      | nil => exact List.chain'_singleton a
      | cons b t' =>
          rw [List.chain'_cons] at hr hs ⊢
          exact ⟨⟨hr.1, hs.1⟩, ih hr.2 hs.2⟩

theorem chain'_adj {R : Nat → Nat → Prop} :
    ∀ (X : List Nat) {Y : List Nat} {u v : Nat},
      List.Chain' R (X ++ u :: v :: Y) → R u v := by
  intro X
  induction X with
  | nil =>
      intro Y u v hc
      exact (List.chain'_cons.mp hc).1
  | cons x X' ih =>
      intro Y u v hc
      exact ih hc.tail

/-- The `q_sort` close-up of variant `part_000` (`head->next = result;`
then `while (node->next) { node->next->prev = node; node = node->next; }`
then `node->next = head; head->prev = node;`) and, identically, the tail
of `merge_final` in variant `part_001`: walk the null-terminated `next`
chain rewriting every `prev` pointer, then re-close the ring at the
sentinel (`NULL` is modelled as node id `0`). -/
def rebuildLoop (h : Nat) : Nat → PState → Nat → PState
  | 0, s, _ => s
  | fuel+1, s, node =>
      if s.next node = 0 then (s.setNext node h).setPrev h node
      else rebuildLoop h fuel (s.setPrev (s.next node) node) (s.next node)

/-- Walking a null-terminated `next` chain whose processed prefix already
has correct `prev` pointers, rewriting each remaining `prev` and closing
the ring, yields a well-formed ring of the whole chain. -/
theorem rebuildLoop_WF (h : Nat) : ∀ fuel (Z P : List Nat) (t : PState)
    (node : Nat), Z.length < fuel →
    List.Chain' (fun u v => t.next u = v) (P ++ node :: Z) →
    t.next ((P ++ node :: Z).getLast (by simp)) = 0 →
    List.Chain' (fun u v => t.prev v = u) (P ++ [node]) →
    (P ++ node :: Z).Nodup →
    ¬ 0 ∈ P ++ node :: Z →
    (P ++ node :: Z).headD 0 = h →
    WF (rebuildLoop h fuel t node) (P ++ node :: Z) := by
  intro fuel
  induction fuel with
  | zero => intro Z P t node hlt; omega
  | succ fuel ih =>
      intro Z P t node hlt hcn hnull hcp hnd h0 hh
      match Z with
      | [] =>
          have hgl : (P ++ [node]).getLast (by simp) = node := by simp
          rw [hgl] at hnull
          rw [rebuildLoop, if_pos hnull]
          have hcomb : List.Chain' (linked t) (P ++ [node]) :=
            chain'_and _ hcn hcp
          have hnodeP : ¬ node ∈ P := by
            intro hmem
            exact (List.nodup_append.mp hnd).2.2 hmem (by simp)
          have hhh : (P ++ [node]).headD 0 = h := hh
          refine ⟨by simp, hnd, ?_⟩
          rw [hhh]
          rw [List.chain'_append]
          refine ⟨?_, List.chain'_singleton h, ?_⟩
          · refine chain'_imp_strong _ ?_ hcomb
            intro u v hu hv hr
            rw [List.dropLast_concat] at hu
            have hun : u ≠ node := fun hh' => hnodeP (hh' ▸ hu)
            have hvh : v ≠ h := by
              intro hh'
              refine head_not_mem_tail hnd ?_
              rw [show (P ++ [node]).headD 0 = h from hh, ← hh']
              exact hv
            constructor
            · show ((t.setNext node h).setPrev h node).next u = v
              rw [setPrev_next, setNext_next, if_neg hun]
              exact hr.1
            · show ((t.setNext node h).setPrev h node).prev v = u
              rw [setPrev_prev, if_neg hvh, setNext_prev]
              exact hr.2
          · intro u hu y hy
            have hune : (P ++ [node]) ≠ [] := by simp
            rw [List.getLast?_eq_getLast _ hune, hgl] at hu
            have hu' : u = node := by simpa using hu.symm
            have hy' : y = h := by simpa using hy.symm
            rw [hu', hy']
            constructor
            · show ((t.setNext node h).setPrev h node).next node = h
              rw [setPrev_next, setNext_next, if_pos rfl]
            · show ((t.setNext node h).setPrev h node).prev h = node
              rw [setPrev_prev, if_pos rfl]
      | z :: Z' =>
          have hz : t.next node = z :=
            @chain'_adj (fun u v => t.next u = v) P Z' node z hcn
          have hz0 : z ≠ 0 := by
            intro hh'
            exact h0 (by rw [← hh']; exact List.mem_append_right _ (by simp))
          rw [rebuildLoop, hz, if_neg hz0]
          have hzP : ¬ z ∈ P ++ [node] := by
            intro hmem
            have hnd' : ((P ++ [node]) ++ z :: Z').Nodup := by
              rw [List.append_assoc]
              exact (by simpa using hnd)
            exact (List.nodup_append.mp hnd').2.2 hmem (by simp)
          have hassoc : (P ++ [node]) ++ z :: Z' = P ++ node :: z :: Z' := by
            rw [List.append_assoc]
            rfl
          have hcn' : List.Chain' (fun u v => (t.setPrev z node).next u = v)
              ((P ++ [node]) ++ z :: Z') := by
            rw [hassoc]
            refine chain'_imp_strong _ ?_ hcn
            intro u v _ _ hr
            rw [setPrev_next]
            exact hr
          have hnull' : (t.setPrev z node).next
              (((P ++ [node]) ++ z :: Z').getLast (by simp)) = 0 := by
            rw [setPrev_next]
            simp only [hassoc]
            exact hnull
          have hcp' : List.Chain' (fun u v => (t.setPrev z node).prev v = u)
              ((P ++ [node]) ++ [z]) := by
            rw [List.chain'_append]
            refine ⟨?_, List.chain'_singleton z, ?_⟩
            · refine chain'_imp_strong _ ?_ hcp
              intro u v _ hv hr
              have hvz : v ≠ z := by
                intro hh'
                exact hzP (hh' ▸ List.mem_of_mem_tail hv)
              rw [setPrev_prev, if_neg hvz]
              exact hr
            · intro u hu y hy
              have hune : (P ++ [node]) ≠ [] := by simp
              have hgl : (P ++ [node]).getLast hune = node := by simp
              rw [List.getLast?_eq_getLast _ hune, hgl] at hu
              have hu' : u = node := by simpa using hu.symm
              have hy' : y = z := by simpa using hy.symm
              subst hu'; subst hy'
              rw [setPrev_prev, if_pos rfl]
          have hres := ih (Z') (P ++ [node]) (t.setPrev z node) z
            (by simp only [List.length_cons] at hlt; omega)
            hcn' hnull' hcp'
            (by rw [hassoc]; exact hnd)
            (by rw [hassoc]; exact h0)
            (by rw [hassoc]; exact hh)
          rw [hassoc] at hres
          exact hres

/-- The close-up phase of `q_sort` (variant `part_000`, lines 372-379):
`head->next = result;` followed by the `prev`-rewriting walk from the
sentinel that re-closes circularity. -/
def q_sort_rebuildP (s : PState) (h result fuel : Nat) : PState :=
  rebuildLoop h fuel (s.setNext h result) h

/-- After the merge phase has produced any null-terminated `next` chain of
the elements, `q_sort`'s close-up rebuilds every `prev` pointer and
re-closes the ring: the result is a fully well-formed ring of the sentinel
followed by the chain. -/
theorem q_sort_rebuildP_WF {s : PState} {h : Nat} {C : List Nat}
    (hC : C ≠ []) (hnd : (h :: C).Nodup) (h0 : ¬ 0 ∈ h :: C)
    (hchain : List.Chain' (fun u v => s.next u = v) C)
    (hnull : s.next (C.getLast hC) = 0) :
    WF (q_sort_rebuildP s h (C.headD 0) (C.length + 1)) (h :: C) := by
  have hhC : ¬ h ∈ C := (List.nodup_cons.mp hnd).1
  have hres := rebuildLoop_WF h (C.length + 1) C [] (s.setNext h (C.headD 0)) h
    (by omega) ?_ ?_ ?_ ?_ ?_ ?_
  · rw [q_sort_rebuildP]
    simpa using hres
  · rw [List.nil_append]
    rw [List.chain'_cons']
    constructor
    · intro y hy
      cases C with
      | nil => exact absurd rfl hC
      | cons c C' =>
          rw [head?_eq_headD (by simp)] at hy
          have : y = c := by simpa using hy.symm
          rw [this]
          simp
    · refine chain'_imp_strong C ?_ hchain
      intro u v hu _ hr
      have hune : u ≠ h := fun hh' =>
        hhC (hh' ▸ (List.dropLast_sublist C).subset hu)
      rw [setNext_next, if_neg hune]
      exact hr
  · show (s.setNext h (C.headD 0)).next ((h :: C).getLast (by simp)) = 0
    have hgl : (h :: C).getLast (by simp) = C.getLast hC := by
      cases C with
      | nil => exact absurd rfl hC
      | cons c C' => rw [List.getLast_cons]
    have hch : ¬ C.getLast hC = h := fun hh' =>
      hhC (hh' ▸ List.getLast_mem hC)
    rw [hgl, setNext_next, if_neg hch]
    exact hnull
  · rw [List.nil_append]
    exact List.chain'_singleton h
  · rw [List.nil_append]
    exact hnd
  · rw [List.nil_append]
    exact h0
  · rw [List.nil_append]
    rfl

/-- The merging loop of `merge_final` (variant `part_001`) at the pointer
level: each step writes `tail->next = *smaller; (*smaller)->prev = tail`
(ties taking the left chain `a`), advances the chosen chain head and
`tail`; it stops when a chain is exhausted (`NULL` is node id `0`). -/
def mergeFinalLoop (val : Nat → Str) :
    Nat → PState → Nat → Nat → Nat → PState × Nat × Nat × Nat
  | 0, s, tail, a, b => (s, tail, a, b)
  | fuel+1, s, tail, a, b =>
      if a = 0 ∨ b = 0 then (s, tail, a, b)
      else if strcmp (val a) (val b) ≠ Ordering.gt then
        mergeFinalLoop val fuel ((s.setNext tail a).setPrev a tail) a (s.next a) b
      else
        mergeFinalLoop val fuel ((s.setNext tail b).setPrev b tail) b a (s.next b)

/-- `merge_final` (variant `part_001`): the merging loop starting at the
sentinel, then `tail->next = (uintptr_t) a | (uintptr_t) b` attaching the
surviving chain, then the shared `prev`-rewriting walk and ring closure. -/
def merge_finalP (val : Nat → Str) (h : Nat) (s : PState)
    (a b fuel fuel2 : Nat) : PState :=
  match mergeFinalLoop val fuel s h a b with
  | (s1, tail, a1, b1) =>
      rebuildLoop h fuel2 (s1.setNext tail (Nat.lor a1 b1)) tail

theorem mergeFinalLoop_spec (val : Nat → Str) (h : Nat) :
    ∀ fuel (LA LB M : List Nat) (s : PState) (tail : Nat),
    LA.length + LB.length < fuel →
    List.Chain' (linked s) (h :: M) →
    tail = (h :: M).getLast (by simp) →
    List.Chain' (fun u v => s.next u = v) (LA ++ [0]) →
    List.Chain' (fun u v => s.next u = v) (LB ++ [0]) →
    (h :: M).Nodup → LA.Nodup → LB.Nodup →
    (h :: M).Disjoint LA → (h :: M).Disjoint LB → LA.Disjoint LB →
    ¬ 0 ∈ h :: M → ¬ 0 ∈ LA → ¬ 0 ∈ LB →
    ∃ M' LR s1 tail1 a1 b1,
      mergeFinalLoop val fuel s tail (LA.headD 0) (LB.headD 0) =
        (s1, tail1, a1, b1) ∧
      List.Chain' (linked s1) (h :: M') ∧
      tail1 = (h :: M').getLast (by simp) ∧
      Nat.lor a1 b1 = LR.headD 0 ∧
      List.Chain' (fun u v => s1.next u = v) (LR ++ [0]) ∧
      (h :: M').Nodup ∧ LR.Nodup ∧ (h :: M').Disjoint LR ∧
      ¬ 0 ∈ h :: M' ∧ ¬ 0 ∈ LR ∧
      LR.length ≤ LA.length + LB.length := by
  intro fuel
  induction fuel with
  | zero => intro LA LB M s tail hlt; omega
  | succ fuel ih =>
      intro LA LB M s tail hlt hcM htail hcA hcB hndM hndA hndB
        hdMA hdMB hdAB h0M h0A h0B
      by_cases hstop : LA.headD 0 = 0 ∨ LB.headD 0 = 0
      · -- a chain is exhausted: the loop exits
        have hcase : LA = [] ∨ (LB = [] ∧ LA ≠ []) := by
          rcases hstop with hA | hB
          · left
            cases LA with
            | nil => rfl
            | cons x LA' =>
                exact absurd (by rw [show x = (0 : Nat) from hA]; simp) h0A
          · cases LA with
            | nil => left; rfl
            | cons x LA' =>
                right
                refine ⟨?_, by simp⟩
                cases LB with
                | nil => rfl
                | cons y LB' =>
                    exact absurd (by rw [show y = (0 : Nat) from hB]; simp) h0B
        refine ⟨M, LA ++ LB, s, tail, LA.headD 0, LB.headD 0, ?_, hcM, htail,
          ?_, ?_, hndM, List.Nodup.append hndA hndB hdAB, ?_, h0M, ?_,
          by simp⟩
        · rw [mergeFinalLoop, if_pos hstop]
        · rcases hcase with hLA | ⟨hLB, -⟩
          · rw [hLA]
            exact Nat.zero_or _
          · rw [hLB, List.append_nil]
            exact Nat.or_zero _
        · rcases hcase with hLA | ⟨hLB, -⟩
          · rw [hLA]
            exact hcB
          · rw [hLB, List.append_nil]
            exact hcA
        · intro x hxM hxAB
          rcases List.mem_append.mp hxAB with hxA | hxB
          · exact hdMA hxM hxA
          · exact hdMB hxM hxB
        · intro hmem
          rcases List.mem_append.mp hmem with hxA | hxB
          · exact h0A hxA
          · exact h0B hxB
      · -- both chains non-empty: one merge step
        push_neg at hstop
        match LA, LB with
        | [], _ => exact absurd rfl hstop.1
        | _ :: _, [] => exact absurd rfl hstop.2
        | a :: LA', b :: LB' =>
            have ha0 : a ≠ 0 := fun hh' => h0A (by rw [← hh']; simp)
            have hb0 : b ≠ 0 := fun hh' => h0B (by rw [← hh']; simp)
            have htl_mem : tail ∈ h :: M := by
              rw [htail]
              exact List.getLast_mem (by simp)
            have hsa : s.next a = LA'.headD 0 := by
              have hfst := (List.chain'_cons'.mp hcA).1
              have hne : (LA' ++ [0]) ≠ [] := by simp
              have hy := hfst ((LA' ++ [0]).headD 0) (by
                show (LA' ++ [0]).headD 0 ∈ (LA' ++ [0]).head?
                rw [head?_eq_headD hne]
                simp)
              rw [hy]
              cases LA' with
              | nil => rfl
              | cons x t => rfl
            have hsb : s.next b = LB'.headD 0 := by
              have hfst := (List.chain'_cons'.mp hcB).1
              have hne : (LB' ++ [0]) ≠ [] := by simp
              have hy := hfst ((LB' ++ [0]).headD 0) (by
                show (LB' ++ [0]).headD 0 ∈ (LB' ++ [0]).head?
                rw [head?_eq_headD hne]
                simp)
              rw [hy]
              cases LB' with
              | nil => rfl
              | cons x t => rfl
            by_cases hcmp : strcmp (val a) (val b) ≠ Ordering.gt
            · -- equal or smaller on the left: take `a`
              have hta : tail ≠ a := fun hh' =>
                hdMA (hh' ▸ htl_mem) (by simp)
              have hstep : mergeFinalLoop val (fuel+1) s tail
                  ((a :: LA').headD 0) ((b :: LB').headD 0) =
                  mergeFinalLoop val fuel ((s.setNext tail a).setPrev a tail)
                    a (s.next a) ((b :: LB').headD 0) := by
                rw [mergeFinalLoop]
                simp only [List.headD_cons]
                rw [if_neg (by push_neg; exact ⟨ha0, hb0⟩), if_pos hcmp]
              have hM'nd : (h :: (M ++ [a])).Nodup := by
                have heq : h :: (M ++ [a]) = (h :: M) ++ [a] := by simp
                rw [heq, List.nodup_append]
                refine ⟨hndM, by simp, ?_⟩
                intro x hx hxa
                have hxa' : x = a := by simpa using hxa
                exact hdMA (hxa' ▸ hx) (by simp)
              have hcM' : List.Chain'
                  (linked ((s.setNext tail a).setPrev a tail))
                  (h :: (M ++ [a])) := by
                have heq : h :: (M ++ [a]) = (h :: M) ++ [a] := by simp
                rw [heq, List.chain'_append]
                refine ⟨?_, List.chain'_singleton a, ?_⟩
                · refine chain'_imp_strong _ ?_ hcM
                  intro u v hu hv hr
                  have hut : u ≠ tail := by
                    intro hh'
                    rw [htail] at hh'
                    exact getLast_not_mem_dropLast (by simp) hndM (hh' ▸ hu)
                  have hva : v ≠ a := fun hh' =>
                    hdMA (List.mem_of_mem_tail (hh' ▸ hv)) (by simp)
                  constructor
                  · rw [setPrev_next, setNext_next, if_neg hut]
                    exact hr.1
                  · rw [setPrev_prev, if_neg hva, setNext_prev]
                    exact hr.2
                · intro u hu y hy
                  rw [List.getLast?_eq_getLast _ (by simp)] at hu
                  have hu' : u = tail := by
                    rw [htail]
                    simpa using hu.symm
                  have hy' : y = a := by simpa using hy.symm
                  rw [hu', hy']
                  constructor
                  · rw [setPrev_next, setNext_next, if_pos rfl]
                  · rw [setPrev_prev, if_pos rfl]
              have hcA' : List.Chain' (fun u v =>
                  ((s.setNext tail a).setPrev a tail).next u = v)
                  (LA' ++ [0]) := by
                refine chain'_imp_strong _ ?_ (hcA.tail)
                intro u v hu _ hr
                rw [List.dropLast_concat] at hu
                have hut : u ≠ tail := fun hh' =>
                  hdMA (hh' ▸ htl_mem) (by simp [hu])
                rw [setPrev_next, setNext_next, if_neg hut]
                exact hr
              have hcB' : List.Chain' (fun u v =>
                  ((s.setNext tail a).setPrev a tail).next u = v)
                  ((b :: LB') ++ [0]) := by
                refine chain'_imp_strong _ ?_ hcB
                intro u v hu _ hr
                rw [List.dropLast_concat] at hu
                have hut : u ≠ tail := fun hh' => hdMB (hh' ▸ htl_mem) hu
                rw [setPrev_next, setNext_next, if_neg hut]
                exact hr
              have hmemM' : ∀ x ∈ h :: (M ++ [a]), x ∈ h :: M ∨ x = a := by
                intro x hx
                rcases List.mem_cons.mp hx with hh' | hh'
                · left; rw [hh']; simp
                · rcases List.mem_append.mp hh' with hh'' | hh''
                  · left; exact List.mem_cons_of_mem _ hh''
                  · right; simpa using hh''
              have hdMA' : (h :: (M ++ [a])).Disjoint LA' := by
                intro x hx hxA
                rcases hmemM' x hx with hh' | hh'
                · exact hdMA hh' (List.mem_cons_of_mem _ hxA)
                · exact (List.nodup_cons.mp hndA).1 (hh' ▸ hxA)
              have hdMB' : (h :: (M ++ [a])).Disjoint (b :: LB') := by
                intro x hx hxB
                rcases hmemM' x hx with hh' | hh'
                · exact hdMB hh' hxB
                · exact hdAB (by rw [hh']; simp) hxB
              have hdAB' : LA'.Disjoint (b :: LB') := by
                intro x hxA hxB
                exact hdAB (List.mem_cons_of_mem _ hxA) hxB
              have h0M' : ¬ 0 ∈ h :: (M ++ [a]) := by
                intro hmem
                rcases List.mem_cons.mp hmem with hh' | hh'
                · exact h0M (by rw [hh']; simp)
                · rcases List.mem_append.mp hh' with hh'' | hh''
                  · exact h0M (List.mem_cons_of_mem _ hh'')
                  · exact ha0 (Eq.symm (by simpa using hh''))
              have h0A' : ¬ 0 ∈ LA' :=
                fun hmem => h0A (List.mem_cons_of_mem _ hmem)
              obtain ⟨M', LR, s1, tail1, a1, b1, heq, hres⟩ :=
                ih LA' (b :: LB') (M ++ [a])
                  ((s.setNext tail a).setPrev a tail) a
                  (by simp only [List.length_cons] at hlt ⊢; omega)
                  hcM' (by simp) hcA' hcB' hM'nd
                  ((List.nodup_cons.mp hndA).2) hndB hdMA' hdMB' hdAB'
                  h0M' h0A' h0B
              refine ⟨M', LR, s1, tail1, a1, b1, ?_, hres.1, hres.2.1,
                hres.2.2.1, hres.2.2.2.1, hres.2.2.2.2.1,
                hres.2.2.2.2.2.1, hres.2.2.2.2.2.2.1,
                hres.2.2.2.2.2.2.2.1, hres.2.2.2.2.2.2.2.2.1, ?_⟩
              · rw [hstep, hsa]
                exact heq
              · have hlen := hres.2.2.2.2.2.2.2.2.2
                simp only [List.length_cons] at hlen ⊢
                omega
            · -- strictly smaller on the right: take `b`
              have htb : tail ≠ b := fun hh' =>
                hdMB (hh' ▸ htl_mem) (by simp)
              have hstep : mergeFinalLoop val (fuel+1) s tail
                  ((a :: LA').headD 0) ((b :: LB').headD 0) =
                  mergeFinalLoop val fuel ((s.setNext tail b).setPrev b tail)
                    b ((a :: LA').headD 0) (s.next b) := by
                rw [mergeFinalLoop]
                simp only [List.headD_cons]
                rw [if_neg (by push_neg; exact ⟨ha0, hb0⟩), if_neg hcmp]
              have hM'nd : (h :: (M ++ [b])).Nodup := by
                have heq : h :: (M ++ [b]) = (h :: M) ++ [b] := by simp
                rw [heq, List.nodup_append]
                refine ⟨hndM, by simp, ?_⟩
                intro x hx hxb
                have hxb' : x = b := by simpa using hxb
                exact hdMB (hxb' ▸ hx) (by simp)
              have hcM' : List.Chain'
                  (linked ((s.setNext tail b).setPrev b tail))
                  (h :: (M ++ [b])) := by
                have heq : h :: (M ++ [b]) = (h :: M) ++ [b] := by simp
                rw [heq, List.chain'_append]
                refine ⟨?_, List.chain'_singleton b, ?_⟩
                · refine chain'_imp_strong _ ?_ hcM
                  intro u v hu hv hr
                  have hut : u ≠ tail := by
                    intro hh'
                    rw [htail] at hh'
                    exact getLast_not_mem_dropLast (by simp) hndM (hh' ▸ hu)
                  have hvb : v ≠ b := fun hh' =>
                    hdMB (List.mem_of_mem_tail (hh' ▸ hv)) (by simp)
                  constructor
                  · rw [setPrev_next, setNext_next, if_neg hut]
                    exact hr.1
                  · rw [setPrev_prev, if_neg hvb, setNext_prev]
                    exact hr.2
                · intro u hu y hy
                  rw [List.getLast?_eq_getLast _ (by simp)] at hu
                  have hu' : u = tail := by
                    rw [htail]
                    simpa using hu.symm
                  have hy' : y = b := by simpa using hy.symm
                  rw [hu', hy']
                  constructor
                  · rw [setPrev_next, setNext_next, if_pos rfl]
                  · rw [setPrev_prev, if_pos rfl]
              have hcA' : List.Chain' (fun u v =>
                  ((s.setNext tail b).setPrev b tail).next u = v)
                  ((a :: LA') ++ [0]) := by
                refine chain'_imp_strong _ ?_ hcA
                intro u v hu _ hr
                rw [List.dropLast_concat] at hu
                have hut : u ≠ tail := fun hh' => hdMA (hh' ▸ htl_mem) hu
                rw [setPrev_next, setNext_next, if_neg hut]
                exact hr
              have hcB' : List.Chain' (fun u v =>
                  ((s.setNext tail b).setPrev b tail).next u = v)
                  (LB' ++ [0]) := by
                refine chain'_imp_strong _ ?_ (hcB.tail)
                intro u v hu _ hr
                rw [List.dropLast_concat] at hu
                have hut : u ≠ tail := fun hh' =>
                  hdMB (hh' ▸ htl_mem) (by simp [hu])
                rw [setPrev_next, setNext_next, if_neg hut]
                exact hr
              have hmemM' : ∀ x ∈ h :: (M ++ [b]), x ∈ h :: M ∨ x = b := by
                intro x hx
                rcases List.mem_cons.mp hx with hh' | hh'
                · left; rw [hh']; simp
                · rcases List.mem_append.mp hh' with hh'' | hh''
                  · left; exact List.mem_cons_of_mem _ hh''
                  · right; simpa using hh''
              have hdMA' : (h :: (M ++ [b])).Disjoint (a :: LA') := by
                intro x hx hxA
                rcases hmemM' x hx with hh' | hh'
                · exact hdMA hh' hxA
                · exact hdAB hxA (by rw [← hh']; simp)
              have hdMB' : (h :: (M ++ [b])).Disjoint LB' := by
                intro x hx hxB
                rcases hmemM' x hx with hh' | hh'
                · exact hdMB hh' (List.mem_cons_of_mem _ hxB)
                · exact (List.nodup_cons.mp hndB).1 (hh' ▸ hxB)
              have hdAB' : (a :: LA').Disjoint LB' := by
                intro x hxA hxB
                exact hdAB hxA (List.mem_cons_of_mem _ hxB)
              have h0M' : ¬ 0 ∈ h :: (M ++ [b]) := by
                intro hmem
                rcases List.mem_cons.mp hmem with hh' | hh'
                · exact h0M (by rw [hh']; simp)
                · rcases List.mem_append.mp hh' with hh'' | hh''
                  · exact h0M (List.mem_cons_of_mem _ hh'')
                  · exact hb0 (Eq.symm (by simpa using hh''))
              have h0B' : ¬ 0 ∈ LB' :=
                fun hmem => h0B (List.mem_cons_of_mem _ hmem)
              obtain ⟨M', LR, s1, tail1, a1, b1, heq, hres⟩ :=
                ih (a :: LA') LB' (M ++ [b])
                  ((s.setNext tail b).setPrev b tail) b
                  (by simp only [List.length_cons] at hlt ⊢; omega)
                  hcM' (by simp) hcA' hcB' hM'nd
                  hndA ((List.nodup_cons.mp hndB).2) hdMA' hdMB' hdAB'
                  h0M' h0A h0B'
              refine ⟨M', LR, s1, tail1, a1, b1, ?_, hres.1, hres.2.1,
                hres.2.2.1, hres.2.2.2.1, hres.2.2.2.2.1,
                hres.2.2.2.2.2.1, hres.2.2.2.2.2.2.1,
                hres.2.2.2.2.2.2.2.1, hres.2.2.2.2.2.2.2.2.1, ?_⟩
              · rw [hstep, hsb]
                exact heq
              · have hlen := hres.2.2.2.2.2.2.2.2.2
                simp only [List.length_cons] at hlen ⊢
                omega

theorem getLast_append_cons : ∀ (P : List Nat) (x : Nat) (Q : List Nat)
    (hne : (P ++ x :: Q) ≠ []),
    (P ++ x :: Q).getLast hne = (x :: Q).getLast (by simp) := by
  intro P
  induction P with
  | nil => intro x Q hne; rfl
  | cons p P' ih =>
      intro x Q hne
      calc ((p :: P') ++ x :: Q).getLast hne
          = (p :: (P' ++ x :: Q)).getLast (by simp) := rfl
        _ = (P' ++ x :: Q).getLast (by simp) := List.getLast_cons (by simp)
        _ = (x :: Q).getLast (by simp) := ih x Q (by simp)

/-- `merge_final` re-establishes every `prev` pointer and re-closes
circularity: from the sentinel and any two disjoint null-terminated
`next` chains it produces a fully well-formed ring. -/
theorem merge_finalP_WF (val : Nat → Str) {s : PState} {h : Nat}
    {LA LB : List Nat}
    (hcA : List.Chain' (fun u v => s.next u = v) (LA ++ [0]))
    (hcB : List.Chain' (fun u v => s.next u = v) (LB ++ [0]))
    (hndA : LA.Nodup) (hndB : LB.Nodup) (hdAB : LA.Disjoint LB)
    (hhA : ¬ h ∈ LA) (hhB : ¬ h ∈ LB)
    (h0A : ¬ 0 ∈ LA) (h0B : ¬ 0 ∈ LB) (h0h : h ≠ 0) :
    ∃ R, WF (merge_finalP val h s (LA.headD 0) (LB.headD 0)
      (LA.length + LB.length + 1) (LA.length + LB.length + 1)) (h :: R) := by
  have hdMA0 : ([h] : List Nat).Disjoint LA := by
    intro x hx hxA
    have : x = h := by simpa using hx
    exact hhA (this ▸ hxA)
  have hdMB0 : ([h] : List Nat).Disjoint LB := by
    intro x hx hxB
    have : x = h := by simpa using hx
    exact hhB (this ▸ hxB)
  have h0M0 : ¬ 0 ∈ ([h] : List Nat) := by
    intro hmem
    exact h0h (Eq.symm (by simpa using hmem))
  obtain ⟨M', LR, s1, tail1, a1, b1, heq, hres⟩ :=
    mergeFinalLoop_spec val h (LA.length + LB.length + 1) LA LB [] s h
      (by omega) (List.chain'_singleton h) rfl hcA hcB (by simp)
      hndA hndB hdMA0 hdMB0 hdAB h0M0 h0A h0B
  obtain ⟨hcM', htail1, hlor, hcLR, hndM', hndLR, hdisj, h0M', h0LR, hlen⟩ :=
    hres
  refine ⟨M' ++ LR, ?_⟩
  rw [merge_finalP, heq]
  show WF (rebuildLoop h (LA.length + LB.length + 1)
    (s1.setNext tail1 (Nat.lor a1 b1)) tail1) (h :: (M' ++ LR))
  have hMne : (h :: M') ≠ [] := by simp
  have hsplit : (h :: M').dropLast ++ [tail1] = h :: M' := by
    rw [htail1]
    exact List.dropLast_append_getLast hMne
  have htlmem : tail1 ∈ h :: M' := by
    rw [htail1]
    exact List.getLast_mem hMne
  have hlist : (h :: M').dropLast ++ tail1 :: LR = (h :: M') ++ LR := by
    conv_rhs => rw [← hsplit]
    rw [List.append_assoc]
    rfl
  have hres2 := rebuildLoop_WF h (LA.length + LB.length + 1) LR
    ((h :: M').dropLast) (s1.setNext tail1 (Nat.lor a1 b1)) tail1
    (by omega) ?_ ?_ ?_ ?_ ?_ ?_
  · rw [hlist] at hres2
    have hfin : (h :: M') ++ LR = h :: (M' ++ LR) := rfl
    rw [hfin] at hres2
    exact hres2
  · -- the next chain along the merged prefix, the attach write, and the rest
    rw [hlist, List.chain'_append]
    refine ⟨?_, ?_, ?_⟩
    · refine chain'_imp_strong _ ?_ hcM'
      intro u v hu _ hr
      have hut : u ≠ tail1 := by
        intro hh'
        rw [htail1] at hh'
        exact getLast_not_mem_dropLast hMne hndM' (hh' ▸ hu)
      rw [setNext_next, if_neg hut]
      exact hr.1
    · refine chain'_imp_strong _ ?_ ((List.chain'_append.mp hcLR).1)
      intro u v hu _ hr
      have huLR : u ∈ LR := (List.dropLast_sublist LR).subset hu
      have hut : u ≠ tail1 := fun hh' => hdisj (hh' ▸ htlmem) huLR
      rw [setNext_next, if_neg hut]
      exact hr
    · intro x hx y hy
      rw [List.getLast?_eq_getLast _ hMne, ← htail1] at hx
      have hx' : x = tail1 := by simpa using hx.symm
      have hLRne : LR ≠ [] := by
        intro hh'
        rw [hh'] at hy
        cases hy
      rw [head?_eq_headD hLRne] at hy
      have hy' : y = LR.headD 0 := by simpa using hy.symm
      rw [hx', hy', setNext_next, if_pos rfl]
      exact hlor
  · -- null termination of the remaining chain
    match LR with
    | [] =>
        have hgl : ((h :: M').dropLast ++ tail1 :: ([] : List Nat)).getLast
            (by simp) = tail1 := by simp
        rw [hgl, setNext_next, if_pos rfl, hlor]
        rfl
    | r :: LR' =>
        have hgl : ((h :: M').dropLast ++ tail1 :: r :: LR').getLast
            (by simp) = (r :: LR').getLast (by simp) := by
          rw [getLast_append_cons ((h :: M').dropLast) tail1 (r :: LR')]
          rw [List.getLast_cons]
        rw [hgl]
        have hglmem : (r :: LR').getLast (by simp) ∈ r :: LR' :=
          List.getLast_mem (by simp)
        have hgt : (r :: LR').getLast (by simp) ≠ tail1 := fun hh' =>
          hdisj (hh' ▸ htlmem) hglmem
        rw [setNext_next, if_neg hgt]
        have hbd := (List.chain'_append.mp hcLR).2.2
        have := hbd ((r :: LR').getLast (by simp))
          (by rw [List.getLast?_eq_getLast _ (by simp)]; simp)
          0 (by simp)
        exact this
  · -- the prev chain along the merged prefix is untouched
    rw [hsplit]
    refine chain'_imp_strong _ ?_ hcM'
    intro u v _ _ hr
    rw [setNext_prev]
    exact hr.2
  · rw [hlist, List.nodup_append]
    exact ⟨hndM', hndLR, hdisj⟩
  · rw [hlist]
    intro hmem
    rcases List.mem_append.mp hmem with hh' | hh'
    · exact h0M' hh'
    · exact h0LR hh'
  · rw [hlist]
    rfl

/-- `q_reverse` with its guard `if (!head || list_empty(head)) return;`:
an absent handle or an empty ring is a no-op.  Modelled from the spec for
`list_empty` (repository header `list.h`, not under `src/`; the spec:
"Emptiness is defined as `sentinel.next == sentinel`"). -/
def q_reverse (ho : Option Nat) (s : PState) (fuel : Nat) : PState :=
  match ho with
  | none => s
  | some h => if s.next h = h then s else q_reverseP s h fuel

/-- The all-zero pointer state: its sentinel `0` forms a well-formed empty
ring. -/
def s0P : PState := ⟨fun _ => 0, fun _ => 0⟩

/-- A concrete well-formed three-node ring `0 → 1 → 2 → 0`. -/
def csRing3 : PState :=
  ⟨fun z => if z = 0 then 1 else if z = 1 then 2 else 0,
   fun z => if z = 0 then 2 else if z = 1 then 0 else 1⟩

theorem s0P_WF : WF s0P [0] := by
  refine ⟨by simp, by simp, ?_⟩
  exact List.chain'_cons.mpr ⟨⟨rfl, rfl⟩, List.chain'_singleton 0⟩

theorem csRing3_WF : WF csRing3 [0, 1, 2] := by
  refine ⟨by simp, by decide, ?_⟩
  exact List.chain'_cons.mpr ⟨⟨rfl, rfl⟩, List.chain'_cons.mpr ⟨⟨rfl, rfl⟩,
    List.chain'_cons.mpr ⟨⟨rfl, rfl⟩, List.chain'_singleton 0⟩⟩⟩

/-- `q_reverse` on a well-formed ring: guarded no-ops aside, it reverses
the ring order exactly, exchanging every ring node's two links. -/
theorem q_reverse_WF {s : PState} {h : Nat} {R : List Nat}
    (hw : WF s (h :: R)) :
    WF (q_reverse (some h) s (R.length + 1)) (h :: R.reverse) ∧
    ∀ z ∈ h :: R, (q_reverse (some h) s (R.length + 1)).next z = s.prev z ∧
      (q_reverse (some h) s (R.length + 1)).prev z = s.next z := by
  match R with
  | [] =>
      have hself := WF_empty_self hw
      rw [q_reverse]
      rw [if_pos hself.1]
      refine ⟨hw, ?_⟩
      intro z hz
      have hz' : z = h := by simpa using hz
      rw [hz', hself.1, hself.2]
      exact ⟨rfl, rfl⟩
  | r :: R' =>
      have hadj : s.next h = r := (@WF_adj s [] R' h r hw).1
      have hrh : r ≠ h := by
        intro hh'
        have hnd := hw.2.1
        exact (List.nodup_cons.mp hnd).1 (by rw [← hh']; simp)
      have hguard : ¬ s.next h = h := by rw [hadj]; exact hrh
      have hmain := q_reverseP_WF hw
      rw [q_reverse, if_neg hguard]
      exact hmain

/-- C9: `q_reverse` is an involution: a single call reverses the element
order of the ring exactly, in place, by exchanging every node's `next` and
`prev` links (allocating and freeing nothing — the node set is unchanged);
a second call restores both the original order and every original link;
and it is a no-op on an absent handle or an empty ring. -/
theorem claim_C9_reverse_involution :
    -- no-op on an absent handle
    (∀ (s : PState) (fuel : Nat), q_reverse none s fuel = s) ∧
    -- no-op on an empty ring
    (∀ (s : PState) (h fuel : Nat), s.next h = h →
      q_reverse (some h) s fuel = s) ∧
    -- one reverse: exact order reversal, links exchanged in place
    (∀ (s : PState) (h : Nat) (R : List Nat), WF s (h :: R) →
      WF (q_reverse (some h) s (R.length + 1)) (h :: R.reverse) ∧
      ∀ z ∈ h :: R,
        (q_reverse (some h) s (R.length + 1)).next z = s.prev z ∧
        (q_reverse (some h) s (R.length + 1)).prev z = s.next z) ∧
    -- two reverses: original order and original link identities restored
    (∀ (s : PState) (h : Nat) (R : List Nat), WF s (h :: R) →
      WF (q_reverse (some h) (q_reverse (some h) s (R.length + 1))
        (R.reverse.length + 1)) (h :: R) ∧
      ∀ z ∈ h :: R,
        (q_reverse (some h) (q_reverse (some h) s (R.length + 1))
          (R.reverse.length + 1)).next z = s.next z ∧
        (q_reverse (some h) (q_reverse (some h) s (R.length + 1))
          (R.reverse.length + 1)).prev z = s.prev z) := by
  refine ⟨fun s fuel => rfl, ?_, ?_, ?_⟩
  · intro s h fuel hself
    rw [q_reverse, if_pos hself]
  · intro s h R hw
    exact q_reverse_WF hw
  · intro s h R hw
    obtain ⟨hw1, hpt1⟩ := q_reverse_WF hw
    obtain ⟨hw2, hpt2⟩ := q_reverse_WF hw1
    rw [List.reverse_reverse] at hw2
    refine ⟨hw2, ?_⟩
    intro z hz
    have hz' : z ∈ h :: R.reverse := by
      rcases List.mem_cons.mp hz with hh' | hh'
      · rw [hh']; simp
      · exact List.mem_cons_of_mem _ (by rw [List.mem_reverse]; exact hh')
    constructor
    · rw [(hpt2 z hz').1, (hpt1 z hz).2]
    · rw [(hpt2 z hz').2, (hpt1 z hz).1]

theorem claim_C9_witness :
    WF csRing3 [0, 1, 2] ∧
    WF (q_reverse (some 0) csRing3 3) [0, 2, 1] ∧
    WF (q_reverse (some 0) (q_reverse (some 0) csRing3 3) 3) [0, 1, 2] ∧
    (q_reverse (some 0) (q_reverse (some 0) csRing3 3) 3).next 1 =
      csRing3.next 1 := by
  have h1 := (claim_C9_reverse_involution.2.2.1 csRing3 0 [1, 2] csRing3_WF).1
  have h2 := claim_C9_reverse_involution.2.2.2 csRing3 0 [1, 2] csRing3_WF
  exact ⟨csRing3_WF, h1, h2.1, (h2.2 1 (by simp)).1⟩

/-- C3: every public operation preserves the doubly linked circular
invariant.  Well-formedness of the ring implies `x.next.prev == x` and
`x.prev.next == x` for every reachable node, the empty ring is exactly the
self-linked sentinel, and each operation's pointer writes carry
well-formedness to the resulting ring: head/tail insertion (`list_add` /
`list_add_tail`), head/tail removal and `q_delete_mid` (`list_del`),
`q_delete_dup`'s run excision, `q_swap`'s pair relink, `q_reverse`'s link
exchange, and — for `q_sort`, which temporarily null-terminates the chain —
variant `part_000`'s rebuild walk and variant `part_001`'s `merge_final`
both re-establish every `prev` pointer and re-close circularity before
returning. -/
theorem claim_C3_invariant_preservation :
    -- well-formedness yields the claimed pointer equations
    (∀ (s : PState) (L : List Nat), WF s L →
      ∀ x ∈ L, s.prev (s.next x) = x ∧ s.next (s.prev x) = x) ∧
    -- the empty list: sentinel.next == sentinel.prev == sentinel
    (∀ (s : PState) (h : Nat), WF s [h] → s.next h = h ∧ s.prev h = h) ∧
    (∀ (s : PState) (h : Nat), WF (initListP s h) [h]) ∧
    -- insert_head / insert_tail
    (∀ (s : PState) (h x : Nat) (R : List Nat), WF s (h :: R) →
      ¬ x ∈ h :: R →
      WF (q_insert_headP s h x) (h :: x :: R) ∧
      WF (q_insert_tailP s h x) (h :: R ++ [x])) ∧
    -- remove_head / remove_tail
    (∀ (s : PState) (h e : Nat) (R : List Nat),
      (WF s (h :: e :: R) → WF (q_remove_headP s h) (h :: R)) ∧
      (WF s (h :: R ++ [e]) → WF (q_remove_tailP s h) (h :: R))) ∧
    -- delete_mid: `list_del` of any linked element
    (∀ (s : PState) (P Q : List Nat) (e : Nat), WF s (P ++ e :: Q) →
      P ≠ [] → WF (delNodeP s e) (P ++ Q)) ∧
    -- delete_dup
    (∀ (val : Nat → Str) (s : PState) (h : Nat) (R : List Nat),
      WF s (h :: R) →
      ∃ R', WF (q_delete_dupP val s h (R.length + 2)) (h :: R')) ∧
    -- swap
    (∀ (s : PState) (h : Nat) (R : List Nat), WF s (h :: R) →
      ∃ R', WF (q_swapP s h (R.length + 1)) (h :: R')) ∧
    -- reverse
    (∀ (s : PState) (h : Nat) (R : List Nat), WF s (h :: R) →
      WF (q_reverse (some h) s (R.length + 1)) (h :: R.reverse)) ∧
    -- sort (variant part_000): the rebuild re-establishes every prev
    -- pointer and re-closes circularity from the bare next chain
    (∀ (s : PState) (h : Nat) (C : List Nat) (hC : C ≠ []),
      (h :: C).Nodup → ¬ 0 ∈ h :: C →
      List.Chain' (fun u v => s.next u = v) C →
      s.next (C.getLast hC) = 0 →
      WF (q_sort_rebuildP s h (C.headD 0) (C.length + 1)) (h :: C)) ∧
    -- sort (variant part_001): merge_final likewise
    (∀ (val : Nat → Str) (s : PState) (h : Nat) (LA LB : List Nat),
      List.Chain' (fun u v => s.next u = v) (LA ++ [0]) →
      List.Chain' (fun u v => s.next u = v) (LB ++ [0]) →
      LA.Nodup → LB.Nodup → LA.Disjoint LB → ¬ h ∈ LA → ¬ h ∈ LB →
      ¬ 0 ∈ LA → ¬ 0 ∈ LB → h ≠ 0 →
      ∃ R, WF (merge_finalP val h s (LA.headD 0) (LB.headD 0)
        (LA.length + LB.length + 1) (LA.length + LB.length + 1))
        (h :: R)) := by
  refine ⟨?_, ?_, ?_, ?_, ?_, ?_, ?_, ?_, ?_, ?_, ?_⟩
  · intro s L hw
    exact WF_invariant hw
  · intro s h hw
    exact WF_empty_self hw
  · intro s h
    exact initListP_WF s h
  · intro s h x R hw hx
    exact ⟨q_insert_headP_WF hw hx, q_insert_tailP_WF hw hx⟩
  · intro s h e R
    exact ⟨fun hw => q_remove_headP_WF hw, fun hw => q_remove_tailP_WF hw⟩
  · intro s P Q e hw hP
    exact delNodeP_WF hw hP
  · intro val s h R hw
    exact q_delete_dupP_WF hw
  · intro s h R hw
    exact q_swapP_WF hw
  · intro s h R hw
    exact (q_reverse_WF hw).1
  · intro s h C hC hnd h0 hchain hnull
    exact q_sort_rebuildP_WF hC hnd h0 hchain hnull
  · intro val s h LA LB hcA hcB hndA hndB hdAB hhA hhB h0A h0B h0h
    exact merge_finalP_WF val hcA hcB hndA hndB hdAB hhA hhB h0A h0B h0h

theorem claim_C3_witness :
    WF s0P [0] ∧
    WF (q_insert_headP s0P 0 1) [0, 1] ∧
    WF (q_remove_headP (q_insert_headP s0P 0 1) 0) [0] := by
  have h1 := (claim_C3_invariant_preservation.2.2.2.1 s0P 0 1 [] s0P_WF
    (by decide)).1
  have h2 := (claim_C3_invariant_preservation.2.2.2.2.1
    (q_insert_headP s0P 0 1) 0 1 []).1 h1
  exact ⟨s0P_WF, h1, h2⟩

end Lab0
